import Mathlib

/-!
# Segment matching and idempotent download of `main.go`

A shallow embedding of the core of `main.go`: the matcher `findBestTorrents`,
the resolver `findMagnetLink`, the submission `addTorrent`, the store
(`loadEvents`, `saveEvents`) and the orchestrator `downloadEvent`.

Conventions.
* A Go `string` is a Lean `String`, read as its sequence of code points. The
  strings of the program come from JSON and HTML decoding, hence are valid
  UTF-8, where byte-wise and code-point-wise substring search agree.
* A Go `int` is an `Int`; the program does no arithmetic on it, it only
  compares seeders.
* The calls that leave the process (HTTP, qBittorrent, Pushover, the data
  file) are answered by an explicit environment, and every such call is
  recorded in a log, in program order.
* The bytes of the data file are named by what `loadEvents` makes of them: no
  map, the nil map of JSON `null`, or a map. A Go `map[string]Event` is an
  `Option` of its list of entries, `none` being the nil map.
* A run-time panic is an outcome of its own (`Outcome.panics`).
* `fmt.Printf` and `fmt.Println` output is not modelled.
-/

namespace Apeg

/-! ## Library functions of package `strings` -/

/-- The predicate `unicode.IsSpace`: the Latin-1 spaces
`\t \n \v \f \r`, space, U+0085, U+00A0, and the code points with the
White_Space property above Latin-1. -/
def isSpace (c : Char) : Bool :=
  let n := c.toNat
  n == 0x09 || n == 0x0A || n == 0x0B || n == 0x0C || n == 0x0D || n == 0x20
    || n == 0x85 || n == 0xA0 || n == 0x1680 || (0x2000 ≤ n && n ≤ 0x200A)
    || n == 0x2028 || n == 0x2029 || n == 0x202F || n == 0x205F || n == 0x3000

/-- The characters of `strings.TrimSpace s`: leading and trailing white space removed. -/
def trimChars (s : List Char) : List Char :=
  ((s.dropWhile isSpace).reverse.dropWhile isSpace).reverse

/-- Go `strings.TrimSpace`. -/
def TrimSpace (s : String) : String := ⟨trimChars s.data⟩

/-- Position of the first occurrence of `sub` in the remaining text, counted
from `n`, or `-1`. -/
def indexFrom (sub : List Char) : List Char → Nat → Int
  | [], n => if sub = [] then (n : Int) else -1
  | c :: cs, n => if sub.isPrefixOf (c :: cs) then (n : Int) else indexFrom sub cs (n + 1)

/-- Go `strings.Index`: the position of the first occurrence of `substr` in
`s`, or `-1` when there is none. The program only compares it with `-1`. -/
def Index (s substr : String) : Int := indexFrom substr.data s.data 0

/-- Go `strings.Contains`, which is `Index(s, substr) >= 0`. -/
def Contains (s substr : String) : Bool := decide (0 ≤ Index s substr)

/-- The pieces of a text between the occurrences of the separator character. -/
def splitChars (sep : Char) : List Char → List (List Char)
  | [] => [[]]
  | c :: cs =>
    if c = sep then [] :: splitChars sep cs
    else
      match splitChars sep cs with
      | [] => [[c]]
      | p :: ps => (c :: p) :: ps

/-- Go `strings.Split(s, sep)` for a separator of one character (the program
calls it with `" "`): one piece more than there are separators, empty pieces
included. -/
def Split (s : String) (sep : Char) : List String :=
  (splitChars sep s.data).map String.mk

/-! ## Library function `sort.Slice`

`sort.Slice(x, less)` is pattern-defeating quicksort on the index range
`[0, len)`, with `data.Less(i, j) = less(i, j)` reading the slice being
sorted and `data.Swap(i, j)` exchanging two of its elements. Loops are
structural recursions on a counter that is never exhausted before the loop
ends by itself. -/

section SortSlice

variable {α : Type}

/-- The call `data.Swap(i, j)`. -/
def Swap (data : List α) (i j : Nat) : List α :=
  match data[i]?, data[j]? with
  | some x, some y => (data.set i y).set j x
  | _, _ => data

/-- The call `data.Less(i, j)`. -/
def Less (less : α → α → Bool) (data : List α) (i j : Nat) : Bool :=
  match data[i]?, data[j]? with
  | some x, some y => less x y
  | _, _ => false

/-- Inner loop of `insertionSort_func`:
`for j := i; j > a && data.Less(j, j-1); j-- { data.Swap(j, j-1) }`. -/
def insertionSort_inner (less : α → α → Bool) (a : Nat) : Nat → List α → List α
  | 0, data => data
  | j + 1, data =>
    if a < j + 1 && Less less data (j + 1) j then
      insertionSort_inner less a j (Swap data (j + 1) j)
    else data

/-- Outer loop of `insertionSort_func`: `for i := a + 1; i < b; i++`. -/
def insertionSort_outer (less : α → α → Bool) (a b : Nat) : Nat → Nat → List α → List α
  | 0, _, data => data
  | n + 1, i, data =>
    if i < b then insertionSort_outer less a b n (i + 1) (insertionSort_inner less a i data)
    else data

/-- Go `insertionSort_func(data, a, b)`. -/
def insertionSort_func (less : α → α → Bool) (data : List α) (a b : Nat) : List α :=
  insertionSort_outer less a b (b - a) (a + 1) data

/-- Loop of `siftDown_func`, from the current `root`. -/
def siftDown_loop (less : α → α → Bool) (hi first : Nat) : Nat → Nat → List α → List α
  | 0, _, data => data
  | n + 1, root, data =>
    let child := 2 * root + 1
    if hi ≤ child then data
    else
      let child :=
        if child + 1 < hi && Less less data (first + child) (first + child + 1) then child + 1
        else child
      if !Less less data (first + root) (first + child) then data
      else siftDown_loop less hi first n child (Swap data (first + root) (first + child))

/-- Go `siftDown_func(data, lo, hi, first)`. -/
def siftDown_func (less : α → α → Bool) (data : List α) (lo hi first : Nat) : List α :=
  siftDown_loop less hi first hi lo data

/-- First loop of `heapSort_func`, `for i := (hi - 1) / 2; i >= 0; i--`, with
`n = i + 1` iterations left. -/
def heapSort_build (less : α → α → Bool) (hi first : Nat) : Nat → List α → List α
  | 0, data => data
  | i + 1, data => heapSort_build less hi first i (siftDown_func less data i hi first)

/-- Second loop of `heapSort_func`, `for i := hi - 1; i >= 0; i--`, with
`n = i + 1` iterations left. -/
def heapSort_pop (less : α → α → Bool) (first : Nat) : Nat → List α → List α
  | 0, data => data
  | i + 1, data =>
    heapSort_pop less first i (siftDown_func less (Swap data first (first + i)) 0 i first)

/-- Go `heapSort_func(data, a, b)`. -/
def heapSort_func (less : α → α → Bool) (data : List α) (a b : Nat) : List α :=
  let first := a
  let hi := b - a
  heapSort_pop less first hi (heapSort_build less hi first ((hi - 1) / 2 + 1) data)

/-- The loop `for i <= j && p(i) { i++ }`; returns the final `i`. -/
def scanUp (p : Nat → Bool) (j : Nat) : Nat → Nat → Nat
  | 0, i => i
  | n + 1, i => if i ≤ j && p i then scanUp p j n (i + 1) else i

/-- The loop `for i <= j && p(j) { j-- }`; returns the final `j`. The indices
`i` of the program are at least `1`, so the loop never goes below `0`. -/
def scanDown (p : Nat → Bool) (i : Nat) : Nat → Nat
  | 0 => 0
  | j + 1 => if i ≤ j + 1 && p (j + 1) then scanDown p i j else j + 1

/-- The `for { ... }` loop of `partition_func`; returns the slice and `j`. -/
def partition_loop (less : α → α → Bool) (a : Nat) : Nat → List α → Nat → Nat → List α × Nat
  | 0, data, _, j => (data, j)
  | n + 1, data, i, j =>
    let i := scanUp (fun k => Less less data k a) j (j + 1 - i) i
    let j := scanDown (fun k => !Less less data k a) i j
    if j < i then (data, j)
    else partition_loop less a n (Swap data i j) (i + 1) (j - 1)

/-- Go `partition_func(data, a, b, pivot)`: the slice, `newpivot` and
`alreadyPartitioned`. -/
def partition_func (less : α → α → Bool) (data : List α) (a b pivot : Nat) :
    List α × Nat × Bool :=
  let data := Swap data a pivot
  let i := scanUp (fun k => Less less data k a) (b - 1) (b - (a + 1)) (a + 1)
  let j := scanDown (fun k => !Less less data k a) i (b - 1)
  if j < i then (Swap data j a, j, true)
  else
    let r := partition_loop less a (b - a) (Swap data i j) (i + 1) (j - 1)
    (Swap r.1 r.2 a, r.2, false)

/-- The `for { ... }` loop of `partitionEqual_func`; returns the slice and `i`. -/
def partitionEqual_loop (less : α → α → Bool) (a : Nat) :
    Nat → List α → Nat → Nat → List α × Nat
  | 0, data, i, _ => (data, i)
  | n + 1, data, i, j =>
    let i := scanUp (fun k => !Less less data a k) j (j + 1 - i) i
    let j := scanDown (fun k => Less less data a k) i j
    if j < i then (data, i)
    else partitionEqual_loop less a n (Swap data i j) (i + 1) (j - 1)

/-- Go `partitionEqual_func(data, a, b, pivot)`: the slice and `newpivot`. -/
def partitionEqual_func (less : α → α → Bool) (data : List α) (a b pivot : Nat) :
    List α × Nat :=
  partitionEqual_loop less a (b - a + 1) (Swap data a pivot) (a + 1) (b - 1)

/-- Go `partialInsertionSort_func`, the loop `for j := i - 1; j >= 1; j--` that
shifts the smaller element to the left. -/
def shiftLeft_loop (less : α → α → Bool) : Nat → List α → List α
  | 0, data => data
  | j + 1, data =>
    if !Less less data (j + 1) j then data
    else shiftLeft_loop less j (Swap data (j + 1) j)

/-- Go `partialInsertionSort_func`, the loop `for j := i + 1; j < b; j++` that
shifts the greater element to the right. -/
def shiftRight_loop (less : α → α → Bool) (b : Nat) : Nat → Nat → List α → List α
  | 0, _, data => data
  | n + 1, j, data =>
    if j < b then
      if !Less less data j (j - 1) then data
      else shiftRight_loop less b n (j + 1) (Swap data j (j - 1))
    else data

/-- The loop `for j := 0; j < maxSteps; j++` of `partialInsertionSort_func`,
with `n` steps left; returns the slice and the result. -/
def partialInsertionSort_loop (less : α → α → Bool) (a b : Nat) :
    Nat → Nat → List α → List α × Bool
  | 0, _, data => (data, false)
  | n + 1, i, data =>
    let i := scanUp (fun k => !Less less data k (k - 1)) (b - 1) (b - i) i
    if i = b then (data, true)
    else if b - a < 50 then (data, false)
    else
      let data := Swap data i (i - 1)
      let data := if 2 ≤ i - a then shiftLeft_loop less (i - 1) data else data
      let data := if 2 ≤ b - i then shiftRight_loop less b (b - i) (i + 1) data else data
      partialInsertionSort_loop less a b n i data

/-- Go `partialInsertionSort_func(data, a, b)` with `maxSteps = 5` and
`shortestShifting = 50`: the slice, and whether it is sorted at the end. -/
def partialInsertionSort_func (less : α → α → Bool) (data : List α) (a b : Nat) :
    List α × Bool :=
  partialInsertionSort_loop less a b 5 (a + 1) data

/-- Number of binary digits, the body of `bitsLen`. -/
def bitsLenAux : Nat → Nat → Nat
  | 0, _ => 0
  | n + 1, x => if x = 0 then 0 else 1 + bitsLenAux n (x / 2)

/-- Go `bits.Len(uint(x))`. -/
def bitsLen (x : Nat) : Nat := bitsLenAux x x

/-- Go `(*xorshift).Next` on a `uint64` state. No theorem below depends on the
shift amounts. -/
def xorshiftNext (r : Nat) : Nat :=
  let r := Nat.xor r ((r <<< 13) % 2 ^ 64)
  let r := Nat.xor r (r >>> 7)
  Nat.xor r ((r <<< 17) % 2 ^ 64)

/-- Go `nextPowerOfTwo(length)`. -/
def nextPowerOfTwo (length : Nat) : Nat := 1 <<< bitsLen length

/-- The loop `for i := 0; i < 3; i++` of `breakPatterns_func`, with `n`
iterations left. -/
def breakPatterns_loop (a length modulus idx : Nat) : Nat → Nat → Nat → List α → List α
  | 0, _, _, data => data
  | n + 1, i, random, data =>
    let random := xorshiftNext random
    let other := Nat.land random (modulus - 1)
    let other := if length ≤ other then other - length else other
    breakPatterns_loop a length modulus idx n (i + 1) random (Swap data (idx + i) (a + other))

/-- Go `breakPatterns_func(data, a, b)`. -/
def breakPatterns_func (data : List α) (a b : Nat) : List α :=
  let length := b - a
  if 8 ≤ length then
    breakPatterns_loop a length (nextPowerOfTwo length) (a + (length / 4) * 2 - 1) 3 0 length data
  else data

/-- Go `sortedHint`. -/
inductive sortedHint where
  | unknownHint
  | increasingHint
  | decreasingHint
  deriving DecidableEq, Repr

/-- Go `order2_func(data, a, b, swaps)`: the two indices and the counter. -/
def order2_func (less : α → α → Bool) (data : List α) (a b swaps : Nat) : Nat × Nat × Nat :=
  if Less less data b a then (b, a, swaps + 1) else (a, b, swaps)

/-- Go `median_func(data, a, b, c, swaps)`: the index and the counter. -/
def median_func (less : α → α → Bool) (data : List α) (a b c swaps : Nat) : Nat × Nat :=
  let r1 := order2_func less data a b swaps
  let r2 := order2_func less data r1.2.1 c r1.2.2
  let r3 := order2_func less data r1.1 r2.1 r2.2.2
  (r3.2.1, r3.2.2)

/-- Go `medianAdjacent_func(data, a, swaps)`. -/
def medianAdjacent_func (less : α → α → Bool) (data : List α) (a swaps : Nat) : Nat × Nat :=
  median_func less data (a - 1) a (a + 1) swaps

/-- Go `choosePivot_func(data, a, b)` with `shortestNinther = 50` and
`maxSwaps = 4 * 3`. -/
def choosePivot_func (less : α → α → Bool) (data : List α) (a b : Nat) : Nat × sortedHint :=
  let l := b - a
  let i := a + l / 4 * 1
  let j := a + l / 4 * 2
  let k := a + l / 4 * 3
  let r :=
    if 8 ≤ l then
      if 50 ≤ l then
        let ri := medianAdjacent_func less data i 0
        let rj := medianAdjacent_func less data j ri.2
        let rk := medianAdjacent_func less data k rj.2
        median_func less data ri.1 rj.1 rk.1 rk.2
      else median_func less data i j k 0
    else (j, 0)
  if r.2 = 0 then (r.1, sortedHint.increasingHint)
  else if r.2 = 12 then (r.1, sortedHint.decreasingHint)
  else (r.1, sortedHint.unknownHint)

/-- The loop `for i < j` of `reverseRange_func`. -/
def reverseRange_loop : Nat → Nat → Nat → List α → List α
  | 0, _, _, data => data
  | n + 1, i, j, data =>
    if i < j then reverseRange_loop n (i + 1) (j - 1) (Swap data i j) else data

/-- Go `reverseRange_func(data, a, b)`. -/
def reverseRange_func (data : List α) (a b : Nat) : List α :=
  reverseRange_loop (b - a) a (b - 1) data

/-- Go `pdqsort_func(data, a, b, limit)` with `maxInsertion = 12`. The first
argument bounds the number of loop iterations and nested calls; the last two
are the local variables `wasBalanced` and `wasPartitioned`, both `true` on
entry of a call. -/
def pdqsort_func (less : α → α → Bool) :
    Nat → List α → Nat → Nat → Nat → Bool → Bool → List α
  | 0, data, _, _, _, _, _ => data
  | n + 1, data, a, b, limit, wasBalanced, wasPartitioned =>
    let length := b - a
    if length ≤ 12 then insertionSort_func less data a b
    else if limit = 0 then heapSort_func less data a b
    else
      let data := if !wasBalanced then breakPatterns_func data a b else data
      let limit := if !wasBalanced then limit - 1 else limit
      let ph := choosePivot_func less data a b
      let data := if ph.2 = sortedHint.decreasingHint then reverseRange_func data a b else data
      let pivot := if ph.2 = sortedHint.decreasingHint then (b - 1) - (ph.1 - a) else ph.1
      let hint := if ph.2 = sortedHint.decreasingHint then sortedHint.increasingHint else ph.2
      let pis :=
        if wasBalanced && wasPartitioned && hint = sortedHint.increasingHint then
          partialInsertionSort_func less data a b
        else (data, false)
      if pis.2 then pis.1
      else
        let data := pis.1
        if 0 < a && !Less less data (a - 1) pivot then
          let pe := partitionEqual_func less data a b pivot
          pdqsort_func less n pe.1 pe.2 b limit wasBalanced wasPartitioned
        else
          let pt := partition_func less data a b pivot
          let mid := pt.2.1
          let leftLen := mid - a
          let rightLen := b - mid
          let balanceThreshold := length / 8
          if leftLen < rightLen then
            pdqsort_func less n (pdqsort_func less n pt.1 a mid limit true true)
              (mid + 1) b limit (balanceThreshold ≤ leftLen) pt.2.2
          else
            pdqsort_func less n (pdqsort_func less n pt.1 (mid + 1) b limit true true)
              a mid limit (balanceThreshold ≤ rightLen) pt.2.2

/-- Go `sort.Slice(x, less)`: `pdqsort_func(lessSwap{less, swap}, 0, length, bits.Len(uint(length)))`.
Every round of `pdqsort_func` shrinks the range, so `length + 1` rounds are
never used up. -/
def sortSlice (less : α → α → Bool) (data : List α) : List α :=
  pdqsort_func less (data.length + 1) data 0 data.length (bitsLen data.length) true true

end SortSlice

/-! ## Notions used to state that `sort.Slice` sorts -/

section SortNotions

variable {α : Type}

/-- The key of the element at index `i`, and `0` past the end. -/
def keyAt (key : α → Int) (data : List α) (i : Nat) : Int :=
  match data[i]? with
  | some x => key x
  | none => 0

/-- The elements at the indices `[a, b)` are in non-decreasing order of key. -/
def RangeSorted (key : α → Int) (a b : Nat) (data : List α) : Prop :=
  ∀ i j, a ≤ i → i < j → j < b → keyAt key data i ≤ keyAt key data j

/-- The slice `data'` is `data` with the elements at the indices `[a, b)`
rearranged among themselves. -/
structure Within (a b : Nat) (data data' : List α) : Prop where
  length : data'.length = data.length
  outside : ∀ i, (i < a ∨ b ≤ i) → data'[i]? = data[i]?
  inside : ∀ P : α → Prop, (∀ i x, a ≤ i → i < b → data[i]? = some x → P x) →
    ∀ i x, a ≤ i → i < b → data'[i]? = some x → P x
  perm : data'.Perm data

/-- The elements of each key are in the same order in both lists. -/
def SameOrderPerKey (key : α → Int) (data data' : List α) : Prop :=
  ∀ s : Int, data'.filter (fun x => decide (key x = s)) = data.filter (fun x => decide (key x = s))

/-- The element before the range `[a, b)`, when there is one, has a key no
greater than any key in the range: the ranges `pdqsort_func` works on lie to
the right of a pivot already in place. -/
def PredBound (key : α → Int) (a b : Nat) (data : List α) : Prop :=
  a = 0 ∨ ∀ k, a ≤ k → k < b → keyAt key data (a - 1) ≤ keyAt key data k

/-- The heap of `heapSort_func` on the nodes `[lo, hi)`, stored from index
`first`: a node with its parent in the range has a key no greater than its
parent's. -/
def HeapOn (key : α → Int) (first lo hi : Nat) (data : List α) : Prop :=
  ∀ c, 1 ≤ c → c < hi → lo ≤ (c - 1) / 2 →
    keyAt key data (first + c) ≤ keyAt key data (first + (c - 1) / 2)

end SortNotions

/-! ## Data model -/

/-- A Go `error`: `none` is `nil`. The text of an error of a library call is
whatever the environment returns; the program never inspects it. -/
abbrev error := Option String

/-- Go `time.Time` as far as the program depends on it: the instant, in
seconds since the Unix epoch, and the offset of its zone, in seconds east of
UTC. -/
structure Time where
  unix : Int
  offset : Int
  deriving DecidableEq, Repr

/-- The error of Go `Time.MarshalJSON` (Go 1.20 and later): the year, read in
the zone of the value, must be within `[0, 9999]`, that is the local time is
from `0000-01-01T00:00:00` to `9999-12-31T23:59:59`, and the hours of the zone
offset must be below 24. Before Go 1.20 only the year is checked. -/
def Time.MarshalJSON (t : Time) : error :=
  if t.unix + t.offset < -62167219200 ∨ 253402300800 ≤ t.unix + t.offset then
    some "Time.MarshalJSON: year outside of range [0,9999]"
  else if 24 ≤ t.offset.natAbs / 3600 then
    some "Time.MarshalJSON: timezone hour outside of range [0,23]"
  else none

/-- The value `Time.UnmarshalJSON` reads from the text `Time.MarshalJSON`
writes. The text gives the local time and the zone offset in hours and
minutes (`offset / 60`, rounded towards zero), so the seconds of the offset go
into the instant. -/
def Time.roundTrip (t : Time) : Time :=
  ⟨t.unix + t.offset - Int.tdiv t.offset 60 * 60, Int.tdiv t.offset 60 * 60⟩

/-- Go `Event`. -/
structure Event where
  Url : String
  Name : String
  Date : Time
  EarlyPrelimsDownloaded : Bool
  PrelimsDownloaded : Bool
  MainCardDownloaded : Bool
  deriving DecidableEq, Repr

/-- The descriptor `json.Unmarshal` reads from the text `json.Marshal` writes
for a descriptor: the strings and the flags as they are, the date as
`Time.roundTrip` gives it. -/
def Event.roundTrip (e : Event) : Event := { e with Date := e.Date.roundTrip }

/-- Go `ProwlarrTorrent`. -/
structure ProwlarrTorrent where
  Guid : String
  Title : String
  Seeders : Int
  MagnetUrl : String
  deriving DecidableEq, Repr

/-- Go `EventType`. -/
structure EventType where
  Name : String
  Search : String
  ignore : List String
  deriving DecidableEq, Repr

/-- Segment definition of the early prelims. -/
def EarlyPrelims : EventType :=
  { Name := "Early Prelims", Search := "1080p early prelims",
    ignore := ["breakdown", "ppv", "embedded", "countdown"] }

/-- Segment definition of the prelims. -/
def Prelims : EventType :=
  { Name := "Prelims", Search := "1080p prelims",
    ignore := ["breakdown", "ppv", "embedded", "countdown", "early"] }

/-- Segment definition of the main card. -/
def MainCard : EventType :=
  { Name := "Main card", Search := "1080p ",
    ignore := ["breakdown", "embedded", "countdown", "prelims"] }

/-! ## The matching step of `findBestTorrents` (lines 291-317) -/

/-- Line 291: `strings.Split(strings.TrimSpace(event.Name+" "+eventType.Search), " ")`. -/
def searchString (event : Event) (eventType : EventType) : List String :=
  Split (TrimSpace (event.Name ++ " " ++ eventType.Search)) ' '

/-- Lines 297-302: the flag `containsAll` after the loop over `searchString`. -/
def containsAll (title : String) (search : List String) : Bool :=
  search.foldl (fun acc s => if !Contains title s then false else acc) true

/-- Lines 306-311: the flag `ignore` after the loop over `eventType.ignore`. -/
def ignoreFlag (title : String) (ignore : List String) : Bool :=
  ignore.foldl (fun acc s => if Contains title s then true else acc) false

/-- Lines 296-317: whether the loop appends the candidate to `matchingTorrents`. -/
def keeps (event : Event) (eventType : EventType) (t : ProwlarrTorrent) : Bool :=
  containsAll t.Title (searchString event eventType) && !ignoreFlag t.Title eventType.ignore

/-- Lines 294-317: the slice `matchingTorrents` before it is sorted. -/
def matchingTorrents (event : Event) (torrents : List ProwlarrTorrent)
    (eventType : EventType) : List ProwlarrTorrent :=
  torrents.filter (keeps event eventType)

/-! ## Collaborators -/

/-- The entries of a Go `map[string]Event` that is not nil. The Go type itself
is `Option Events`, where `none` is the nil map. -/
abbrev Events := List (String × Event)

/-- The map read `events[k]` with its `ok` flag. -/
def mapGet : Events → String → Option Event
  | [], _ => none
  | (k', v') :: rest, k => if k' = k then some v' else mapGet rest k

/-- The map write `events[k] = v` on a map that is not nil. -/
def mapSet : Events → String → Event → Events
  | [], k, v => [(k, v)]
  | (k', v') :: rest, k, v =>
    if k' = k then (k, v) :: rest else (k', v') :: mapSet rest k v

/-- The map `json.Unmarshal` reads from the text `json.Marshal` writes for a
map: the same keys, each with its descriptor as `Event.roundTrip` gives it. -/
def decoded (m : Events) : Events := m.map (fun p => (p.1, p.2.roundTrip))

/-- The map read `events[k]` with its `ok` flag, on a map that may be nil: a
nil map reads as an empty one. -/
def mapRead (events : Option Events) (k : String) : Option Event :=
  match events with
  | none => none
  | some m => mapGet m k

/-- The content of the data file, by what `loadEvents` makes of it.
`unreadable`: no map can be read, the file is absent (`os.Open` fails) or its
text is not the JSON of a `map[string]Event` (`Decode` fails), as is the text
of an empty file. `null`: the text is JSON `null`, `Decode` returns no error
and sets the map to nil. `object`: the text is a JSON object that decodes to
the map. -/
inductive DataFile where
  | unreadable (err : String)
  | null
  | object (events : Events)
  deriving DecidableEq, Repr

/-- How a call of `os.WriteFile` ends. It opens the file with `O_TRUNC`,
writes the bytes and closes the file. `written`: no error, the file holds the
bytes. `openFailed`: the file could not be opened and is as it was.
`writeFailed`: the file was opened, hence truncated, and the write or the
close failed; the file holds all the bytes (`complete`) or fewer. -/
inductive WriteResult where
  | written
  | openFailed (err : String)
  | writeFailed (err : String) (complete : Bool)
  deriving DecidableEq, Repr

/-- The error `os.WriteFile` returns. -/
def WriteResult.err : WriteResult → error
  | .written => none
  | .openFailed e => some e
  | .writeFailed e _ => some e

/-- The calls recorded in the log of a run of `downloadEvent`. -/
inductive Call where
  | loadEvents
  | searchProwlarr (name : String)
  | findBestTorrents (segment : String)
  | findMagnetLink (guid : String)
  | soupGet (url : String)
  | LoginCtx
  | AddTorrentFromUrl (magnet : String) (options : List (String × String))
  | SendMessage (message title : String)
  | WriteFile (jsonString : Option DataFile)
  deriving DecidableEq, Repr

/-- What the indexer request of `searchProwlarr` meets: `http.Get` fails,
`ioutil.ReadAll` fails, or a body arrives and `json.Unmarshal` leaves
`torrents` and returns `err`. By the documentation of `encoding/json`, a
value of the wrong type makes `Unmarshal` skip that field, complete the rest
and return an `UnmarshalTypeError`: `torrents` can be non-empty while `err`
is not `nil`. -/
inductive SearchResponse where
  | getFailed (err : String)
  | readFailed (err : String)
  | body (torrents : List ProwlarrTorrent) (err : error)
  deriving DecidableEq, Repr

/-- The world outside the process during one run. The indexer and the web
answer by their argument; the download client, the notifier and the file
system may answer differently at each call and are given the log so far.
`soupGet url` is `none` when `soup.Get` fails, else the `href` values of the
`a` elements of the page, in document order. `Open` is the error of `os.Open`
on a data file that is there (no permission to read it, too many open files).
`SendMessage` is given the message and the title of
`pushover.NewMessageWithTitle(message, title)`, `WriteFile` the bytes. -/
structure Env where
  prowlarr : String → SearchResponse
  soupGet : String → Option (List String)
  LoginCtx : List Call → error
  AddTorrentFromUrl : List Call → String → error
  SendMessage : List Call → String → String → error
  Open : error
  WriteFile : List Call → Option DataFile → WriteResult

/-- The data file. -/
structure World where
  dataFile : DataFile
  deriving DecidableEq, Repr

/-- The store held by the data file: its descriptors by key. A file that is
not a JSON object holds none. -/
def World.store (w : World) : Events :=
  match w.dataFile with
  | .object m => m
  | _ => []

/-- Go `json.Marshal(events)`: the bytes, named by the content of a file that
holds them, and the error. A nil map is encoded as `null`. The call fails,
with a nil slice, when `MarshalJSON` fails on the `Date` of an entry; the
error is that of one such entry. -/
def jsonMarshal (events : Option Events) : Option DataFile × error :=
  match events with
  | none => (some .null, none)
  | some m =>
    match m.findSome? (fun p => p.2.Date.MarshalJSON) with
    | some e => (none, some ("json: error calling MarshalJSON for type time.Time: " ++ e))
    | none => (some (.object (decoded m)), none)

/-- The content of a file that holds the bytes `jsonString`: the nil slice
leaves an empty file, at which `Decode` fails with `EOF`. -/
def fileOf (jsonString : Option DataFile) : DataFile :=
  match jsonString with
  | some content => content
  | none => .unreadable "EOF"

/-! ## The program -/

/-- Go `loadEvents` (lines 147-168): the map, which may be nil, or the error
of `os.Open` or of `Decode`. The decoder is the JSON decoder of line 158. -/
def loadEvents (env : Env) (w : World) : Except String (Option Events) :=
  match env.Open with
  | some e => .error e
  | none =>
    match w.dataFile with
    | .unreadable e => .error e
    | .null => .ok none
    | .object events => .ok (some events)

/-- Go `saveEvents` (lines 170-180): the returned error, the file afterwards
and the log. Line 172 overwrites the error of `json.Marshal`: when the
encoding fails, the nil slice is written and the error returned is that of
`os.WriteFile` alone. A file that holds fewer bytes than were to be written
is not decodable. -/
def saveEvents (env : Env) (w : World) (log : List Call) (events : Option Events) :
    error × World × List Call :=
  let jsonString := (jsonMarshal events).1
  match env.WriteFile log jsonString with
  | .written => (none, { dataFile := fileOf jsonString }, log ++ [Call.WriteFile jsonString])
  | .openFailed e => (some e, w, log ++ [Call.WriteFile jsonString])
  | .writeFailed e true =>
    (some e, { dataFile := fileOf jsonString }, log ++ [Call.WriteFile jsonString])
  | .writeFailed e false =>
    (some e, { dataFile := .unreadable "unexpected EOF" }, log ++ [Call.WriteFile jsonString])

/-- Go `searchProwlarr` (lines 340-365): the named results `torrents` and `err`. -/
def searchProwlarr (env : Env) (event : Event) : List ProwlarrTorrent × error :=
  match env.prowlarr event.Name with
  | .getFailed e => ([], some e)
  | .readFailed e => ([], some e)
  | .body torrents err => (torrents, err)

/-- Go `findMagnetLink` (lines 263-286): the named results `magnetUrl` and
`err`, and the calls made. -/
def findMagnetLink (env : Env) (torrent : ProwlarrTorrent) : (String × error) × List Call :=
  if Index torrent.Guid "magnet:?xt=" ≠ -1 then
    ((torrent.Guid, none), [Call.findMagnetLink torrent.Guid])
  else
    match env.soupGet torrent.Guid with
    | none =>
      (("", some "soup.Get"), [Call.findMagnetLink torrent.Guid, Call.soupGet torrent.Guid])
    | some doc =>
      match doc.find? (fun href => decide (Index href "magnet:?xt=" ≠ -1)) with
      | some href =>
        ((href, none), [Call.findMagnetLink torrent.Guid, Call.soupGet torrent.Guid])
      | none =>
        (("", some "No magnet link found"),
          [Call.findMagnetLink torrent.Guid, Call.soupGet torrent.Guid])

/-- Lines 319-321: `sort.Slice` with `less(i, j) = matchingTorrents[i].Seeders > matchingTorrents[j].Seeders`. -/
def rankTorrents (matching : List ProwlarrTorrent) : List ProwlarrTorrent :=
  sortSlice (fun x y => decide (x.Seeders > y.Seeders)) matching

/-- Lines 324-331: the loop over the sorted slice, from the candidates not yet
tried; `first` is `matchingTorrents[0]`. -/
def resolveLoop (env : Env) (first : ProwlarrTorrent) :
    List ProwlarrTorrent → Option ProwlarrTorrent × List Call
  | [] => (none, [])
  | t :: ts =>
    let r := findMagnetLink env t
    if 0 < r.1.1.length then (some { first with MagnetUrl := r.1.1 }, r.2)
    else
      let rest := resolveLoop env first ts
      (rest.1, r.2 ++ rest.2)

/-- Go `findBestTorrents` (lines 289-338): `best` or `err`, and the calls made. -/
def findBestTorrents (env : Env) (event : Event) (torrents : List ProwlarrTorrent)
    (eventType : EventType) : Except String ProwlarrTorrent × List Call :=
  let sorted := rankTorrents (matchingTorrents event torrents eventType)
  match sorted with
  | [] => (.error "Couldn't find best torrent", [])
  | first :: _ =>
    match resolveLoop env first sorted with
    | (some best, calls) => (.ok best, calls)
    | (none, calls) => (.error "Couldn't find best torrent", calls)

/-- Go `addTorrent` (lines 237-261): the error and the log. -/
def addTorrent (env : Env) (log : List Call) (torrent : ProwlarrTorrent) : error × List Call :=
  match env.LoginCtx log with
  | some e => (some e, log ++ [Call.LoginCtx])
  | none =>
    let log := log ++ [Call.LoginCtx]
    if 0 < torrent.MagnetUrl.length then
      let options := [("category", "ufc-downloader"), ("autoTMM", "true")]
      match env.AddTorrentFromUrl log torrent.MagnetUrl with
      | some e => (some e, log ++ [Call.AddTorrentFromUrl torrent.MagnetUrl options])
      | none => (none, log ++ [Call.AddTorrentFromUrl torrent.MagnetUrl options])
    else (none, log)

/-- Go `sendDownloadNotification` (lines 104-121): the error and the log. The
message is the text on the segment and the title is the name of the event. -/
def sendDownloadNotification (env : Env) (log : List Call) (event : Event)
    (eventType : EventType) : error × List Call :=
  (env.SendMessage log (eventType.Name ++ " sent to download client") event.Name,
    log ++ [Call.SendMessage (eventType.Name ++ " sent to download client") event.Name])

/-- The body of one of the three blocks `if !event.XDownloaded { ... }` of
`downloadEvent` (lines 201-208, 212-219, 223-230); `setFlag` is the
assignment `event.XDownloaded = true` of the block. -/
def segmentBlock (env : Env) (results : List ProwlarrTorrent) (eventType : EventType)
    (setFlag : Event → Event) (st : Event × List Call) : Event × List Call :=
  let fb := findBestTorrents env st.1 results eventType
  let log := st.2 ++ [Call.findBestTorrents eventType.Name] ++ fb.2
  match fb.1 with
  | .error _ => (st.1, log)
  | .ok best =>
    let added := addTorrent env log best
    match added.1 with
    | some _ => (st.1, added.2)
    | none => (setFlag st.1, (sendDownloadNotification env added.2 (setFlag st.1) eventType).2)

/-- Lines 200-209 of `downloadEvent`. -/
def earlyPrelimsBlock (env : Env) (results : List ProwlarrTorrent) (st : Event × List Call) :
    Event × List Call :=
  if !st.1.EarlyPrelimsDownloaded then
    segmentBlock env results EarlyPrelims (fun e => { e with EarlyPrelimsDownloaded := true }) st
  else st

/-- Lines 211-220 of `downloadEvent`. -/
def prelimsBlock (env : Env) (results : List ProwlarrTorrent) (st : Event × List Call) :
    Event × List Call :=
  if !st.1.PrelimsDownloaded then
    segmentBlock env results Prelims (fun e => { e with PrelimsDownloaded := true }) st
  else st

/-- Lines 222-231 of `downloadEvent`. -/
def mainCardBlock (env : Env) (results : List ProwlarrTorrent) (st : Event × List Call) :
    Event × List Call :=
  if !st.1.MainCardDownloaded then
    segmentBlock env results MainCard (fun e => { e with MainCardDownloaded := true }) st
  else st

/-- Lines 200-231 of `downloadEvent`: the three blocks in order, from the
event in effect and the log so far. -/
def processSegments (env : Env) (results : List ProwlarrTorrent) (st : Event × List Call) :
    Event × List Call :=
  mainCardBlock env results (prelimsBlock env results (earlyPrelimsBlock env results st))

/-- Result of a run of `downloadEvent`: the returned error, the data file
afterwards, the calls made, the local variable `event` at the end, and
whether the run ended in a run-time panic instead of returning. -/
structure Outcome where
  err : error
  world : World
  log : List Call
  event : Event
  panics : Bool

/-- Lines 184-187 of `downloadEvent`: the map in use after the load, an empty
map when the load failed, the nil map when the file holds `null`. -/
def loadedEvents (env : Env) (w : World) : Option Events :=
  match loadEvents env w with
  | .ok events => events
  | .error _ => some []

/-- Lines 189-191 of `downloadEvent`: the descriptor in effect after the load. -/
def eventInEffect (env : Env) (w : World) (event : Event) : Event :=
  match mapRead (loadedEvents env w) event.Url with
  | some val => val
  | none => event

/-- Go `downloadEvent` (lines 182-235). The write `events[event.Url] = event`
of line 232 panics on a nil map (`assignment to entry in nil map`). -/
def downloadEvent (env : Env) (w : World) (event : Event) : Outcome :=
  let events := loadedEvents env w
  let event := eventInEffect env w event
  if event.MainCardDownloaded && event.PrelimsDownloaded && event.EarlyPrelimsDownloaded then
    { err := none, world := w, log := [Call.loadEvents], event := event, panics := false }
  else
    let results := (searchProwlarr env event).1
    let st := processSegments env results (event, [Call.loadEvents, Call.searchProwlarr event.Name])
    match events with
    | none => { err := none, world := w, log := st.2, event := st.1, panics := true }
    | some m =>
      let saved := saveEvents env w st.2 (some (mapSet m st.1.Url st.1))
      { err := saved.1, world := saved.2.1, log := saved.2.2, event := st.1, panics := false }

/-- Every descriptor of the map is stored under its own `Url`: the map is a
mapping from the descriptor's `url` to the descriptor. -/
def WellKeyed (m : Events) : Prop := ∀ p ∈ m, p.2.Url = p.1

instance (m : Events) : Decidable (WellKeyed m) := by
  unfold WellKeyed
  infer_instance

/-- The options `addTorrent` passes with every submission. -/
def submitOptions : List (String × String) :=
  [("category", "ufc-downloader"), ("autoTMM", "true")]

/-- The log shows a submission for the segment: a login, the submission of a
non-empty magnet link, then the notification of the segment. -/
def Submitted (log : List Call) (segment : EventType) (name : String) : Prop :=
  ∃ l1 l2 m, m ≠ "" ∧
    log = l1 ++ [Call.LoginCtx, Call.AddTorrentFromUrl m submitOptions,
      Call.SendMessage (segment.Name ++ " sent to download client") name] ++ l2

/-- All three flags of the descriptor are set. -/
def complete (e : Event) : Prop :=
  e.EarlyPrelimsDownloaded = true ∧ e.PrelimsDownloaded = true ∧ e.MainCardDownloaded = true

instance (e : Event) : Decidable (complete e) := by
  unfold complete
  infer_instance

/-! ## The matching rule in the words of the specification -/

/-- The pieces of a text between its characters that satisfy `p`. -/
def splitWhere (p : Char → Bool) : List Char → List (List Char)
  | [] => [[]]
  | c :: cs =>
    if p c then [] :: splitWhere p cs
    else
      match splitWhere p cs with
      | [] => [[c]]
      | q :: qs => (c :: q) :: qs

/-- The required tokens in the words of the specification: the non-empty
tokens obtained by splitting `trim(eventName + " " + searchSuffix)` on white
space. -/
def whitespaceTokens (eventName searchSuffix : String) : List (List Char) :=
  (splitWhere isSpace (trimChars (eventName ++ " " ++ searchSuffix).data)).filter
    (fun tok => !tok.isEmpty)

/-- The required tokens when the text is split on the space character only. -/
def spaceTokens (eventName searchSuffix : String) : List (List Char) :=
  (splitWhere (fun c => c == ' ') (trimChars (eventName ++ " " ++ searchSuffix).data)).filter
    (fun tok => !tok.isEmpty)

/-- A title matches: every required token is a substring of it and no exclude
token is. -/
def titleMatches (tokens : List (List Char)) (excludeTokens : List String)
    (title : String) : Prop :=
  (∀ tok ∈ tokens, tok <:+: title.data) ∧ (∀ x ∈ excludeTokens, ¬ x.data <:+: title.data)

instance (tokens : List (List Char)) (excludeTokens : List String) (title : String) :
    Decidable (titleMatches tokens excludeTokens title) := by
  unfold titleMatches
  infer_instance

/-! ## Auxiliary definitions for the proofs -/

/-- What one guarded block does to the descriptor and the log. -/
structure BlockSpec (segment : EventType) (get : Event → Bool) (set : Event → Event)
    (st r : Event × List Call) : Prop where
  event : r.1 = st.1 ∨ (get st.1 = false ∧ r.1 = set st.1 ∧ Submitted r.2 segment st.1.Name)
  log : ∃ l, r.2 = st.2 ++ l

/-- Relation between the state before and after some of the blocks: identity
fields are kept, flags only rise, a risen flag comes with a submission in the
log, and the log only grows. -/
structure Progress (st r : Event × List Call) : Prop where
  url : r.1.Url = st.1.Url
  name : r.1.Name = st.1.Name
  date : r.1.Date = st.1.Date
  early : st.1.EarlyPrelimsDownloaded = true → r.1.EarlyPrelimsDownloaded = true
  prelims : st.1.PrelimsDownloaded = true → r.1.PrelimsDownloaded = true
  main : st.1.MainCardDownloaded = true → r.1.MainCardDownloaded = true
  earlySub : st.1.EarlyPrelimsDownloaded = false → r.1.EarlyPrelimsDownloaded = true →
    Submitted r.2 EarlyPrelims st.1.Name
  prelimsSub : st.1.PrelimsDownloaded = false → r.1.PrelimsDownloaded = true →
    Submitted r.2 Prelims st.1.Name
  mainSub : st.1.MainCardDownloaded = false → r.1.MainCardDownloaded = true →
    Submitted r.2 MainCard st.1.Name
  log : ∃ l, r.2 = st.2 ++ l

/-- An environment in which the indexer answers `r`, no page can be fetched
and every other call succeeds. -/
def acceptingEnv (r : SearchResponse) : Env :=
  { prowlarr := fun _ => r
    soupGet := fun _ => none
    LoginCtx := fun _ => none
    AddTorrentFromUrl := fun _ _ => none
    SendMessage := fun _ _ _ => none
    Open := none
    WriteFile := fun _ _ => .written }

/-- The event of the end-to-end example of the specification. -/
def ufc300 : Event := ⟨"e1", "ufc 300", ⟨0, 0⟩, false, false, false⟩

/-- The candidates of the end-to-end example, titles in lower case. -/
def lowerCasePool : List ProwlarrTorrent :=
  [⟨"magnet:?xt=abc", "ufc 300 1080p early prelims", 10, ""⟩,
   ⟨"magnet:?xt=def", "ufc 300 1080p prelims", 20, ""⟩,
   ⟨"magnet:?xt=ghi", "ufc 300 1080p", 30, ""⟩]

/-- The candidates of the end-to-end example as the specification gives them. -/
def specPool : List ProwlarrTorrent :=
  [⟨"magnet:?xt=abc", "UFC 300 1080p Early Prelims", 10, ""⟩,
   ⟨"magnet:?xt=def", "UFC 300 1080p Prelims", 20, ""⟩,
   ⟨"magnet:?xt=ghi", "UFC 300 1080p", 30, ""⟩]

/-- Three main-card candidates: the one with most seeders points to a page
that cannot be fetched, the other two carry a magnet link. -/
def fallbackPool : List ProwlarrTorrent :=
  [⟨"magnet:?xt=z", "ufc 300 1080p hdtv", 10, ""⟩,
   ⟨"http://tracker/x", "ufc 300 1080p", 30, ""⟩,
   ⟨"magnet:?xt=y", "ufc 300 1080p web", 20, ""⟩]

/-- The descriptor and the log after the three blocks of a run that is not
short-circuited (lines 198-231). -/
def segmentsDone (env : Env) (w : World) (event : Event) : Event × List Call :=
  processSegments env (searchProwlarr env (eventInEffect env w event)).1
    (eventInEffect env w event,
      [Call.loadEvents, Call.searchProwlarr (eventInEffect env w event).Name])

/-- The matcher calls of the pending segments of a descriptor, in order. -/
def pendingCalls (e : Event) : List Call :=
  (if e.EarlyPrelimsDownloaded then [] else [Call.findBestTorrents EarlyPrelims.Name]) ++
  (if e.PrelimsDownloaded then [] else [Call.findBestTorrents Prelims.Name]) ++
  (if e.MainCardDownloaded then [] else [Call.findBestTorrents MainCard.Name])

/-- An indexer answer with a candidate decoded and a type error reported. -/
def partialDecode : SearchResponse :=
  .body [⟨"magnet:?xt=abc", "ufc 300 1080p early prelims", 0, ""⟩]
    (some "json: cannot unmarshal string into Go struct field ProwlarrTorrent.seeders of type int")

/-! ## Inputs of the examples and the ranking in the words of the specification -/

/-- Claim C3 in the words of the specification: `ranked` is a permutation of
`matching`, ordered by seeders descending, in which candidates with equal
seeders keep their original relative order. -/
def StableRanking (matching ranked : List ProwlarrTorrent) : Prop :=
  ranked.Perm matching ∧ ranked.Pairwise (fun x y => x.Seeders ≥ y.Seeders) ∧
    ∀ s : Int, ranked.filter (fun x => decide (x.Seeders = s)) =
      matching.filter (fun x => decide (x.Seeders = s))

/-- A candidate named by its title alone. -/
def candidate (title : String) (seeders : Int) : ProwlarrTorrent :=
  ⟨"", title, seeders, ""⟩

/-- Thirteen candidates in input order: twelve with 5 seeders, then one with 9. -/
def thirteen : List ProwlarrTorrent :=
  [candidate "a" 5, candidate "b" 5, candidate "c" 5, candidate "d" 5, candidate "e" 5,
   candidate "f" 5, candidate "g" 5, candidate "h" 5, candidate "i" 5, candidate "j" 5,
   candidate "k" 5, candidate "l" 5, candidate "m" 9]

/-- The four candidates `[A, B, C, D]` of the ranking example, with seeders `[5, 9, 9, 2]`. -/
def fourCandidates : List ProwlarrTorrent :=
  [candidate "A" 5, candidate "B" 9, candidate "C" 9, candidate "D" 2]

/-- A store that holds the event of the example with all three flags set. -/
def completeWorld : World :=
  ⟨.object [("e1", ⟨"e1", "ufc 300", ⟨0, 0⟩, true, true, true⟩)]⟩

/-- A store that holds a complete event `e0` and the event of the example
with the early prelims done. -/
def twoEventsWorld : World :=
  ⟨.object [("e0", ⟨"e0", "ufc 299", ⟨0, 0⟩, true, true, true⟩),
            ("e1", ⟨"e1", "ufc 300", ⟨0, 0⟩, true, false, false⟩)]⟩

/-- A data file that cannot be decoded. -/
def brokenWorld : World :=
  ⟨.unreadable "unexpected end of JSON input"⟩

/-- An environment in which the data file cannot be opened for reading, the
indexer returns nothing and every other call succeeds. -/
def lockedEnv : Env :=
  { acceptingEnv (.body [] none) with Open := some "open: permission denied" }

/-- An environment in which the write of the data file fails after the file
was truncated, the indexer returns nothing and every other call succeeds. -/
def fullDiskEnv : Env :=
  { acceptingEnv (.body [] none) with
    WriteFile := fun _ _ => .writeFailed "write: no space left on device" false }

/-- An event that is in no store of the examples, dated in the year 10000. -/
def lateEvent : Event := ⟨"e2", "ufc 301", ⟨253402300800, 0⟩, false, false, false⟩

/-- An indexer that cannot be reached. -/
def unreachable : SearchResponse :=
  .getFailed "dial tcp: connection refused"

/-! ## Library lemmas: `strings` -/

theorem indexFrom_cases (sub l : List Char) (n : Nat) :
    indexFrom sub l n = -1 ∨ (n : Int) ≤ indexFrom sub l n := by
  induction l generalizing n with
  | nil => unfold indexFrom; split <;> simp
  | cons c cs ih =>
    unfold indexFrom
    split
    · simp
    · rcases ih (n + 1) with h | h
      · exact Or.inl h
      · right; omega

theorem indexFrom_nonneg_iff (sub l : List Char) (n : Nat) :
    0 ≤ indexFrom sub l n ↔ sub <:+: l := by
  induction l generalizing n with
  | nil =>
    unfold indexFrom
    by_cases h : sub = [] <;> simp [h]
  | cons c cs ih =>
    unfold indexFrom
    by_cases h : sub.isPrefixOf (c :: cs) = true
    · simp only [h, if_true]
      have hp : sub <+: c :: cs := List.isPrefixOf_iff_prefix.mp h
      exact ⟨fun _ => hp.isInfix, fun _ => by omega⟩
    · simp only [h]
      rw [if_neg (by simp), ih (n + 1), List.infix_cons_iff]
      constructor
      · exact Or.inr
      · rintro (hp | hi)
        · exact absurd (List.isPrefixOf_iff_prefix.mpr hp) h
        · exact hi

theorem Contains_iff (s sub : String) : Contains s sub = true ↔ sub.data <:+: s.data := by
  simp [Contains, Index, indexFrom_nonneg_iff]

theorem Index_ne_iff (s sub : String) : Index s sub ≠ -1 ↔ sub.data <:+: s.data := by
  rw [← indexFrom_nonneg_iff sub.data s.data 0]
  unfold Index
  rcases indexFrom_cases sub.data s.data 0 with h | h
  · simp [h]
  · constructor
    · intro _; simpa using h
    · intro _; omega

theorem containsAll_eq (title : String) (search : List String) :
    containsAll title search = search.all (fun s => Contains title s) := by
  unfold containsAll
  suffices h : ∀ acc : Bool, search.foldl (fun acc s => if !Contains title s then false else acc) acc
      = (acc && search.all (fun s => Contains title s)) by simpa using h true
  induction search with
  | nil => intro acc; simp
  | cons x xs ih =>
    intro acc
    simp only [List.foldl_cons, List.all_cons, ih]
    cases acc <;> cases Contains title x <;> simp

theorem ignoreFlag_eq (title : String) (ignore : List String) :
    ignoreFlag title ignore = ignore.any (fun s => Contains title s) := by
  unfold ignoreFlag
  suffices h : ∀ acc : Bool, ignore.foldl (fun acc s => if Contains title s then true else acc) acc
      = (acc || ignore.any (fun s => Contains title s)) by simpa using h false
  induction ignore with
  | nil => intro acc; simp
  | cons x xs ih =>
    intro acc
    simp only [List.foldl_cons, List.any_cons, ih]
    cases acc <;> cases Contains title x <;> simp


theorem splitChars_ne_nil (sep : Char) (l : List Char) : splitChars sep l ≠ [] := by
  cases l with
  | nil => simp [splitChars]
  | cons c cs =>
    unfold splitChars
    split
    · simp
    · split <;> simp

theorem splitChars_append_sep (sep : Char) (a b : List Char) :
    splitChars sep (a ++ sep :: b) = splitChars sep a ++ splitChars sep b := by
  induction a with
  | nil => simp [splitChars]
  | cons c cs ih =>
    by_cases h : c = sep
    · simp [splitChars, h, ih]
    · have e : splitChars sep (c :: (cs ++ sep :: b)) =
          (match splitChars sep (cs ++ sep :: b) with
            | [] => [[c]]
            | p :: ps => (c :: p) :: ps) := by
        simp [splitChars, h]
      have e2 : splitChars sep (c :: cs) =
          (match splitChars sep cs with
            | [] => [[c]]
            | p :: ps => (c :: p) :: ps) := by
        simp [splitChars, h]
      rw [List.cons_append, e, e2, ih]
      cases hs : splitChars sep cs with
      | nil => exact absurd hs (splitChars_ne_nil sep cs)
      | cons p ps => simp

theorem splitChars_of_not_mem (sep : Char) (w : List Char) (h : sep ∉ w) :
    splitChars sep w = [w] := by
  induction w with
  | nil => simp [splitChars]
  | cons c cs ih =>
    have hc : ¬ c = sep := fun e => h (by simp [e])
    have hcs : sep ∉ cs := fun e => h (by simp [e])
    simp [splitChars, hc, ih hcs]

theorem dropWhile_append_keeps (n rest : List Char) (c : Char) (r : List Char)
    (hrest : rest = c :: r) (hc : isSpace c = false) :
    ∃ l, (n ++ rest).dropWhile isSpace = l ++ rest := by
  induction n with
  | nil => exact ⟨[], by simp [hrest, List.dropWhile, hc]⟩
  | cons x xs ih =>
    by_cases hx : isSpace x = true
    · obtain ⟨l, hl⟩ := ih
      exact ⟨l, by simp [List.dropWhile, hx, hl]⟩
    · exact ⟨x :: xs, by simp [List.dropWhile, hx]⟩

theorem trimRight_of_last (x : List Char) (z : Char) (hz : isSpace z = false) :
    ((x ++ [z]).reverse.dropWhile isSpace).reverse = x ++ [z] := by
  simp [List.dropWhile, hz]

theorem trimChars_keeps_suffix (n : List Char) (c z : Char) (mid : List Char)
    (hc : isSpace c = false) (hz : isSpace z = false) :
    ∃ l, trimChars (n ++ ' ' :: (c :: mid ++ [z])) = l ++ (c :: mid ++ [z]) := by
  obtain ⟨l, hl⟩ := dropWhile_append_keeps (n ++ [' ']) (c :: mid ++ [z]) c (mid ++ [z]) rfl hc
  refine ⟨l, ?_⟩
  have e : n ++ ' ' :: (c :: mid ++ [z]) = (n ++ [' ']) ++ (c :: mid ++ [z]) := by simp
  unfold trimChars
  rw [e, hl]
  have e2 : l ++ (c :: mid ++ [z]) = (l ++ c :: mid) ++ [z] := by simp
  rw [e2]
  exact trimRight_of_last _ z hz

theorem early_mem_searchString (event : Event) :
    "early" ∈ searchString event EarlyPrelims ∧ "prelims" ∈ searchString event EarlyPrelims := by
  obtain ⟨l, hl⟩ := trimChars_keeps_suffix event.Name.data '1' 's' "080p early prelim".data
    (by decide) (by decide)
  have hd : (event.Name ++ " " ++ EarlyPrelims.Search).data
      = event.Name.data ++ ' ' :: ('1' :: "080p early prelim".data ++ ['s']) := by
    simp [String.data_append, EarlyPrelims]
  have hsplit : splitChars ' ' (l ++ ('1' :: "080p early prelim".data ++ ['s']))
      = splitChars ' ' (l ++ "1080p".data) ++ ["early".data, "prelims".data] := by
    have e : l ++ ('1' :: "080p early prelim".data ++ ['s'])
        = (l ++ "1080p".data) ++ ' ' :: ("early".data ++ ' ' :: "prelims".data) := by simp
    rw [e, splitChars_append_sep, splitChars_append_sep,
      splitChars_of_not_mem ' ' "early".data (by decide),
      splitChars_of_not_mem ' ' "prelims".data (by decide)]
    simp
  unfold searchString Split TrimSpace
  simp only [hd, hl, hsplit, List.map_append, List.mem_append, List.map_cons, List.mem_cons]
  exact ⟨Or.inr (Or.inl trivial), Or.inr (Or.inr (Or.inl trivial))⟩

theorem prelims_mem_searchString (event : Event) :
    "prelims" ∈ searchString event Prelims := by
  obtain ⟨l, hl⟩ := trimChars_keeps_suffix event.Name.data '1' 's' "080p prelim".data
    (by decide) (by decide)
  have hd : (event.Name ++ " " ++ Prelims.Search).data
      = event.Name.data ++ ' ' :: ('1' :: "080p prelim".data ++ ['s']) := by
    simp [String.data_append, Prelims]
  have hsplit : splitChars ' ' (l ++ ('1' :: "080p prelim".data ++ ['s']))
      = splitChars ' ' (l ++ "1080p".data) ++ ["prelims".data] := by
    have e : l ++ ('1' :: "080p prelim".data ++ ['s'])
        = (l ++ "1080p".data) ++ ' ' :: "prelims".data := by simp
    rw [e, splitChars_append_sep, splitChars_of_not_mem ' ' "prelims".data (by decide)]
  unfold searchString Split TrimSpace
  simp only [hd, hl, hsplit, List.map_append, List.mem_append, List.map_cons, List.mem_cons]
  exact Or.inr (Or.inl trivial)

theorem keeps_iff (event : Event) (eventType : EventType) (t : ProwlarrTorrent) :
    keeps event eventType t = true ↔
      (∀ s ∈ searchString event eventType, Contains t.Title s = true) ∧
      (∀ s ∈ eventType.ignore, Contains t.Title s = false) := by
  simp [keeps, containsAll_eq, ignoreFlag_eq, List.all_eq_true, List.any_eq_true]

theorem keeps_exclusive (event : Event) (t : ProwlarrTorrent) :
    ¬ (keeps event EarlyPrelims t = true ∧ keeps event Prelims t = true) ∧
    ¬ (keeps event EarlyPrelims t = true ∧ keeps event MainCard t = true) ∧
    ¬ (keeps event Prelims t = true ∧ keeps event MainCard t = true) := by
  simp only [keeps_iff]
  refine ⟨?_, ?_, ?_⟩
  · rintro ⟨⟨h1, _⟩, ⟨_, h2⟩⟩
    have a := h1 _ (early_mem_searchString event).1
    have b := h2 "early" (by simp [Prelims])
    simp [a] at b
  · rintro ⟨⟨h1, _⟩, ⟨_, h2⟩⟩
    have a := h1 _ (early_mem_searchString event).2
    have b := h2 "prelims" (by simp [MainCard])
    simp [a] at b
  · rintro ⟨⟨h1, _⟩, ⟨_, h2⟩⟩
    have a := h1 _ (prelims_mem_searchString event)
    have b := h2 "prelims" (by simp [MainCard])
    simp [a] at b

/-! ## `sort.Slice` sorts -/

section SortProofs

variable {α : Type}

theorem Swap_length (data : List α) (i j : Nat) : (Swap data i j).length = data.length := by
  unfold Swap
  split <;> simp

theorem Swap_perm (data : List α) (i j : Nat) : (Swap data i j).Perm data := by
  classical
  unfold Swap
  split
  · rename_i x y hx hy
    obtain ⟨hi, hxi⟩ := List.getElem?_eq_some.mp hx
    obtain ⟨hj, hyj⟩ := List.getElem?_eq_some.mp hy
    rw [List.perm_iff_count]
    intro b
    have hj' : j < (data.set i y).length := by simpa using hj
    have e1 : (data.set i y)[j] = y := by
      rw [List.getElem_set]
      split
      · rfl
      · exact hyj
    have h1 := List.count_set x b (data.set i y) j hj'
    have h2 := List.count_set y b data i hi
    rw [e1] at h1
    rw [hxi] at h2
    have hle : (if (x == b) = true then 1 else 0) ≤ data.count b := by
      have := List.boole_getElem_le_countP (fun a => a == b) data i hi
      rw [hxi] at this
      simpa [List.count_eq_countP] using this
    rw [h1, h2]
    by_cases hxb : (x == b) = true <;> by_cases hyb : (y == b) = true <;>
      simp only [hxb, hyb, if_true, if_false] at hle ⊢ <;> omega
  · exact List.Perm.refl _

theorem Swap_getElem? (data : List α) (i j k : Nat) (hi : i < data.length) (hj : j < data.length) :
    (Swap data i j)[k]? = if k = j then data[i]? else if k = i then data[j]? else data[k]? := by
  unfold Swap
  rw [List.getElem?_eq_getElem hi, List.getElem?_eq_getElem hj]
  simp only [List.getElem?_set]
  by_cases hkj : k = j
  · subst hkj
    simp [hi, hj]
  · by_cases hki : k = i
    · subst hki
      simp [hkj, Ne.symm hkj, hj, hi]
    · simp [hkj, hki, Ne.symm hkj, Ne.symm hki]

theorem keyAt_of_getElem? (key : α → Int) (data : List α) (i : Nat) (x : α)
    (h : data[i]? = some x) : keyAt key data i = key x := by
  simp [keyAt, h]

theorem keyAt_Swap (key : α → Int) (data : List α) (i j k : Nat)
    (hi : i < data.length) (hj : j < data.length) :
    keyAt key (Swap data i j) k =
      if k = j then keyAt key data i else if k = i then keyAt key data j else keyAt key data k := by
  unfold keyAt
  rw [Swap_getElem? data i j k hi hj]
  by_cases h1 : k = j
  · simp only [h1, if_true]
  · by_cases h2 : k = i
    · subst h2
      simp only [h1, if_true, if_false]
    · simp only [h1, h2, if_false]

theorem Less_eq (less : α → α → Bool) (key : α → Int)
    (hless : ∀ x y, less x y = decide (key x < key y)) (data : List α) (i j : Nat)
    (hi : i < data.length) (hj : j < data.length) :
    Less less data i j = decide (keyAt key data i < keyAt key data j) := by
  unfold Less keyAt
  rw [List.getElem?_eq_getElem hi, List.getElem?_eq_getElem hj]
  exact hless _ _

theorem Within.same (a b : Nat) (data : List α) : Within a b data data :=
  ⟨rfl, fun _ _ => rfl, fun _ h => h, List.Perm.refl _⟩

theorem Within.followedBy {a b : Nat} {d1 d2 d3 : List α} (h1 : Within a b d1 d2)
    (h2 : Within a b d2 d3) : Within a b d1 d3 :=
  ⟨h2.length.trans h1.length, fun i hi => (h2.outside i hi).trans (h1.outside i hi),
    fun P hP => h2.inside P (h1.inside P hP), h2.perm.trans h1.perm⟩

theorem Within.widen {a b a' b' : Nat} {d1 d2 : List α} (h : Within a' b' d1 d2)
    (ha : a ≤ a') (hb : b' ≤ b) : Within a b d1 d2 := by
  refine ⟨h.length, fun i hi => h.outside i (by omega), ?_, h.perm⟩
  intro P hP i x hai hib hx
  by_cases hin : a' ≤ i ∧ i < b'
  · exact h.inside P (fun k y hk1 hk2 hy => hP k y (by omega) (by omega) hy) i x hin.1 hin.2 hx
  · rw [h.outside i (by omega)] at hx
    exact hP i x hai hib hx

theorem Within.swap (a b : Nat) (data : List α) (i j : Nat) (hai : a ≤ i) (hib : i < b)
    (haj : a ≤ j) (hjb : j < b) (hb : b ≤ data.length) : Within a b data (Swap data i j) := by
  have hi : i < data.length := by omega
  have hj : j < data.length := by omega
  refine ⟨Swap_length _ _ _, ?_, ?_, Swap_perm _ _ _⟩
  · intro k hk
    rw [Swap_getElem? data i j k hi hj]
    have h1 : k ≠ j := by omega
    have h2 : k ≠ i := by omega
    simp [h1, h2]
  · intro P hP k x hak hkb hx
    rw [Swap_getElem? data i j k hi hj] at hx
    split at hx
    · exact hP i x hai hib hx
    · split at hx
      · exact hP j x haj hjb hx
      · exact hP k x hak hkb hx

theorem Within.keyAt_outside {a b : Nat} {d1 d2 : List α} (h : Within a b d1 d2)
    (key : α → Int) (i : Nat) (hi : i < a ∨ b ≤ i) : keyAt key d2 i = keyAt key d1 i := by
  unfold keyAt
  rw [h.outside i hi]

theorem Within.keyAt_inside {a b : Nat} {d1 d2 : List α} (h : Within a b d1 d2)
    (key : α → Int) (Q : Int → Prop) (hb : b ≤ d1.length)
    (hQ : ∀ i, a ≤ i → i < b → Q (keyAt key d1 i)) :
    ∀ i, a ≤ i → i < b → Q (keyAt key d2 i) := by
  intro i hai hib
  have hlt : i < d2.length := by rw [h.length]; omega
  have hx : d2[i]? = some d2[i] := List.getElem?_eq_getElem hlt
  rw [keyAt_of_getElem? key d2 i _ hx]
  refine h.inside (fun x => Q (key x)) ?_ i _ hai hib hx
  intro k y hk1 hk2 hy
  have := hQ k hk1 hk2
  rwa [keyAt_of_getElem? key d1 k y hy] at this

theorem Swap_cons_succ (x : α) (xs : List α) (i j : Nat) :
    Swap (x :: xs) (i + 1) (j + 1) = x :: Swap xs i j := by
  unfold Swap
  simp only [List.getElem?_cons_succ]
  split <;> simp

theorem SameOrderPerKey.unchanged (key : α → Int) (data : List α) : SameOrderPerKey key data data :=
  fun _ => rfl

theorem SameOrderPerKey.chain {key : α → Int} {d1 d2 d3 : List α}
    (h1 : SameOrderPerKey key d1 d2) (h2 : SameOrderPerKey key d2 d3) :
    SameOrderPerKey key d1 d3 :=
  fun s => (h2 s).trans (h1 s)

theorem SameOrderPerKey.swap_adjacent (key : α → Int) (data : List α) (j : Nat)
    (hj : j + 1 < data.length) (hne : keyAt key data (j + 1) ≠ keyAt key data j) :
    SameOrderPerKey key data (Swap data (j + 1) j) := by
  induction data generalizing j with
  | nil => simp at hj
  | cons x xs ih =>
    cases j with
    | zero =>
      cases xs with
      | nil => simp at hj
      | cons y t =>
        intro s
        simp only [keyAt, List.getElem?_cons_succ, List.getElem?_cons_zero] at hne
        simp only [Swap, List.getElem?_cons_succ, List.getElem?_cons_zero, List.set_cons_succ,
          List.set_cons_zero, List.filter_cons]
        by_cases h1 : key x = s <;> by_cases h2 : key y = s <;> simp [h1, h2]
        exact absurd (h2.trans h1.symm) hne
    | succ j =>
      intro s
      rw [Swap_cons_succ]
      have hj' : j + 1 < xs.length := by simpa using hj
      have hne' : keyAt key xs (j + 1) ≠ keyAt key xs j := by
        simpa [keyAt, List.getElem?_cons_succ] using hne
      have := ih j hj' hne' s
      simp only [List.filter_cons, this]

theorem insertionSort_inner_spec (less : α → α → Bool) (key : α → Int)
    (hless : ∀ x y, less x y = decide (key x < key y)) (a i : Nat) :
    ∀ (j : Nat) (data : List α), a ≤ j → j ≤ i → i < data.length →
      RangeSorted key a j data → RangeSorted key j (i + 1) data →
      (∀ p q, a ≤ p → p < j → j < q → q ≤ i → keyAt key data p ≤ keyAt key data q) →
      Within a (i + 1) data (insertionSort_inner less a j data) ∧
        RangeSorted key a (i + 1) (insertionSort_inner less a j data) ∧
        SameOrderPerKey key data (insertionSort_inner less a j data) := by
  intro j
  induction j with
  | zero =>
    intro data ha _ _ _ h2 _
    have : a = 0 := by omega
    subst this
    exact ⟨Within.same _ _ _, h2, SameOrderPerKey.unchanged _ _⟩
  | succ j ih =>
    intro data ha hji hi h1 h2 h3
    unfold insertionSort_inner
    have hL := Less_eq less key hless data (j + 1) j (by omega) (by omega)
    by_cases hc : (decide (a < j + 1) && Less less data (j + 1) j) = true
    · rw [if_pos hc]
      simp only [Bool.and_eq_true, decide_eq_true_eq] at hc
      obtain ⟨haj, hlt⟩ := hc
      rw [hL] at hlt
      simp only [decide_eq_true_eq] at hlt
      have hK := keyAt_Swap key data (j + 1) j
      have hlen := Swap_length data (j + 1) j
      have hw : Within a (i + 1) data (Swap data (j + 1) j) :=
        Within.swap a (i + 1) data (j + 1) j (by omega) (by omega) (by omega) (by omega) (by omega)
      have hs : SameOrderPerKey key data (Swap data (j + 1) j) :=
        SameOrderPerKey.swap_adjacent key data j (by omega) (by omega)
      have := ih (Swap data (j + 1) j) (by omega) (by omega) (by omega) ?_ ?_ ?_
      · exact ⟨hw.followedBy this.1, this.2.1, hs.chain this.2.2⟩
      · intro p q hp hpq hq
        rw [hK p (by omega) (by omega), hK q (by omega) (by omega)]
        have := h1 p q hp hpq (by omega)
        split_ifs <;> omega
      · intro p q hp hpq hq
        rw [hK p (by omega) (by omega), hK q (by omega) (by omega)]
        have A := h2 (j + 1) q
        have B := h3 j q
        have C := h2 p q
        split_ifs <;> omega
      · intro p q hp hpj hjq hqi
        rw [hK p (by omega) (by omega), hK q (by omega) (by omega)]
        have A := h1 p j
        have B := h3 p q
        split_ifs <;> omega
    · rw [if_neg hc]
      refine ⟨Within.same _ _ _, ?_, SameOrderPerKey.unchanged _ _⟩
      simp only [Bool.and_eq_true, decide_eq_true_eq, not_and] at hc
      intro p q hp hpq hq
      by_cases haj : a < j + 1
      · have hnl := hc haj
        rw [hL] at hnl
        simp only [decide_eq_true_eq, not_lt] at hnl
        have A := h1 p q
        have B := h2 p q
        have C := h3 p q
        have D := h1 p j
        have E := h2 (j + 1) q
        by_cases hpj : p = j <;> by_cases hqj : q = j + 1 <;> (try subst hpj) <;> (try subst hqj) <;>
          omega
      · have : a = j + 1 := by omega
        exact h2 p q (by omega) hpq hq


theorem insertionSort_outer_spec (less : α → α → Bool) (key : α → Int)
    (hless : ∀ x y, less x y = decide (key x < key y)) (a b : Nat) :
    ∀ (n i : Nat) (data : List α), a < i → i ≤ b → b ≤ data.length → b - i ≤ n →
      RangeSorted key a i data →
      Within a b data (insertionSort_outer less a b n i data) ∧
        RangeSorted key a b (insertionSort_outer less a b n i data) ∧
        SameOrderPerKey key data (insertionSort_outer less a b n i data) := by
  intro n
  induction n with
  | zero =>
    intro i data _ hib _ hn hs
    have : i = b := by omega
    subst this
    exact ⟨Within.same _ _ _, hs, SameOrderPerKey.unchanged _ _⟩
  | succ n ih =>
    intro i data hai hib hb hn hs
    unfold insertionSort_outer
    by_cases hlt : i < b
    · rw [if_pos hlt]
      obtain ⟨w1, s1, o1⟩ := insertionSort_inner_spec less key hless a i i data (by omega)
        (le_refl _) (by omega) hs (fun p q hp hpq hq => by omega)
        (fun p q _ _ hq1 hq2 => by omega)
      obtain ⟨w2, s2, o2⟩ := ih (i + 1) (insertionSort_inner less a i data) (by omega) (by omega)
        (by rw [w1.length]; exact hb) (by omega) s1
      exact ⟨(w1.widen (le_refl _) (by omega)).followedBy w2, s2, o1.chain o2⟩
    · rw [if_neg hlt]
      have : i = b := by omega
      subst this
      exact ⟨Within.same _ _ _, hs, SameOrderPerKey.unchanged _ _⟩

theorem insertionSort_func_spec (less : α → α → Bool) (key : α → Int)
    (hless : ∀ x y, less x y = decide (key x < key y)) (data : List α) (a b : Nat)
    (hab : a ≤ b) (hb : b ≤ data.length) :
    Within a b data (insertionSort_func less data a b) ∧
      RangeSorted key a b (insertionSort_func less data a b) ∧
      SameOrderPerKey key data (insertionSort_func less data a b) := by
  unfold insertionSort_func
  by_cases h : a = b
  · subst h
    simp only [Nat.sub_self, insertionSort_outer]
    exact ⟨Within.same _ _ _, fun p q hp hpq hq => by omega, SameOrderPerKey.unchanged _ _⟩
  · exact insertionSort_outer_spec less key hless a b (b - a) (a + 1) data (by omega) (by omega)
      hb (by omega) (fun p q hp hpq hq => by omega)

theorem scanUp_spec (p : Nat → Bool) (j : Nat) :
    ∀ (n i : Nat), j + 1 - i ≤ n →
      i ≤ scanUp p j n i ∧ (i ≤ j + 1 → scanUp p j n i ≤ j + 1) ∧
      (∀ k, i ≤ k → k < scanUp p j n i → p k = true) ∧
      (j < scanUp p j n i ∨ p (scanUp p j n i) = false) := by
  intro n
  induction n with
  | zero =>
    intro i hn
    simp only [scanUp]
    exact ⟨le_refl _, fun h => h, fun k h1 h2 => by omega, Or.inl (by omega)⟩
  | succ n ih =>
    intro i hn
    unfold scanUp
    by_cases hc : (decide (i ≤ j) && p i) = true
    · rw [if_pos hc]
      simp only [Bool.and_eq_true, decide_eq_true_eq] at hc
      obtain ⟨h1, h2, h3, h4⟩ := ih (i + 1) (by omega)
      refine ⟨by omega, fun _ => h2 (by omega), ?_, h4⟩
      intro k hk1 hk2
      by_cases hk : k = i
      · rw [hk]; exact hc.2
      · exact h3 k (by omega) hk2
    · rw [if_neg hc]
      simp only [Bool.and_eq_true, decide_eq_true_eq, not_and, Bool.not_eq_true] at hc
      refine ⟨le_refl _, fun h => h, fun k h1 h2 => by omega, ?_⟩
      by_cases hij : i ≤ j
      · exact Or.inr (hc hij)
      · exact Or.inl (by omega)

theorem scanDown_spec (p : Nat → Bool) (i : Nat) (hi : 1 ≤ i) :
    ∀ (j : Nat),
      scanDown p i j ≤ j ∧ (i ≤ j + 1 → i ≤ scanDown p i j + 1) ∧
      (∀ k, scanDown p i j < k → k ≤ j → p k = true) ∧
      (scanDown p i j < i ∨ p (scanDown p i j) = false) := by
  intro j
  induction j with
  | zero =>
    simp only [scanDown]
    exact ⟨le_refl _, fun h => h, fun k h1 h2 => by omega, Or.inl (by omega)⟩
  | succ j ih =>
    unfold scanDown
    by_cases hc : (decide (i ≤ j + 1) && p (j + 1)) = true
    · rw [if_pos hc]
      simp only [Bool.and_eq_true, decide_eq_true_eq] at hc
      obtain ⟨h1, h2, h3, h4⟩ := ih
      refine ⟨by omega, ?_, ?_, h4⟩
      · intro _
        by_cases hij : i ≤ j
        · exact h2 (by omega)
        · have : scanDown p i j ≤ j := h1
          rcases h4 with h4 | h4
          · have e : i = j + 1 := by omega
            cases j with
            | zero => simp only [scanDown]; omega
            | succ j' =>
              have : scanDown p i (j' + 1) = j' + 1 := by
                unfold scanDown
                rw [if_neg]
                simp only [Bool.and_eq_true, decide_eq_true_eq, not_and]
                intro h; omega
              omega
          · have e : i = j + 1 := by omega
            cases j with
            | zero => simp only [scanDown]; omega
            | succ j' =>
              have : scanDown p i (j' + 1) = j' + 1 := by
                unfold scanDown
                rw [if_neg]
                simp only [Bool.and_eq_true, decide_eq_true_eq, not_and]
                intro h; omega
              omega
      · intro k hk1 hk2
        by_cases hk : k = j + 1
        · rw [hk]; exact hc.2
        · exact h3 k hk1 (by omega)
    · rw [if_neg hc]
      simp only [Bool.and_eq_true, decide_eq_true_eq, not_and, Bool.not_eq_true] at hc
      refine ⟨le_refl _, fun _ => by omega, fun k h1 h2 => by omega, ?_⟩
      by_cases hij : i ≤ j + 1
      · exact Or.inr (hc hij)
      · exact Or.inl (by omega)

theorem partition_loop_spec (less : α → α → Bool) (key : α → Int)
    (hless : ∀ x y, less x y = decide (key x < key y)) (a b : Nat) (P : Int) :
    ∀ (n : Nat) (data : List α) (i j : Nat), a + 1 ≤ i → i ≤ j + 1 → j + 1 ≤ b →
      b ≤ data.length → j + 1 - i ≤ n → keyAt key data a = P →
      (∀ k, a + 1 ≤ k → k < i → keyAt key data k < P) →
      (∀ k, j < k → k < b → P ≤ keyAt key data k) →
      Within (a + 1) b data (partition_loop less a n data i j).1 ∧
        a ≤ (partition_loop less a n data i j).2 ∧ (partition_loop less a n data i j).2 < b ∧
        (∀ k, a + 1 ≤ k → k ≤ (partition_loop less a n data i j).2 →
          keyAt key (partition_loop less a n data i j).1 k < P) ∧
        (∀ k, (partition_loop less a n data i j).2 < k → k < b →
          P ≤ keyAt key (partition_loop less a n data i j).1 k) := by
  intro n
  induction n with
  | zero =>
    intro data i j hi hij hjb hb hn hP hlo hhi
    simp only [partition_loop]
    exact ⟨Within.same _ _ _, by omega, by omega, fun k h1 h2 => hlo k h1 (by omega), hhi⟩
  | succ n ih =>
    intro data i j hi hij hjb hb hn hP hlo hhi
    unfold partition_loop
    simp only
    obtain ⟨u1, u2, u3, u4⟩ := scanUp_spec (fun k => Less less data k a) j (j + 1 - i) i (le_refl _)
    generalize scanUp (fun k => Less less data k a) j (j + 1 - i) i = i' at u1 u2 u3 u4 ⊢
    have u2' := u2 hij
    obtain ⟨d1, d2, d3, d4⟩ := scanDown_spec (fun k => !Less less data k a) i' (by omega) j
    generalize scanDown (fun k => !Less less data k a) i' j = j' at d1 d2 d3 d4 ⊢
    have d2' := d2 u2'
    have hlo' : ∀ k, a + 1 ≤ k → k < i' → keyAt key data k < P := by
      intro k h1 h2
      by_cases hk : k < i
      · exact hlo k h1 hk
      · have := u3 k (by omega) h2
        try simp only at this
        rw [Less_eq less key hless data k a (by omega) (by omega), hP] at this
        simpa using this
    have hhi' : ∀ k, j' < k → k < b → P ≤ keyAt key data k := by
      intro k h1 h2
      by_cases hk : j < k
      · exact hhi k hk h2
      · have := d3 k h1 (by omega)
        try simp only at this
        rw [Less_eq less key hless data k a (by omega) (by omega), hP] at this
        simpa using this
    by_cases hc : j' < i'
    · simp only [hc, if_true]
      exact ⟨Within.same _ _ _, by omega, by omega, fun k h1 h2 => hlo' k h1 (by omega), hhi'⟩
    · simp only [hc, if_false]
      have hi'P : P ≤ keyAt key data i' := by
        rcases u4 with u4 | u4
        · omega
        · try simp only at u4
          rw [Less_eq less key hless data i' a (by omega) (by omega), hP] at u4
          simpa using u4
      have hj'P : keyAt key data j' < P := by
        rcases d4 with d4 | d4
        · omega
        · try simp only at d4
          rw [Less_eq less key hless data j' a (by omega) (by omega), hP] at d4
          simpa using d4
      have hne : i' ≠ j' := by
        intro e; rw [e] at hi'P; omega
      have hK := keyAt_Swap key data i' j'
      have hw : Within (a + 1) b data (Swap data i' j') :=
        Within.swap (a + 1) b data i' j' (by omega) (by omega) (by omega) (by omega) hb
      obtain ⟨r1, r2, r3, r4, r5⟩ := ih (Swap data i' j') (i' + 1) (j' - 1) (by omega) (by omega)
        (by omega) (by rw [Swap_length]; exact hb) (by omega)
        (by rw [hK a (by omega) (by omega)]; split_ifs <;> omega)
        (by
          intro k h1 h2
          rw [hK k (by omega) (by omega)]
          have := hlo' k h1
          split_ifs <;> omega)
        (by
          intro k h1 h2
          rw [hK k (by omega) (by omega)]
          have := hhi' k
          split_ifs <;> omega)
      exact ⟨hw.followedBy r1, r2, r3, r4, r5⟩

theorem partition_func_spec (less : α → α → Bool) (key : α → Int)
    (hless : ∀ x y, less x y = decide (key x < key y)) (data : List α) (a b pivot : Nat)
    (hap : a ≤ pivot) (hpb : pivot < b) (hb : b ≤ data.length) :
    Within a b data (partition_func less data a b pivot).1 ∧
      a ≤ (partition_func less data a b pivot).2.1 ∧
      (partition_func less data a b pivot).2.1 < b ∧
      (∀ k, a ≤ k → k < (partition_func less data a b pivot).2.1 →
        keyAt key (partition_func less data a b pivot).1 k <
          keyAt key (partition_func less data a b pivot).1 (partition_func less data a b pivot).2.1) ∧
      (∀ k, (partition_func less data a b pivot).2.1 < k → k < b →
        keyAt key (partition_func less data a b pivot).1 (partition_func less data a b pivot).2.1 ≤
          keyAt key (partition_func less data a b pivot).1 k) := by
  have hw0 : Within a b data (Swap data a pivot) :=
    Within.swap a b data a pivot (le_refl _) (by omega) hap hpb hb
  have hlen0 : (Swap data a pivot).length = data.length := Swap_length _ _ _
  obtain ⟨P, hP⟩ : ∃ P, keyAt key (Swap data a pivot) a = P := ⟨_, rfl⟩
  unfold partition_func
  simp only
  generalize Swap data a pivot = d0 at hw0 hlen0 hP ⊢
  obtain ⟨u1, u2, u3, u4⟩ := scanUp_spec (fun k => Less less d0 k a) (b - 1) (b - (a + 1)) (a + 1)
    (by omega)
  generalize scanUp (fun k => Less less d0 k a) (b - 1) (b - (a + 1)) (a + 1) = i at u1 u2 u3 u4 ⊢
  have u2' := u2 (by omega)
  obtain ⟨d1, d2, d3, d4⟩ := scanDown_spec (fun k => !Less less d0 k a) i (by omega) (b - 1)
  generalize scanDown (fun k => !Less less d0 k a) i (b - 1) = j at d1 d2 d3 d4 ⊢
  have d2' := d2 u2'
  have hlo : ∀ k, a + 1 ≤ k → k < i → keyAt key d0 k < P := by
    intro k h1 h2
    have := u3 k h1 h2
    try simp only at this
    rw [Less_eq less key hless d0 k a (by omega) (by omega), hP] at this
    simpa using this
  have hhi : ∀ k, j < k → k < b → P ≤ keyAt key d0 k := by
    intro k h1 h2
    have := d3 k h1 (by omega)
    try simp only at this
    rw [Less_eq less key hless d0 k a (by omega) (by omega), hP] at this
    simpa using this
  -- the closing exchange `data.Swap(j, a)`
  have finish : ∀ (d : List α) (m : Nat), Within (a + 1) b d0 d → a ≤ m → m < b →
      (∀ k, a + 1 ≤ k → k ≤ m → keyAt key d k < P) →
      (∀ k, m < k → k < b → P ≤ keyAt key d k) →
      Within a b data (Swap d m a) ∧ a ≤ m ∧ m < b ∧
        (∀ k, a ≤ k → k < m → keyAt key (Swap d m a) k < keyAt key (Swap d m a) m) ∧
        (∀ k, m < k → k < b → keyAt key (Swap d m a) m ≤ keyAt key (Swap d m a) k) := by
    intro d m hw hm1 hm2 hl hh
    have hlen : d.length = data.length := hw.length.trans hlen0
    have hPa : keyAt key d a = P := by
      rw [hw.keyAt_outside key a (by omega)]; exact hP
    have hK := keyAt_Swap key d m a
    refine ⟨(hw0.followedBy (hw.widen (by omega) (le_refl _))).followedBy
      (Within.swap a b d m a hm1 hm2 (le_refl _) (by omega) (by omega)), hm1, hm2, ?_, ?_⟩
    · intro k h1 h2
      rw [hK k (by omega) (by omega), hK m (by omega) (by omega)]
      have A := hl k
      have B := hl m
      by_cases hma : m = a
      · omega
      · by_cases hka : k = a
        · subst hka
          simp only [hma, if_true, if_false]
          omega
        · have hkm : k ≠ m := by omega
          simp only [hma, hka, hkm, if_true, if_false]
          omega
    · intro k h1 h2
      rw [hK k (by omega) (by omega), hK m (by omega) (by omega)]
      have A := hh k
      have hka : k ≠ a := by omega
      have hkm : k ≠ m := by omega
      by_cases hma : m = a
      · subst hma
        simp only [hka, if_true, if_false]
        omega
      · simp only [hma, hka, hkm, if_true, if_false]
        omega
  by_cases hc : j < i
  · simp only [hc, if_true]
    exact finish d0 j (Within.same _ _ _) (by omega) (by omega)
      (fun k h1 h2 => hlo k h1 (by omega)) hhi
  · simp only [hc, if_false]
    have hiP : P ≤ keyAt key d0 i := by
      rcases u4 with u4 | u4
      · omega
      · try simp only at u4
        rw [Less_eq less key hless d0 i a (by omega) (by omega), hP] at u4
        simpa using u4
    have hjP : keyAt key d0 j < P := by
      rcases d4 with d4 | d4
      · omega
      · try simp only at d4
        rw [Less_eq less key hless d0 j a (by omega) (by omega), hP] at d4
        simpa using d4
    have hne : i ≠ j := by
      intro e; rw [e] at hiP; omega
    have hK := keyAt_Swap key d0 i j
    have hw : Within (a + 1) b d0 (Swap d0 i j) :=
      Within.swap (a + 1) b d0 i j (by omega) (by omega) (by omega) (by omega) (by omega)
    obtain ⟨r1, r2, r3, r4, r5⟩ := partition_loop_spec less key hless a b P (b - a)
      (Swap d0 i j) (i + 1) (j - 1) (by omega) (by omega) (by omega)
      (by rw [Swap_length]; omega) (by omega)
      (by rw [hK a (by omega) (by omega)]; split_ifs <;> omega)
      (by
        intro k h1 h2
        rw [hK k (by omega) (by omega)]
        have := hlo k h1
        split_ifs <;> omega)
      (by
        intro k h1 h2
        rw [hK k (by omega) (by omega)]
        have := hhi k
        split_ifs <;> omega)
    exact finish _ _ (hw.followedBy r1) r2 r3 r4 r5

theorem partitionEqual_loop_spec (less : α → α → Bool) (key : α → Int)
    (hless : ∀ x y, less x y = decide (key x < key y)) (a b : Nat) (P : Int) :
    ∀ (n : Nat) (data : List α) (i j : Nat), a + 1 ≤ i → i ≤ j + 1 → j + 1 ≤ b →
      b ≤ data.length → j + 1 - i ≤ n → keyAt key data a = P →
      (∀ k, a + 1 ≤ k → k < i → keyAt key data k ≤ P) →
      (∀ k, j < k → k < b → P < keyAt key data k) →
      Within (a + 1) b data (partitionEqual_loop less a n data i j).1 ∧
        a + 1 ≤ (partitionEqual_loop less a n data i j).2 ∧
        (partitionEqual_loop less a n data i j).2 ≤ b ∧
        (∀ k, a + 1 ≤ k → k < (partitionEqual_loop less a n data i j).2 →
          keyAt key (partitionEqual_loop less a n data i j).1 k ≤ P) ∧
        (∀ k, (partitionEqual_loop less a n data i j).2 ≤ k → k < b →
          P < keyAt key (partitionEqual_loop less a n data i j).1 k) := by
  intro n
  induction n with
  | zero =>
    intro data i j hi hij hjb hb hn hP hlo hhi
    simp only [partitionEqual_loop]
    exact ⟨Within.same _ _ _, by omega, by omega, hlo, fun k h1 h2 => hhi k (by omega) h2⟩
  | succ n ih =>
    intro data i j hi hij hjb hb hn hP hlo hhi
    unfold partitionEqual_loop
    simp only
    obtain ⟨u1, u2, u3, u4⟩ := scanUp_spec (fun k => !Less less data a k) j (j + 1 - i) i (le_refl _)
    generalize scanUp (fun k => !Less less data a k) j (j + 1 - i) i = i' at u1 u2 u3 u4 ⊢
    have u2' := u2 hij
    obtain ⟨d1, d2, d3, d4⟩ := scanDown_spec (fun k => Less less data a k) i' (by omega) j
    generalize scanDown (fun k => Less less data a k) i' j = j' at d1 d2 d3 d4 ⊢
    have d2' := d2 u2'
    have hlo' : ∀ k, a + 1 ≤ k → k < i' → keyAt key data k ≤ P := by
      intro k h1 h2
      by_cases hk : k < i
      · exact hlo k h1 hk
      · have := u3 k (by omega) h2
        try simp only at this
        rw [Less_eq less key hless data a k (by omega) (by omega), hP] at this
        simpa using this
    have hhi' : ∀ k, j' < k → k < b → P < keyAt key data k := by
      intro k h1 h2
      by_cases hk : j < k
      · exact hhi k hk h2
      · have := d3 k h1 (by omega)
        try simp only at this
        rw [Less_eq less key hless data a k (by omega) (by omega), hP] at this
        simpa using this
    by_cases hc : j' < i'
    · simp only [hc, if_true]
      exact ⟨Within.same _ _ _, by omega, by omega, hlo', fun k h1 h2 => hhi' k (by omega) h2⟩
    · simp only [hc, if_false]
      have hi'P : P < keyAt key data i' := by
        rcases u4 with u4 | u4
        · omega
        · try simp only at u4
          rw [Less_eq less key hless data a i' (by omega) (by omega), hP] at u4
          simpa using u4
      have hj'P : keyAt key data j' ≤ P := by
        rcases d4 with d4 | d4
        · omega
        · try simp only at d4
          rw [Less_eq less key hless data a j' (by omega) (by omega), hP] at d4
          simpa using d4
      have hne : i' ≠ j' := by
        intro e; rw [e] at hi'P; omega
      have hK := keyAt_Swap key data i' j'
      have hw : Within (a + 1) b data (Swap data i' j') :=
        Within.swap (a + 1) b data i' j' (by omega) (by omega) (by omega) (by omega) hb
      obtain ⟨r1, r2, r3, r4, r5⟩ := ih (Swap data i' j') (i' + 1) (j' - 1) (by omega) (by omega)
        (by omega) (by rw [Swap_length]; exact hb) (by omega)
        (by rw [hK a (by omega) (by omega)]; split_ifs <;> omega)
        (by
          intro k h1 h2
          rw [hK k (by omega) (by omega)]
          have := hlo' k h1
          split_ifs <;> omega)
        (by
          intro k h1 h2
          rw [hK k (by omega) (by omega)]
          have := hhi' k
          split_ifs <;> omega)
      exact ⟨hw.followedBy r1, r2, r3, r4, r5⟩

theorem partitionEqual_func_spec (less : α → α → Bool) (key : α → Int)
    (hless : ∀ x y, less x y = decide (key x < key y)) (data : List α) (a b pivot : Nat)
    (hap : a ≤ pivot) (hpb : pivot < b) (hb : b ≤ data.length) :
    Within a b data (partitionEqual_func less data a b pivot).1 ∧
      a + 1 ≤ (partitionEqual_func less data a b pivot).2 ∧
      (partitionEqual_func less data a b pivot).2 ≤ b ∧
      (∀ k, a ≤ k → k < (partitionEqual_func less data a b pivot).2 →
        keyAt key (partitionEqual_func less data a b pivot).1 k ≤ keyAt key data pivot) ∧
      (∀ k, (partitionEqual_func less data a b pivot).2 ≤ k → k < b →
        keyAt key data pivot < keyAt key (partitionEqual_func less data a b pivot).1 k) := by
  have hw0 : Within a b data (Swap data a pivot) :=
    Within.swap a b data a pivot (le_refl _) (by omega) hap hpb hb
  have hP : keyAt key (Swap data a pivot) a = keyAt key data pivot := by
    rw [keyAt_Swap key data a pivot a (by omega) (by omega)]
    by_cases h : a = pivot
    · rw [if_pos h, h]
    · rw [if_neg h, if_pos rfl]
  unfold partitionEqual_func
  obtain ⟨r1, r2, r3, r4, r5⟩ := partitionEqual_loop_spec less key hless a b (keyAt key data pivot)
    (b - a + 1) (Swap data a pivot) (a + 1) (b - 1) (le_refl _) (by omega) (by omega)
    (by rw [Swap_length]; exact hb) (by omega) hP (fun k h1 h2 => by omega)
    (fun k h1 h2 => by omega)
  refine ⟨hw0.followedBy (r1.widen (by omega) (le_refl _)), r2, r3, ?_, r5⟩
  intro k h1 h2
  by_cases hk : k = a
  · rw [hk, r1.keyAt_outside key a (by omega), hP]
  · exact r4 k (by omega) h2

theorem reverseRange_loop_within (a b : Nat) :
    ∀ (n : Nat) (data : List α) (i j : Nat), a ≤ i → j < b → b ≤ data.length →
      Within a b data (reverseRange_loop n i j data) := by
  intro n
  induction n with
  | zero => intro data i j _ _ _; exact Within.same _ _ _
  | succ n ih =>
    intro data i j hi hj hb
    unfold reverseRange_loop
    by_cases h : i < j
    · rw [if_pos h]
      exact (Within.swap a b data i j hi (by omega) (by omega) hj hb).followedBy
        (ih _ _ _ (by omega) (by omega) (by rw [Swap_length]; exact hb))
    · rw [if_neg h]
      exact Within.same _ _ _

theorem reverseRange_func_within (data : List α) (a b : Nat) (hab : a < b)
    (hb : b ≤ data.length) : Within a b data (reverseRange_func data a b) :=
  reverseRange_loop_within a b _ data a (b - 1) (le_refl _) (by omega) hb

theorem bitsLenAux_bound : ∀ (n x : Nat), x ≤ n → 1 ≤ x → 2 ^ bitsLenAux n x ≤ 2 * x := by
  intro n
  induction n with
  | zero => intro x h1 h2; omega
  | succ n ih =>
    intro x h1 h2
    unfold bitsLenAux
    rw [if_neg (by omega)]
    by_cases hx : x / 2 = 0
    · have : bitsLenAux n (x / 2) = 0 := by
        rw [hx]
        cases n <;> simp [bitsLenAux]
      rw [this]
      omega
    · have := ih (x / 2) (by omega) (by omega)
      rw [Nat.pow_add, Nat.pow_one]
      omega

theorem nextPowerOfTwo_bound (length : Nat) (h : 1 ≤ length) :
    nextPowerOfTwo length ≤ 2 * length := by
  unfold nextPowerOfTwo bitsLen
  rw [Nat.one_shiftLeft]
  exact bitsLenAux_bound length length (le_refl _) h

theorem breakPatterns_loop_within (a b length modulus idx : Nat) (hlen : a + length = b)
    (hmod : modulus ≤ 2 * length) (hidx1 : a ≤ idx) (hidx2 : idx + 2 < b) :
    ∀ (n i random : Nat) (data : List α), i + n ≤ 3 → b ≤ data.length →
      Within a b data (breakPatterns_loop a length modulus idx n i random data) := by
  intro n
  induction n with
  | zero => intro i random data _ _; exact Within.same _ _ _
  | succ n ih =>
    intro i random data hin hb
    unfold breakPatterns_loop
    simp only
    have hother : Nat.land (xorshiftNext random) (modulus - 1) ≤ modulus - 1 :=
      Nat.and_le_right
    generalize Nat.land (xorshiftNext random) (modulus - 1) = other at hother ⊢
    have h2 : (if length ≤ other then other - length else other) < length := by
      split_ifs <;> omega
    generalize (if length ≤ other then other - length else other) = other' at h2 ⊢
    exact (Within.swap a b data (idx + i) (a + other') (by omega) (by omega) (by omega)
      (by omega) hb).followedBy (ih _ _ _ (by omega) (by rw [Swap_length]; exact hb))

theorem breakPatterns_func_within (data : List α) (a b : Nat) (hab : a ≤ b)
    (hb : b ≤ data.length) : Within a b data (breakPatterns_func data a b) := by
  unfold breakPatterns_func
  simp only
  by_cases h : 8 ≤ b - a
  · rw [if_pos h]
    exact breakPatterns_loop_within a b (b - a) _ _ (by omega)
      (nextPowerOfTwo_bound _ (by omega)) (by omega) (by omega) 3 0 _ data (by omega) hb
  · rw [if_neg h]
    exact Within.same _ _ _

theorem order2_func_cases (less : α → α → Bool) (data : List α) (x y s : Nat) :
    ((order2_func less data x y s).1 = x ∧ (order2_func less data x y s).2.1 = y) ∨
      ((order2_func less data x y s).1 = y ∧ (order2_func less data x y s).2.1 = x) := by
  unfold order2_func
  split
  · exact Or.inr ⟨rfl, rfl⟩
  · exact Or.inl ⟨rfl, rfl⟩

theorem median_func_cases (less : α → α → Bool) (data : List α) (x y z s : Nat) :
    (median_func less data x y z s).1 = x ∨ (median_func less data x y z s).1 = y ∨
      (median_func less data x y z s).1 = z := by
  unfold median_func
  simp only
  have c1 := order2_func_cases less data x y s
  generalize order2_func less data x y s = r1 at c1 ⊢
  have c2 := order2_func_cases less data r1.2.1 z r1.2.2
  generalize order2_func less data r1.2.1 z r1.2.2 = r2 at c2 ⊢
  have c3 := order2_func_cases less data r1.1 r2.1 r2.2.2
  generalize order2_func less data r1.1 r2.1 r2.2.2 = r3 at c3 ⊢
  omega

theorem choosePivot_func_range (less : α → α → Bool) (data : List α) (a b : Nat)
    (h : 13 ≤ b - a) :
    a ≤ (choosePivot_func less data a b).1 ∧ (choosePivot_func less data a b).1 < b := by
  have hfst : ∀ (r : Nat × Nat),
      ((if r.2 = 0 then (r.1, sortedHint.increasingHint)
        else if r.2 = 12 then (r.1, sortedHint.decreasingHint)
        else (r.1, sortedHint.unknownHint)) : Nat × sortedHint).1 = r.1 := by
    intro r
    split_ifs <;> rfl
  unfold choosePivot_func
  simp only
  rw [hfst]
  rw [if_pos (by omega)]
  by_cases h50 : 50 ≤ b - a
  · rw [if_pos h50]
    simp only [medianAdjacent_func]
    generalize hsi : (median_func less data (a + (b - a) / 4 * 1 - 1) (a + (b - a) / 4 * 1)
      (a + (b - a) / 4 * 1 + 1) 0) = ri
    have ci := median_func_cases less data (a + (b - a) / 4 * 1 - 1) (a + (b - a) / 4 * 1)
      (a + (b - a) / 4 * 1 + 1) 0
    rw [hsi] at ci
    generalize hsj : (median_func less data (a + (b - a) / 4 * 2 - 1) (a + (b - a) / 4 * 2)
      (a + (b - a) / 4 * 2 + 1) ri.2) = rj
    have cj := median_func_cases less data (a + (b - a) / 4 * 2 - 1) (a + (b - a) / 4 * 2)
      (a + (b - a) / 4 * 2 + 1) ri.2
    rw [hsj] at cj
    generalize hsk : (median_func less data (a + (b - a) / 4 * 3 - 1) (a + (b - a) / 4 * 3)
      (a + (b - a) / 4 * 3 + 1) rj.2) = rk
    have ck := median_func_cases less data (a + (b - a) / 4 * 3 - 1) (a + (b - a) / 4 * 3)
      (a + (b - a) / 4 * 3 + 1) rj.2
    rw [hsk] at ck
    have cm := median_func_cases less data ri.1 rj.1 rk.1 rk.2
    omega
  · rw [if_neg h50]
    have cm := median_func_cases less data (a + (b - a) / 4 * 1) (a + (b - a) / 4 * 2)
      (a + (b - a) / 4 * 3) 0
    omega

theorem PredBound.within {key : α → Int} {a b : Nat} {d1 d2 : List α} (h : PredBound key a b d1)
    (hw : Within a b d1 d2) (hb : b ≤ d1.length) : PredBound key a b d2 := by
  by_cases ha : a = 0
  · exact Or.inl ha
  · rcases h with h | h
    · exact Or.inl h
    · right
      rw [hw.keyAt_outside key (a - 1) (by omega)]
      exact hw.keyAt_inside key (fun v => keyAt key d1 (a - 1) ≤ v) hb h

theorem PredBound.shrink {key : α → Int} {a b b' : Nat} {d : List α} (h : PredBound key a b d)
    (hb : b' ≤ b) : PredBound key a b' d := by
  rcases h with h | h
  · exact Or.inl h
  · exact Or.inr (fun k h1 h2 => h k h1 (by omega))

theorem shiftLeft_eq_inner (less : α → α → Bool) (key : α → Int)
    (hless : ∀ x y, less x y = decide (key x < key y)) (a : Nat) :
    ∀ (j : Nat) (data : List α), a ≤ j → j < data.length → PredBound key a (j + 1) data →
      shiftLeft_loop less j data = insertionSort_inner less a j data := by
  intro j
  induction j with
  | zero => intro data _ _ _; rfl
  | succ j ih =>
    intro data haj hj hp
    unfold shiftLeft_loop insertionSort_inner
    have hL := Less_eq less key hless data (j + 1) j hj (by omega)
    by_cases ha : a < j + 1
    · have hw : Within a (j + 2) data (Swap data (j + 1) j) :=
        Within.swap a (j + 2) data (j + 1) j (by omega) (by omega) (by omega) (by omega) (by omega)
      by_cases hl : Less less data (j + 1) j = true
      · simp only [hl, ha, decide_True, Bool.and_self, Bool.not_true, Bool.false_eq_true, if_true,
          if_false]
        apply ih _ (by omega) (by rw [Swap_length]; omega)
        exact (PredBound.within (PredBound.shrink hp (le_refl _)) hw (by omega)).shrink (by omega)
      · simp only [hl, Bool.and_false, Bool.false_eq_true, if_false, Bool.not_eq_true] at *
        simp [hl]
    · have e : a = j + 1 := by omega
      have hlt : ¬ (a < j + 1) := ha
      simp only [hlt, decide_False, Bool.false_and, Bool.false_eq_true, if_false]
      rcases hp with hp | hp
      · omega
      · have := hp (j + 1) (by omega) (by omega)
        rw [e] at this
        simp only [Nat.add_sub_cancel] at this
        rw [hL]
        have : decide (keyAt key data (j + 1) < keyAt key data j) = false := by
          simp only [decide_eq_false_iff_not, not_lt]
          exact this
        simp [this]

theorem shiftRight_loop_within (less : α → α → Bool) (i b : Nat) :
    ∀ (n j : Nat) (data : List α), i < j → b ≤ data.length →
      Within i b data (shiftRight_loop less b n j data) := by
  intro n
  induction n with
  | zero => intro j data _ _; exact Within.same _ _ _
  | succ n ih =>
    intro j data hij hb
    unfold shiftRight_loop
    by_cases hj : j < b
    · rw [if_pos hj]
      by_cases hl : (!Less less data j (j - 1)) = true
      · rw [if_pos hl]; exact Within.same _ _ _
      · rw [if_neg hl]
        exact (Within.swap i b data j (j - 1) (by omega) hj (by omega) (by omega) hb).followedBy
          (ih _ _ (by omega) (by rw [Swap_length]; exact hb))
    · rw [if_neg hj]; exact Within.same _ _ _

theorem RangeSorted.extend {key : α → Int} {a i i' : Nat} {data : List α}
    (h : RangeSorted key a i data) (hai : a < i)
    (hadj : ∀ k, i ≤ k → k < i' → keyAt key data (k - 1) ≤ keyAt key data k) :
    RangeSorted key a i' data := by
  intro p q hp hpq hq
  induction q using Nat.strong_induction_on generalizing p with
  | _ q ih =>
    by_cases hqi : q < i
    · exact h p q hp hpq hqi
    · have h1 := hadj q (by omega) hq
      by_cases hpq' : p = q - 1
      · rw [hpq']; exact h1
      · have h2 := ih (q - 1) (by omega) p hp (by omega) (by omega)
        omega

theorem RangeSorted.of_within_disjoint {key : α → Int} {a i i' b : Nat} {d1 d2 : List α}
    (h : RangeSorted key a i d1) (hw : Within i' b d1 d2) (hi : i ≤ i') :
    RangeSorted key a i d2 := by
  intro p q hp hpq hq
  rw [hw.keyAt_outside key p (by omega), hw.keyAt_outside key q (by omega)]
  exact h p q hp hpq hq

theorem partialInsertionSort_loop_spec (less : α → α → Bool) (key : α → Int)
    (hless : ∀ x y, less x y = decide (key x < key y)) (a b : Nat) :
    ∀ (n i : Nat) (data : List α), a < i → i ≤ b → b ≤ data.length →
      RangeSorted key a i data → PredBound key a b data →
      Within a b data (partialInsertionSort_loop less a b n i data).1 ∧
        ((partialInsertionSort_loop less a b n i data).2 = true →
          RangeSorted key a b (partialInsertionSort_loop less a b n i data).1) := by
  intro n
  induction n with
  | zero =>
    intro i data _ _ _ _ _
    simp only [partialInsertionSort_loop]
    exact ⟨Within.same _ _ _, fun h => by cases h⟩
  | succ n ih =>
    intro i data hai hib hb hs hp
    unfold partialInsertionSort_loop
    simp only
    obtain ⟨u1, u2, u3, u4⟩ := scanUp_spec (fun k => !Less less data k (k - 1)) (b - 1) (b - i) i
      (by omega)
    generalize scanUp (fun k => !Less less data k (k - 1)) (b - 1) (b - i) i = i' at u1 u2 u3 u4 ⊢
    have u2' := u2 (by omega)
    have hs' : RangeSorted key a i' data := by
      apply hs.extend hai
      intro k h1 h2
      have := u3 k h1 h2
      try simp only at this
      rw [Less_eq less key hless data k (k - 1) (by omega) (by omega)] at this
      simpa using this
    by_cases hib' : i' = b
    · rw [if_pos hib']
      subst hib'
      exact ⟨Within.same _ _ _, fun _ => hs'⟩
    · rw [if_neg hib']
      by_cases h50 : b - a < 50
      · rw [if_pos h50]
        exact ⟨Within.same _ _ _, fun h => by cases h⟩
      · rw [if_neg h50]
        have hw1 : Within a b data (Swap data i' (i' - 1)) :=
          Within.swap a b data i' (i' - 1) (by omega) (by omega) (by omega) (by omega) hb
        have hlen1 : (Swap data i' (i' - 1)).length = data.length := Swap_length _ _ _
        have hs1 : RangeSorted key a (i' - 1) (Swap data i' (i' - 1)) :=
          RangeSorted.of_within_disjoint (fun p q h1 h2 h3 => hs' p q h1 h2 (by omega))
            (Within.swap (i' - 1) b data i' (i' - 1) (by omega) (by omega) (by omega) (by omega) hb)
            (le_refl _)
        have hp1 : PredBound key a b (Swap data i' (i' - 1)) := hp.within hw1 hb
        generalize Swap data i' (i' - 1) = d1 at hw1 hlen1 hs1 hp1 ⊢
        -- the shift to the left
        have hleft : Within a i' d1
              (if 2 ≤ i' - a then shiftLeft_loop less (i' - 1) d1 else d1) ∧
            RangeSorted key a i' (if 2 ≤ i' - a then shiftLeft_loop less (i' - 1) d1 else d1) := by
          by_cases h2 : 2 ≤ i' - a
          · rw [if_pos h2]
            rw [shiftLeft_eq_inner less key hless a (i' - 1) d1 (by omega) (by omega)
              (hp1.shrink (by omega))]
            obtain ⟨w, s, _⟩ := insertionSort_inner_spec less key hless a (i' - 1) (i' - 1) d1
              (by omega) (le_refl _) (by omega) hs1 (fun p q h1 h2 h3 => by omega)
              (fun p q _ _ h3 h4 => by omega)
            have e : i' - 1 + 1 = i' := by omega
            rw [e] at w s
            exact ⟨w, s⟩
          · rw [if_neg h2]
            exact ⟨Within.same _ _ _, fun p q h1 h3 h4 => by omega⟩
        obtain ⟨hw2, hs2⟩ := hleft
        generalize (if 2 ≤ i' - a then shiftLeft_loop less (i' - 1) d1 else d1) = d2 at hw2 hs2 ⊢
        have hlen2 : d2.length = data.length := hw2.length.trans hlen1
        -- the shift to the right
        have hright : Within i' b d2
            (if 2 ≤ b - i' then shiftRight_loop less b (b - i') (i' + 1) d2 else d2) := by
          by_cases h2 : 2 ≤ b - i'
          · rw [if_pos h2]
            exact shiftRight_loop_within less i' b _ _ d2 (by omega) (by omega)
          · rw [if_neg h2]
            exact Within.same _ _ _
        generalize (if 2 ≤ b - i' then shiftRight_loop less b (b - i') (i' + 1) d2 else d2) = d3
          at hright ⊢
        have hs3 : RangeSorted key a i' d3 := hs2.of_within_disjoint hright (le_refl _)
        have hw3 : Within a b data d3 :=
          (hw1.followedBy (hw2.widen (le_refl _) (by omega))).followedBy (hright.widen (by omega) (le_refl _))
        obtain ⟨w, s⟩ := ih i' d3 (by omega) (by omega) (by rw [hw3.length]; exact hb) hs3
          (hp.within hw3 hb)
        exact ⟨hw3.followedBy w, s⟩

theorem partialInsertionSort_func_spec (less : α → α → Bool) (key : α → Int)
    (hless : ∀ x y, less x y = decide (key x < key y)) (data : List α) (a b : Nat)
    (hab : a < b) (hb : b ≤ data.length) (hp : PredBound key a b data) :
    Within a b data (partialInsertionSort_func less data a b).1 ∧
      ((partialInsertionSort_func less data a b).2 = true →
        RangeSorted key a b (partialInsertionSort_func less data a b).1) :=
  partialInsertionSort_loop_spec less key hless a b 5 (a + 1) data (by omega) (by omega) hb
    (fun p q h1 h2 h3 => by omega) hp

theorem siftDown_loop_spec (less : α → α → Bool) (key : α → Int)
    (hless : ∀ x y, less x y = decide (key x < key y)) (lo hi first : Nat) :
    ∀ (n root : Nat) (data : List α), lo ≤ root → hi - root ≤ n → first + hi ≤ data.length →
      (∀ c, 1 ≤ c → c < hi → lo ≤ (c - 1) / 2 → (c - 1) / 2 ≠ root →
        keyAt key data (first + c) ≤ keyAt key data (first + (c - 1) / 2)) →
      (∀ c, 1 ≤ c → c < hi → (c - 1) / 2 = root → 1 ≤ root → lo ≤ (root - 1) / 2 →
        keyAt key data (first + c) ≤ keyAt key data (first + (root - 1) / 2)) →
      Within (first + lo) (first + hi) data (siftDown_loop less hi first n root data) ∧
        HeapOn key first lo hi (siftDown_loop less hi first n root data) := by
  intro n
  induction n with
  | zero =>
    intro root data hlo hn hlen inv1 inv2
    simp only [siftDown_loop]
    refine ⟨Within.same _ _ _, ?_⟩
    intro c h1 h2 h3
    exact inv1 c h1 h2 h3 (by omega)
  | succ n ih =>
    intro root data hlo hn hlen inv1 inv2
    unfold siftDown_loop
    simp only
    by_cases hch : hi ≤ 2 * root + 1
    · rw [if_pos hch]
      refine ⟨Within.same _ _ _, ?_⟩
      intro c h1 h2 h3
      exact inv1 c h1 h2 h3 (by omega)
    · rw [if_neg hch]
      have hbig : ∃ big, (if (decide (2 * root + 1 + 1 < hi) &&
            Less less data (first + (2 * root + 1)) (first + (2 * root + 1) + 1)) = true
          then 2 * root + 1 + 1 else 2 * root + 1) = big ∧
          (big = 2 * root + 1 ∨ big = 2 * root + 2) ∧ big < hi ∧
          keyAt key data (first + (2 * root + 1)) ≤ keyAt key data (first + big) ∧
          (2 * root + 2 < hi →
            keyAt key data (first + (2 * root + 2)) ≤ keyAt key data (first + big)) := by
        by_cases hc : (decide (2 * root + 1 + 1 < hi) &&
            Less less data (first + (2 * root + 1)) (first + (2 * root + 1) + 1)) = true
        · rw [if_pos hc]
          simp only [Bool.and_eq_true, decide_eq_true_eq] at hc
          obtain ⟨hc1, hc2⟩ := hc
          rw [Less_eq less key hless data _ _ (by omega) (by omega)] at hc2
          simp only [decide_eq_true_eq] at hc2
          exact ⟨_, rfl, Or.inr rfl, by omega, by
            have : first + (2 * root + 1 + 1) = first + (2 * root + 1) + 1 := by omega
            rw [this]; omega, fun _ => le_refl _⟩
        · rw [if_neg hc]
          simp only [Bool.and_eq_true, decide_eq_true_eq, not_and] at hc
          refine ⟨_, rfl, Or.inl rfl, by omega, le_refl _, ?_⟩
          intro h
          have := hc (by omega)
          rw [Less_eq less key hless data _ _ (by omega) (by omega)] at this
          simp only [decide_eq_true_eq, not_lt] at this
          have e : first + (2 * root + 1) + 1 = first + (2 * root + 2) := by omega
          rw [e] at this
          exact this
      obtain ⟨big, hbe, hb1, hb2, hb3, hb4⟩ := hbig
      rw [hbe]
      have hL := Less_eq less key hless data (first + root) (first + big) (by omega) (by omega)
      by_cases hr : (!Less less data (first + root) (first + big)) = true
      · rw [if_pos hr]
        rw [hL] at hr
        simp only [Bool.not_eq_true', decide_eq_false_iff_not, not_lt] at hr
        refine ⟨Within.same _ _ _, ?_⟩
        intro c h1 h2 h3
        by_cases hp : (c - 1) / 2 = root
        · rw [hp]
          have hc : c = 2 * root + 1 ∨ c = 2 * root + 2 := by omega
          rcases hc with hc | hc
          · rw [hc]; omega
          · rw [hc]; have := hb4 (by omega); omega
        · exact inv1 c h1 h2 h3 hp
      · rw [if_neg hr]
        rw [hL] at hr
        simp only [Bool.not_eq_true', decide_eq_false_iff_not, not_lt, not_le] at hr
        have hK := fun k => keyAt_Swap key data (first + root) (first + big) k (by omega) (by omega)
        have hw : Within (first + lo) (first + hi) data (Swap data (first + root) (first + big)) :=
          Within.swap _ _ data _ _ (by omega) (by omega) (by omega) (by omega) hlen
        refine (fun hs => ⟨hw.followedBy hs.1, hs.2⟩)
          (ih big (Swap data (first + root) (first + big)) (by omega) (by omega)
            (by rw [Swap_length]; exact hlen) ?_ ?_)
        · intro c h1 h2 h3 h4
          rw [hK (first + c), hK (first + (c - 1) / 2)]
          have A := inv1 c h1 h2 h3
          have B := inv2 big (by omega) hb2 (by omega)
          have e5 : first + root ≠ first + big := by omega
          by_cases hcb : c = big
          · have hp : (c - 1) / 2 = root := by omega
            rw [hp, hcb]
            have e1 : first + root ≠ first + big := by omega
            simp only [e1, if_true, if_false]
            omega
          · by_cases hcr : c = root
            · have e1 : first + c ≠ first + big := by omega
              have e2 : first + (c - 1) / 2 ≠ first + big := by omega
              have e3 : first + (c - 1) / 2 ≠ first + root := by omega
              have e4 : first + c = first + root := by omega
              simp only [e1, e2, e3, e4, e5, if_true, if_false]
              rw [hcr]
              rw [hcr] at h3
              exact B (by omega) (by omega)
            · by_cases hp : (c - 1) / 2 = root
              · have hc : c = 2 * root + 1 ∨ c = 2 * root + 2 := by omega
                have e1 : first + c ≠ first + big := by omega
                have e2 : first + c ≠ first + root := by omega
                have e3 : first + (c - 1) / 2 ≠ first + big := by omega
                have e4 : first + (c - 1) / 2 = first + root := by omega
                simp only [e1, e2, e3, e4, e5, if_true, if_false]
                rcases hc with hc | hc
                · rw [hc]; exact hb3
                · rw [hc]; exact hb4 (by omega)
              · have e1 : first + c ≠ first + big := by omega
                have e2 : first + c ≠ first + root := by omega
                have e3 : first + (c - 1) / 2 ≠ first + big := by omega
                have e4 : first + (c - 1) / 2 ≠ first + root := by omega
                simp only [e1, e2, e3, e4, if_false]
                exact A hp
        · intro c h1 h2 h3 h4 h5
          rw [hK (first + c), hK (first + (big - 1) / 2)]
          have A := inv1 c h1 h2 (by omega) (by omega)
          have hp : (big - 1) / 2 = root := by omega
          have e1 : first + c ≠ first + big := by omega
          have e2 : first + c ≠ first + root := by omega
          have e3 : first + (big - 1) / 2 ≠ first + big := by omega
          have e4 : first + (big - 1) / 2 = first + root := by omega
          have e5 : first + root ≠ first + big := by omega
          simp only [e1, e2, e3, e4, e5, if_true, if_false]
          rw [h3] at A
          exact A

theorem siftDown_func_spec (less : α → α → Bool) (key : α → Int)
    (hless : ∀ x y, less x y = decide (key x < key y)) (data : List α) (lo hi first : Nat)
    (hlen : first + hi ≤ data.length) (hh : HeapOn key first (lo + 1) hi data) :
    Within (first + lo) (first + hi) data (siftDown_func less data lo hi first) ∧
      HeapOn key first lo hi (siftDown_func less data lo hi first) := by
  unfold siftDown_func
  apply siftDown_loop_spec less key hless lo hi first hi lo data (le_refl _) (by omega) hlen
  · intro c h1 h2 h3 h4
    exact hh c h1 h2 (by omega)
  · intro c h1 h2 h3 h4 h5
    omega


theorem HeapOn.root_max {key : α → Int} {first hi : Nat} {data : List α}
    (h : HeapOn key first 0 hi data) :
    ∀ c, c < hi → keyAt key data (first + c) ≤ keyAt key data (first + 0) := by
  intro c
  induction c using Nat.strong_induction_on with
  | _ c ih =>
    intro hc
    by_cases h0 : c = 0
    · rw [h0]
    · have h1 := h c (by omega) hc (by omega)
      have h2 := ih ((c - 1) / 2) (by omega) (by omega)
      omega

theorem heapSort_build_spec (less : α → α → Bool) (key : α → Int)
    (hless : ∀ x y, less x y = decide (key x < key y)) (hi first : Nat) :
    ∀ (n : Nat) (data : List α), first + hi ≤ data.length → HeapOn key first n hi data →
      Within first (first + hi) data (heapSort_build less hi first n data) ∧
        HeapOn key first 0 hi (heapSort_build less hi first n data) := by
  intro n
  induction n with
  | zero => intro data _ h; exact ⟨Within.same _ _ _, h⟩
  | succ i ih =>
    intro data hlen h
    unfold heapSort_build
    obtain ⟨w1, h1⟩ := siftDown_func_spec less key hless data i hi first hlen h
    obtain ⟨w2, h2⟩ := ih (siftDown_func less data i hi first) (by rw [w1.length]; exact hlen) h1
    exact ⟨(w1.widen (by omega) (le_refl _)).followedBy w2, h2⟩

theorem heapSort_pop_spec (less : α → α → Bool) (key : α → Int)
    (hless : ∀ x y, less x y = decide (key x < key y)) (first hi0 : Nat) :
    ∀ (m : Nat) (data : List α), m ≤ hi0 → first + hi0 ≤ data.length →
      HeapOn key first 0 m data → RangeSorted key (first + m) (first + hi0) data →
      (∀ p q, p < m → m ≤ q → q < hi0 →
        keyAt key data (first + p) ≤ keyAt key data (first + q)) →
      Within first (first + hi0) data (heapSort_pop less first m data) ∧
        RangeSorted key first (first + hi0) (heapSort_pop less first m data) := by
  intro m
  induction m with
  | zero =>
    intro data _ _ _ hs _
    exact ⟨Within.same _ _ _, hs⟩
  | succ i ih =>
    intro data hm hlen hh hs hx
    unfold heapSort_pop
    have hmax := hh.root_max
    have hK := fun k => keyAt_Swap key data first (first + i) k (by omega) (by omega)
    have hw1 : Within first (first + hi0) data (Swap data first (first + i)) :=
      Within.swap _ _ data _ _ (le_refl _) (by omega) (by omega) (by omega) hlen
    have hlen1 : (Swap data first (first + i)).length = data.length := Swap_length _ _ _
    have hK1 : ∀ c, keyAt key (Swap data first (first + i)) (first + c) =
        if c = i then keyAt key data (first + 0)
        else if c = 0 then keyAt key data (first + i) else keyAt key data (first + c) := by
      intro c
      rw [hK (first + c)]
      by_cases h1 : c = i
      · simp [h1]
      · by_cases h2 : c = 0
        · subst h2
          have e : first ≠ first + i := by omega
          have e' : ¬ (0 = i) := by omega
          simp [e, e']
        · have e : first + c ≠ first + i := by omega
          have e' : first + c ≠ first := by omega
          simp [h1, h2, e, e']
    generalize Swap data first (first + i) = d1 at hw1 hlen1 hK1 ⊢
    have hh1 : HeapOn key first (0 + 1) i d1 := by
      intro c h1 h2 h3
      rw [hK1 c, hK1 ((c - 1) / 2)]
      have := hh c h1 (by omega) (by omega)
      have e1 : c ≠ i := by omega
      have e2 : c ≠ 0 := by omega
      have e3 : (c - 1) / 2 ≠ i := by omega
      have e4 : (c - 1) / 2 ≠ 0 := by omega
      simp only [e1, e2, e3, e4, if_false]
      exact this
    obtain ⟨w2, hh2⟩ := siftDown_func_spec less key hless d1 0 i first (by omega) hh1
    have hlen2 : (siftDown_func less d1 0 i first).length = data.length :=
      w2.length.trans hlen1
    have w2' : Within first (first + i) d1 (siftDown_func less d1 0 i first) := by
      simpa using w2
    generalize siftDown_func less d1 0 i first = d2 at w2 hh2 hlen2 w2' ⊢
    have hK2 : ∀ q, i ≤ q → keyAt key d2 (first + q) = keyAt key d1 (first + q) :=
      fun q hq => w2'.keyAt_outside key (first + q) (by omega)
    have hs2 : RangeSorted key (first + i) (first + hi0) d2 := by
      intro p q hp hpq hq
      have ep : p = first + (p - first) := by omega
      have eq : q = first + (q - first) := by omega
      rw [ep, eq, hK2 _ (by omega), hK2 _ (by omega), hK1, hK1]
      have A := hs p q
      have B := hx 0 (q - first) (by omega) (by omega) (by omega)
      rw [← eq] at B
      have e1 : q - first ≠ i := by omega
      have e2 : q - first ≠ 0 := by omega
      simp only [e1, e2, if_false]
      by_cases e3 : p - first = i
      · simp only [e3, if_true]
        rw [← eq]
        exact B
      · have e4 : p - first ≠ 0 := by omega
        simp only [e3, e4, if_false]
        rw [← ep, ← eq]
        exact A (by omega) hpq hq
    have hx2 : ∀ p q, p < i → i ≤ q → q < hi0 →
        keyAt key d2 (first + p) ≤ keyAt key d2 (first + q) := by
      intro p q hp hiq hq
      rw [hK2 q hiq]
      have hin := w2'.keyAt_inside key (fun v => v ≤ keyAt key d1 (first + q)) (by omega) ?_
        (first + p) (by omega) (by omega)
      · exact hin
      · intro k hk1 hk2
        have ek : k = first + (k - first) := by omega
        rw [ek, hK1, hK1]
        have e1 : k - first ≠ i := by omega
        simp only [e1, if_false]
        by_cases e2 : q = i
        · simp only [e2, if_true]
          have M1 := hmax i (by omega)
          have M2 := hmax (k - first) (by omega)
          split_ifs <;> omega
        · have e3 : q ≠ 0 := by omega
          simp only [e2, e3, if_false]
          have X1 := hx i q (by omega) (by omega) hq
          have X2 := hx (k - first) q (by omega) (by omega) hq
          split_ifs <;> omega
    obtain ⟨w3, s3⟩ := ih d2 (by omega) (by rw [hlen2]; exact hlen) hh2 hs2 hx2
    exact ⟨(hw1.followedBy (w2'.widen (le_refl _) (by omega))).followedBy w3, s3⟩

theorem heapSort_func_spec (less : α → α → Bool) (key : α → Int)
    (hless : ∀ x y, less x y = decide (key x < key y)) (data : List α) (a b : Nat)
    (hab : a ≤ b) (hb : b ≤ data.length) :
    Within a b data (heapSort_func less data a b) ∧
      RangeSorted key a b (heapSort_func less data a b) := by
  unfold heapSort_func
  simp only
  have e : a + (b - a) = b := by omega
  obtain ⟨w1, h1⟩ := heapSort_build_spec less key hless (b - a) a ((b - a - 1) / 2 + 1) data
    (by omega) (fun c h1 h2 h3 => by omega)
  obtain ⟨w2, s2⟩ := heapSort_pop_spec less key hless a (b - a) (b - a) _ (le_refl _)
    (by rw [w1.length]; omega) h1 (fun p q h1 h2 h3 => by omega)
    (fun p q h1 h2 h3 => by omega)
  rw [e] at w1 w2 s2
  exact ⟨w1.followedBy w2, s2⟩

theorem RangeSorted.join {key : α → Int} {a mid b : Nat} {r : List α}
    (h1 : RangeSorted key a mid r) (h2 : RangeSorted key (mid + 1) b r)
    (hlo : ∀ k, a ≤ k → k < mid → keyAt key r k ≤ keyAt key r mid)
    (hhi : ∀ k, mid < k → k < b → keyAt key r mid ≤ keyAt key r k) :
    RangeSorted key a b r := by
  intro p q hp hpq hq
  have A := h1 p q hp hpq
  have B := h2 p q
  have C := hlo p hp
  have D := hhi q
  by_cases hqm : q < mid
  · exact A hqm
  · by_cases hpm : mid < p
    · exact B (by omega) hpq hq
    · by_cases e1 : p = mid
      · rw [e1]; exact hhi q (by omega) hq
      · by_cases e2 : q = mid
        · rw [e2]; exact hlo p hp (by omega)
        · have := C (by omega)
          have := D (by omega) hq
          omega

theorem RangeSorted.of_outside {key : α → Int} {a b x y : Nat} {d1 d2 : List α}
    (h : RangeSorted key a b d1) (hw : Within x y d1 d2) (hd : b ≤ x ∨ y ≤ a) :
    RangeSorted key a b d2 := by
  intro p q hp hpq hq
  rw [hw.keyAt_outside key p (by omega), hw.keyAt_outside key q (by omega)]
  exact h p q hp hpq hq

theorem pdqsort_func_spec (less : α → α → Bool) (key : α → Int)
    (hless : ∀ x y, less x y = decide (key x < key y)) :
    ∀ (n : Nat) (data : List α) (a b limit : Nat) (wasBalanced wasPartitioned : Bool),
      a ≤ b → b ≤ data.length → b - a < n → PredBound key a b data →
      Within a b data (pdqsort_func less n data a b limit wasBalanced wasPartitioned) ∧
        RangeSorted key a b (pdqsort_func less n data a b limit wasBalanced wasPartitioned) := by
  intro n
  induction n with
  | zero => intro data a b _ _ _ _ _ h _; omega
  | succ n ih =>
    intro data a b limit wasBalanced wasPartitioned hab hb hn hp
    unfold pdqsort_func
    simp only
    by_cases h12 : b - a ≤ 12
    · rw [if_pos h12]
      obtain ⟨w, s, _⟩ := insertionSort_func_spec less key hless data a b hab hb
      exact ⟨w, s⟩
    rw [if_neg h12]
    by_cases hlim : limit = 0
    · rw [if_pos hlim]
      exact heapSort_func_spec less key hless data a b hab hb
    rw [if_neg hlim]
    -- breakPatterns
    have hw1 : Within a b data (if (!wasBalanced) = true then breakPatterns_func data a b else data) := by
      split_ifs
      · exact breakPatterns_func_within data a b hab hb
      · exact Within.same _ _ _
    generalize (if (!wasBalanced) = true then breakPatterns_func data a b else data) = d1 at hw1 ⊢
    generalize (if (!wasBalanced) = true then limit - 1 else limit) = limit'
    have hb1 : b ≤ d1.length := by rw [hw1.length]; exact hb
    -- choosePivot
    have hph := choosePivot_func_range less d1 a b (by omega)
    generalize choosePivot_func less d1 a b = ph at hph ⊢
    have hw2 : Within a b d1
        (if ph.2 = sortedHint.decreasingHint then reverseRange_func d1 a b else d1) := by
      split_ifs
      · exact reverseRange_func_within d1 a b (by omega) hb1
      · exact Within.same _ _ _
    generalize (if ph.2 = sortedHint.decreasingHint then reverseRange_func d1 a b else d1) = d2
      at hw2 ⊢
    have hpiv : a ≤ (if ph.2 = sortedHint.decreasingHint then b - 1 - (ph.1 - a) else ph.1) ∧
        (if ph.2 = sortedHint.decreasingHint then b - 1 - (ph.1 - a) else ph.1) < b := by
      split_ifs <;> omega
    generalize (if ph.2 = sortedHint.decreasingHint then b - 1 - (ph.1 - a) else ph.1) = pivot
      at hpiv ⊢
    generalize (if ph.2 = sortedHint.decreasingHint then sortedHint.increasingHint else ph.2) = hint
    have hwd2 : Within a b data d2 := hw1.followedBy hw2
    have hb2 : b ≤ d2.length := by rw [hwd2.length]; exact hb
    have hp2 : PredBound key a b d2 := hp.within hwd2 hb
    -- partialInsertionSort
    have hpis : Within a b d2
          (if (wasBalanced && wasPartitioned && decide (hint = sortedHint.increasingHint)) = true
            then partialInsertionSort_func less d2 a b else (d2, false)).1 ∧
        ((if (wasBalanced && wasPartitioned && decide (hint = sortedHint.increasingHint)) = true
            then partialInsertionSort_func less d2 a b else (d2, false)).2 = true →
          RangeSorted key a b
            (if (wasBalanced && wasPartitioned && decide (hint = sortedHint.increasingHint)) = true
              then partialInsertionSort_func less d2 a b else (d2, false)).1) := by
      split_ifs
      · exact partialInsertionSort_func_spec less key hless d2 a b (by omega) hb2 hp2
      · exact ⟨Within.same _ _ _, fun h => by cases h⟩
    generalize (if (wasBalanced && wasPartitioned && decide (hint = sortedHint.increasingHint)) = true
      then partialInsertionSort_func less d2 a b else (d2, false)) = pis at hpis ⊢
    obtain ⟨hw3, hs3⟩ := hpis
    by_cases hdone : pis.2 = true
    · rw [if_pos hdone]
      exact ⟨hwd2.followedBy hw3, hs3 hdone⟩
    rw [if_neg hdone]
    have hwd3 : Within a b data pis.1 := hwd2.followedBy hw3
    have hb3 : b ≤ pis.1.length := by rw [hwd3.length]; exact hb
    have hp3 : PredBound key a b pis.1 := hp.within hwd3 hb
    generalize pis.1 = d3 at hw3 hs3 hwd3 hb3 hp3 ⊢
    by_cases hcond : (decide (0 < a) && !Less less d3 (a - 1) pivot) = true
    · -- the pivot equals the element before the range
      rw [if_pos hcond]
      simp only [Bool.and_eq_true, decide_eq_true_eq, Bool.not_eq_true'] at hcond
      obtain ⟨ha0, hnl⟩ := hcond
      rw [Less_eq less key hless d3 (a - 1) pivot (by omega) (by omega)] at hnl
      simp only [decide_eq_false_iff_not, not_lt] at hnl
      have hpred : ∀ k, a ≤ k → k < b → keyAt key d3 (a - 1) ≤ keyAt key d3 k := by
        rcases hp3 with h | h
        · omega
        · exact h
      obtain ⟨wpe, m1, m2, plo, phi⟩ :=
        partitionEqual_func_spec less key hless d3 a b pivot hpiv.1 hpiv.2 hb3
      generalize partitionEqual_func less d3 a b pivot = pe at wpe m1 m2 plo phi ⊢
      have hbpe : b ≤ pe.1.length := by rw [wpe.length]; exact hb3
      have hge : ∀ k, a ≤ k → k < b → keyAt key d3 pivot ≤ keyAt key pe.1 k :=
        wpe.keyAt_inside key (fun v => keyAt key d3 pivot ≤ v) hb3
          (fun k h1 h2 => le_trans hnl (hpred k h1 h2))
      obtain ⟨wr, sr⟩ := ih pe.1 pe.2 b limit' wasBalanced wasPartitioned m2 hbpe (by omega)
        (Or.inr (fun k h1 h2 => by
          have A := plo (pe.2 - 1) (by omega) (by omega)
          have B := phi k h1 h2
          omega))
      generalize pdqsort_func less n pe.1 pe.2 b limit' wasBalanced wasPartitioned = r at wr sr ⊢
      refine ⟨(hwd3.followedBy wpe).followedBy (wr.widen (by omega) (le_refl _)), ?_⟩
      have hgt : ∀ k, pe.2 ≤ k → k < b → keyAt key d3 pivot < keyAt key r k :=
        wr.keyAt_inside key (fun v => keyAt key d3 pivot < v) hbpe phi
      intro p q h1 h2 h3
      by_cases hpm : pe.2 ≤ p
      · exact sr p q hpm h2 h3
      · rw [wr.keyAt_outside key p (by omega)]
        have A := plo p h1 (by omega)
        have B := hge p h1 (by omega)
        by_cases hqm : pe.2 ≤ q
        · have := hgt q hqm h3
          omega
        · rw [wr.keyAt_outside key q (by omega)]
          have C := plo q (by omega) (by omega)
          have D := hge q (by omega) (by omega)
          omega
    · rw [if_neg hcond]
      obtain ⟨wpt, m1, m2, plo, phi⟩ :=
        partition_func_spec less key hless d3 a b pivot hpiv.1 hpiv.2 hb3
      generalize partition_func less d3 a b pivot = pt at wpt m1 m2 plo phi ⊢
      have hwd4 : Within a b data pt.1 := hwd3.followedBy wpt
      have hb4 : b ≤ pt.1.length := by rw [hwd4.length]; exact hb
      have hp4 : PredBound key a b pt.1 := hp.within hwd4 hb
      generalize hmid : pt.2.1 = mid at m1 m2 plo phi ⊢
      generalize pt.2.2 = already
      generalize pt.1 = d4 at wpt plo phi hwd4 hb4 hp4 ⊢
      by_cases hside : mid - a < b - mid
      · rw [if_pos hside]
        obtain ⟨w1, s1⟩ := ih d4 a mid limit' true true m1 (by omega) (by omega)
          (hp4.shrink (by omega))
        generalize pdqsort_func less n d4 a mid limit' true true = r1 at w1 s1 ⊢
        have hb5 : b ≤ r1.length := by rw [w1.length]; exact hb4
        have hmidk : keyAt key r1 mid = keyAt key d4 mid := w1.keyAt_outside key mid (by omega)
        obtain ⟨w2, s2⟩ := ih r1 (mid + 1) b limit' (decide ((b - a) / 8 ≤ mid - a)) already
          (by omega) hb5 (by omega)
          (Or.inr (fun k h1 h2 => by
            rw [Nat.add_sub_cancel, hmidk, w1.keyAt_outside key k (by omega)]
            exact phi k (by omega) h2))
        generalize pdqsort_func less n r1 (mid + 1) b limit' (decide ((b - a) / 8 ≤ mid - a))
          already = r at w2 s2 ⊢
        refine ⟨(hwd4.followedBy (w1.widen (le_refl _) (by omega))).followedBy
          (w2.widen (by omega) (le_refl _)), ?_⟩
        have hmidr : keyAt key r mid = keyAt key d4 mid := by
          rw [w2.keyAt_outside key mid (by omega), hmidk]
        apply RangeSorted.join (s1.of_outside w2 (Or.inl (by omega))) s2
        · intro k h1 h2
          rw [hmidr, w2.keyAt_outside key k (by omega)]
          have := w1.keyAt_inside key (fun v => v < keyAt key d4 mid) (by omega) plo k h1 h2
          exact le_of_lt this
        · intro k h1 h2
          rw [hmidr]
          exact w2.keyAt_inside key (fun v => keyAt key d4 mid ≤ v) hb5
            (fun k' h1' h2' => by
              rw [w1.keyAt_outside key k' (by omega)]
              exact phi k' (by omega) h2') k (by omega) h2
      · rw [if_neg hside]
        obtain ⟨w1, s1⟩ := ih d4 (mid + 1) b limit' true true (by omega) hb4 (by omega)
          (Or.inr (fun k h1 h2 => by
            rw [Nat.add_sub_cancel]
            exact phi k (by omega) h2))
        generalize pdqsort_func less n d4 (mid + 1) b limit' true true = r1 at w1 s1 ⊢
        have hb5 : b ≤ r1.length := by rw [w1.length]; exact hb4
        have hmidk : keyAt key r1 mid = keyAt key d4 mid := w1.keyAt_outside key mid (by omega)
        obtain ⟨w2, s2⟩ := ih r1 a mid limit' (decide ((b - a) / 8 ≤ b - mid)) already
          m1 (by omega) (by omega)
          ((hp4.within (w1.widen (by omega) (le_refl _)) hb4).shrink (by omega))
        generalize pdqsort_func less n r1 a mid limit' (decide ((b - a) / 8 ≤ b - mid))
          already = r at w2 s2 ⊢
        refine ⟨(hwd4.followedBy (w1.widen (by omega) (le_refl _))).followedBy
          (w2.widen (le_refl _) (by omega)), ?_⟩
        have hmidr : keyAt key r mid = keyAt key d4 mid := by
          rw [w2.keyAt_outside key mid (by omega), hmidk]
        apply RangeSorted.join s2 (s1.of_outside w2 (Or.inr (by omega)))
        · intro k h1 h2
          rw [hmidr]
          have := w2.keyAt_inside key (fun v => v < keyAt key d4 mid) (by omega)
            (fun k' h1' h2' => by
              rw [w1.keyAt_outside key k' (by omega)]
              exact plo k' h1' h2') k h1 h2
          exact le_of_lt this
        · intro k h1 h2
          rw [hmidr, w2.keyAt_outside key k (by omega)]
          exact w1.keyAt_inside key (fun v => keyAt key d4 mid ≤ v) hb4
            (fun k' h1' h2' => phi k' (by omega) h2') k (by omega) h2

theorem sortSlice_spec (less : α → α → Bool) (key : α → Int)
    (hless : ∀ x y, less x y = decide (key x < key y)) (data : List α) :
    (sortSlice less data).Perm data ∧
      (sortSlice less data).Pairwise (fun x y => key x ≤ key y) := by
  obtain ⟨w, s⟩ := pdqsort_func_spec less key hless (data.length + 1) data 0 data.length
    (bitsLen data.length) true true (Nat.zero_le _) (le_refl _) (by omega) (Or.inl rfl)
  unfold sortSlice
  generalize pdqsort_func less (data.length + 1) data 0 data.length (bitsLen data.length)
    true true = r at w s
  refine ⟨w.perm, ?_⟩
  rw [List.pairwise_iff_getElem]
  intro i j hi hj hij
  have := s i j (Nat.zero_le _) hij (by rw [← w.length]; exact hj)
  rw [keyAt_of_getElem? key r i _ (List.getElem?_eq_getElem hi),
    keyAt_of_getElem? key r j _ (List.getElem?_eq_getElem hj)] at this
  exact this

theorem sortSlice_short (less : α → α → Bool) (key : α → Int)
    (hless : ∀ x y, less x y = decide (key x < key y)) (data : List α)
    (h : data.length ≤ 12) : SameOrderPerKey key data (sortSlice less data) := by
  have e : sortSlice less data = insertionSort_func less data 0 data.length := by
    unfold sortSlice pdqsort_func
    simp only [Nat.sub_zero]
    rw [if_pos h]
  rw [e]
  exact (insertionSort_func_spec less key hless data 0 data.length (Nat.zero_le _) (le_refl _)).2.2

end SortProofs

/-! ## Lemmas on the program -/

theorem mapGet_mapSet (m : Events) (k : String) (v : Event) (k' : String) :
    mapGet (mapSet m k v) k' = if k = k' then some v else mapGet m k' := by
  induction m with
  | nil => simp [mapSet, mapGet]
  | cons p rest ih =>
    obtain ⟨k0, v0⟩ := p
    by_cases h0 : k0 = k
    · subst h0
      by_cases h : k0 = k' <;> simp [mapSet, mapGet, h]
    · by_cases h : k = k'
      · subst h
        simp [mapSet, mapGet, h0, ih]
      · by_cases h1 : k0 = k'
        · subst h1
          simp [mapSet, mapGet, h0, h]
        · simp [mapSet, mapGet, h0, h1, ih, h]

theorem length_pos_iff_ne_empty (s : String) : 0 < s.length ↔ s ≠ "" := by
  rw [Nat.pos_iff_ne_zero, ne_eq, ne_eq, not_iff_not]
  constructor
  · intro h
    have hd : s.data = [] := List.length_eq_zero.mp h
    exact String.ext hd
  · rintro rfl
    rfl

theorem resolveLoop_some (env : Env) (first : ProwlarrTorrent) (l : List ProwlarrTorrent)
    (best : ProwlarrTorrent) (h : (resolveLoop env first l).1 = some best) :
    ∃ pre t post, l = pre ++ t :: post ∧
      (∀ x ∈ pre, (findMagnetLink env x).1.1 = "") ∧
      (findMagnetLink env t).1.1 ≠ "" ∧
      best = { first with MagnetUrl := (findMagnetLink env t).1.1 } := by
  induction l with
  | nil => simp [resolveLoop] at h
  | cons t ts ih =>
    unfold resolveLoop at h
    by_cases hm : 0 < (findMagnetLink env t).1.1.length
    · simp only [hm, if_true] at h
      refine ⟨[], t, ts, rfl, by simp, (length_pos_iff_ne_empty _).mp hm, ?_⟩
      exact (Option.some.inj h).symm
    · simp only [hm, if_false] at h
      obtain ⟨pre, t', post, hl, hpre, ht', hb⟩ := ih h
      refine ⟨t :: pre, t', post, by simp [hl], ?_, ht', hb⟩
      intro x hx
      rcases List.mem_cons.mp hx with rfl | hx
      · by_contra hne
        exact hm ((length_pos_iff_ne_empty _).mpr hne)
      · exact hpre x hx

theorem resolveLoop_none (env : Env) (first : ProwlarrTorrent) (l : List ProwlarrTorrent)
    (h : (resolveLoop env first l).1 = none) :
    ∀ x ∈ l, (findMagnetLink env x).1.1 = "" := by
  induction l with
  | nil => simp
  | cons t ts ih =>
    unfold resolveLoop at h
    by_cases hm : 0 < (findMagnetLink env t).1.1.length
    · simp [hm] at h
    · simp only [hm, if_false] at h
      intro x hx
      rcases List.mem_cons.mp hx with rfl | hx
      · by_contra hne
        exact hm ((length_pos_iff_ne_empty _).mpr hne)
      · exact ih h x hx

theorem findBestTorrents_ok_iff (env : Env) (event : Event) (torrents : List ProwlarrTorrent)
    (eventType : EventType) (best : ProwlarrTorrent) :
    (findBestTorrents env event torrents eventType).1 = .ok best ↔
      ∃ first rest, rankTorrents (matchingTorrents event torrents eventType) = first :: rest ∧
        (resolveLoop env first (first :: rest)).1 = some best := by
  unfold findBestTorrents
  cases hs : rankTorrents (matchingTorrents event torrents eventType) with
  | nil => simp
  | cons first rest =>
    simp only [List.cons.injEq, exists_and_left]
    rcases hr : resolveLoop env first (first :: rest) with ⟨_ | b, calls⟩
    · simp [hr]
    · simp only [Except.ok.injEq, Option.some.injEq]
      constructor
      · intro h
        exact ⟨first, ⟨rest, ⟨rfl, rfl⟩, by rw [hr]; simp [h]⟩⟩
      · rintro ⟨f, ⟨r, ⟨rfl, rfl⟩, h⟩⟩
        rw [hr] at h
        simpa using h

theorem findBestTorrents_ok (env : Env) (event : Event) (torrents : List ProwlarrTorrent)
    (eventType : EventType) (best : ProwlarrTorrent)
    (h : (findBestTorrents env event torrents eventType).1 = .ok best) :
    0 < best.MagnetUrl.length := by
  obtain ⟨first, rest, _, hr⟩ := (findBestTorrents_ok_iff env event torrents eventType best).mp h
  obtain ⟨pre, t, post, _, _, ht, hb⟩ := resolveLoop_some env first _ best hr
  rw [hb]
  exact (length_pos_iff_ne_empty _).mpr ht

theorem addTorrent_ok (env : Env) (log : List Call) (torrent : ProwlarrTorrent)
    (hm : 0 < torrent.MagnetUrl.length) (h : (addTorrent env log torrent).1 = none) :
    (addTorrent env log torrent).2 = log ++ [Call.LoginCtx,
      Call.AddTorrentFromUrl torrent.MagnetUrl [("category", "ufc-downloader"), ("autoTMM", "true")]] := by
  unfold addTorrent at h ⊢
  cases hl : env.LoginCtx log with
  | some e => simp [hl] at h
  | none =>
    simp only [hl, hm, if_true] at h ⊢
    cases ha : env.AddTorrentFromUrl (log ++ [Call.LoginCtx]) torrent.MagnetUrl with
    | some e => simp [ha] at h
    | none => simp

theorem addTorrent_log (env : Env) (log : List Call) (torrent : ProwlarrTorrent) :
    ∃ l, (addTorrent env log torrent).2 = log ++ l := by
  unfold addTorrent
  cases env.LoginCtx log with
  | some e => exact ⟨[Call.LoginCtx], rfl⟩
  | none =>
    by_cases hm : 0 < torrent.MagnetUrl.length
    · simp only [hm, if_true]
      cases env.AddTorrentFromUrl (log ++ [Call.LoginCtx]) torrent.MagnetUrl with
      | some e =>
        exact ⟨[Call.LoginCtx, Call.AddTorrentFromUrl torrent.MagnetUrl
          [("category", "ufc-downloader"), ("autoTMM", "true")]], by simp⟩
      | none =>
        exact ⟨[Call.LoginCtx, Call.AddTorrentFromUrl torrent.MagnetUrl
          [("category", "ufc-downloader"), ("autoTMM", "true")]], by simp⟩
    · simp only [hm, if_false]
      exact ⟨[Call.LoginCtx], rfl⟩

theorem segmentBlock_cases (env : Env) (results : List ProwlarrTorrent) (eventType : EventType)
    (setFlag : Event → Event) (st : Event × List Call) :
    ((segmentBlock env results eventType setFlag st).1 = st.1 ∧
      ∃ l, (segmentBlock env results eventType setFlag st).2 = st.2 ++ l) ∨
      ((segmentBlock env results eventType setFlag st).1 = setFlag st.1 ∧
        ∃ best, (findBestTorrents env st.1 results eventType).1 = .ok best ∧
          0 < best.MagnetUrl.length ∧
          (segmentBlock env results eventType setFlag st).2 =
            st.2 ++ [Call.findBestTorrents eventType.Name] ++
              (findBestTorrents env st.1 results eventType).2 ++
              [Call.LoginCtx,
               Call.AddTorrentFromUrl best.MagnetUrl
                 [("category", "ufc-downloader"), ("autoTMM", "true")],
               Call.SendMessage (eventType.Name ++ " sent to download client") (setFlag st.1).Name]) := by
  unfold segmentBlock
  cases hfb : (findBestTorrents env st.1 results eventType).1 with
  | error e => left; simp [hfb]
  | ok best =>
    have hm := findBestTorrents_ok env st.1 results eventType best hfb
    simp only [hfb]
    cases hadd : (addTorrent env (st.2 ++ [Call.findBestTorrents eventType.Name] ++
        (findBestTorrents env st.1 results eventType).2) best).1 with
    | some e =>
      left
      simp only [hadd, true_and]
      obtain ⟨l, hl⟩ := addTorrent_log env (st.2 ++ [Call.findBestTorrents eventType.Name] ++
        (findBestTorrents env st.1 results eventType).2) best
      exact ⟨[Call.findBestTorrents eventType.Name] ++
        (findBestTorrents env st.1 results eventType).2 ++ l, by rw [hl]; simp⟩
    | none =>
      right
      have := addTorrent_ok env _ best hm hadd
      simp only [hadd, true_and]
      refine ⟨best, rfl, hm, ?_⟩
      simp only [sendDownloadNotification, this]
      simp


theorem segmentBlock_log (env : Env) (results : List ProwlarrTorrent) (eventType : EventType)
    (setFlag : Event → Event) (st : Event × List Call) :
    ∃ l, (segmentBlock env results eventType setFlag st).2 = st.2 ++ l := by
  rcases segmentBlock_cases env results eventType setFlag st with ⟨_, h⟩ | ⟨_, best, _, _, h⟩
  · exact h
  · exact ⟨_, by rw [h, List.append_assoc, List.append_assoc]⟩

theorem Submitted_append (log l : List Call) (segment : EventType) (name : String)
    (h : Submitted log segment name) : Submitted (log ++ l) segment name := by
  obtain ⟨l1, l2, m, hm, hlog⟩ := h
  exact ⟨l1, l2 ++ l, m, hm, by rw [hlog]; simp⟩

theorem segmentBlock_set (env : Env) (results : List ProwlarrTorrent) (eventType : EventType)
    (setFlag : Event → Event) (st : Event × List Call)
    (h : (segmentBlock env results eventType setFlag st).1 ≠ st.1) :
    (segmentBlock env results eventType setFlag st).1 = setFlag st.1 ∧
      Submitted (segmentBlock env results eventType setFlag st).2 eventType (setFlag st.1).Name := by
  rcases segmentBlock_cases env results eventType setFlag st with ⟨h1, _⟩ | ⟨h1, best, _, hm, hl⟩
  · exact absurd h1 h
  · refine ⟨h1, ?_⟩
    exact ⟨st.2 ++ [Call.findBestTorrents eventType.Name] ++
      (findBestTorrents env st.1 results eventType).2, [], best.MagnetUrl,
      (length_pos_iff_ne_empty _).mp hm, by rw [hl]; simp [submitOptions]⟩

theorem segmentBlock_event (env : Env) (results : List ProwlarrTorrent) (eventType : EventType)
    (setFlag : Event → Event) (st : Event × List Call) :
    (segmentBlock env results eventType setFlag st).1 = st.1 ∨
      (segmentBlock env results eventType setFlag st).1 = setFlag st.1 := by
  rcases segmentBlock_cases env results eventType setFlag st with ⟨h1, _⟩ | ⟨h1, _⟩
  · exact Or.inl h1
  · exact Or.inr h1

theorem earlyPrelimsBlock_spec (env : Env) (results : List ProwlarrTorrent)
    (st : Event × List Call) :
    BlockSpec EarlyPrelims (fun e => e.EarlyPrelimsDownloaded)
      (fun e => { e with EarlyPrelimsDownloaded := true }) st (earlyPrelimsBlock env results st) := by
  unfold earlyPrelimsBlock
  cases hf : st.1.EarlyPrelimsDownloaded with
  | true => exact ⟨Or.inl (by simp), ⟨[], by simp⟩⟩
  | false =>
    simp only [Bool.not_false, if_true]
    refine ⟨?_, segmentBlock_log _ _ _ _ _⟩
    by_cases h : (segmentBlock env results EarlyPrelims
        (fun e => { e with EarlyPrelimsDownloaded := true }) st).1 = st.1
    · exact Or.inl h
    · obtain ⟨h1, h2⟩ := segmentBlock_set _ _ _ _ _ h
      exact Or.inr ⟨hf, h1, h2⟩

theorem prelimsBlock_spec (env : Env) (results : List ProwlarrTorrent)
    (st : Event × List Call) :
    BlockSpec Prelims (fun e => e.PrelimsDownloaded)
      (fun e => { e with PrelimsDownloaded := true }) st (prelimsBlock env results st) := by
  unfold prelimsBlock
  cases hf : st.1.PrelimsDownloaded with
  | true => exact ⟨Or.inl (by simp), ⟨[], by simp⟩⟩
  | false =>
    simp only [Bool.not_false, if_true]
    refine ⟨?_, segmentBlock_log _ _ _ _ _⟩
    by_cases h : (segmentBlock env results Prelims
        (fun e => { e with PrelimsDownloaded := true }) st).1 = st.1
    · exact Or.inl h
    · obtain ⟨h1, h2⟩ := segmentBlock_set _ _ _ _ _ h
      exact Or.inr ⟨hf, h1, h2⟩

theorem mainCardBlock_spec (env : Env) (results : List ProwlarrTorrent)
    (st : Event × List Call) :
    BlockSpec MainCard (fun e => e.MainCardDownloaded)
      (fun e => { e with MainCardDownloaded := true }) st (mainCardBlock env results st) := by
  unfold mainCardBlock
  cases hf : st.1.MainCardDownloaded with
  | true => exact ⟨Or.inl (by simp), ⟨[], by simp⟩⟩
  | false =>
    simp only [Bool.not_false, if_true]
    refine ⟨?_, segmentBlock_log _ _ _ _ _⟩
    by_cases h : (segmentBlock env results MainCard
        (fun e => { e with MainCardDownloaded := true }) st).1 = st.1
    · exact Or.inl h
    · obtain ⟨h1, h2⟩ := segmentBlock_set _ _ _ _ _ h
      exact Or.inr ⟨hf, h1, h2⟩

theorem Progress.andThen {st s r : Event × List Call} (h1 : Progress st s) (h2 : Progress s r) :
    Progress st r := by
  obtain ⟨l1, hl1⟩ := h1.log
  obtain ⟨l2, hl2⟩ := h2.log
  refine ⟨h2.url.trans h1.url, h2.name.trans h1.name, h2.date.trans h1.date,
    fun h => h2.early (h1.early h), fun h => h2.prelims (h1.prelims h),
    fun h => h2.main (h1.main h), ?_, ?_, ?_, ⟨l1 ++ l2, by rw [hl2, hl1]; simp⟩⟩
  · intro hf ht
    cases hs : s.1.EarlyPrelimsDownloaded with
    | true => rw [hl2]; exact Submitted_append _ _ _ _ (h1.earlySub hf hs)
    | false => rw [← h1.name]; exact h2.earlySub hs ht
  · intro hf ht
    cases hs : s.1.PrelimsDownloaded with
    | true => rw [hl2]; exact Submitted_append _ _ _ _ (h1.prelimsSub hf hs)
    | false => rw [← h1.name]; exact h2.prelimsSub hs ht
  · intro hf ht
    cases hs : s.1.MainCardDownloaded with
    | true => rw [hl2]; exact Submitted_append _ _ _ _ (h1.mainSub hf hs)
    | false => rw [← h1.name]; exact h2.mainSub hs ht

theorem Progress.of_eq {st r : Event × List Call} (he : r.1 = st.1) (hl : ∃ l, r.2 = st.2 ++ l) :
    Progress st r := by
  refine ⟨by rw [he], by rw [he], by rw [he], ?_, ?_, ?_, ?_, ?_, ?_, hl⟩ <;> rw [he] <;> intro h
  · exact h
  · exact h
  · exact h
  · intro h'; rw [h] at h'; cases h'
  · intro h'; rw [h] at h'; cases h'
  · intro h'; rw [h] at h'; cases h'

theorem earlyPrelimsBlock_progress (env : Env) (results : List ProwlarrTorrent)
    (st : Event × List Call) : Progress st (earlyPrelimsBlock env results st) := by
  obtain ⟨he, hl⟩ := earlyPrelimsBlock_spec env results st
  rcases he with he | ⟨hg, he, hs⟩
  · exact Progress.of_eq he hl
  · refine ⟨by rw [he], by rw [he], by rw [he], ?_, ?_, ?_, ?_, ?_, ?_, hl⟩ <;> rw [he] <;>
      intro h
    · rfl
    · exact h
    · exact h
    · intro _; exact hs
    · intro h'; simp only at h'; rw [h] at h'; cases h'
    · intro h'; simp only at h'; rw [h] at h'; cases h'

theorem prelimsBlock_progress (env : Env) (results : List ProwlarrTorrent)
    (st : Event × List Call) : Progress st (prelimsBlock env results st) := by
  obtain ⟨he, hl⟩ := prelimsBlock_spec env results st
  rcases he with he | ⟨hg, he, hs⟩
  · exact Progress.of_eq he hl
  · refine ⟨by rw [he], by rw [he], by rw [he], ?_, ?_, ?_, ?_, ?_, ?_, hl⟩ <;> rw [he] <;>
      intro h
    · exact h
    · rfl
    · exact h
    · intro h'; simp only at h'; rw [h] at h'; cases h'
    · intro _; exact hs
    · intro h'; simp only at h'; rw [h] at h'; cases h'

theorem mainCardBlock_progress (env : Env) (results : List ProwlarrTorrent)
    (st : Event × List Call) : Progress st (mainCardBlock env results st) := by
  obtain ⟨he, hl⟩ := mainCardBlock_spec env results st
  rcases he with he | ⟨hg, he, hs⟩
  · exact Progress.of_eq he hl
  · refine ⟨by rw [he], by rw [he], by rw [he], ?_, ?_, ?_, ?_, ?_, ?_, hl⟩ <;> rw [he] <;>
      intro h
    · exact h
    · exact h
    · rfl
    · intro h'; simp only at h'; rw [h] at h'; cases h'
    · intro h'; simp only at h'; rw [h] at h'; cases h'
    · intro _; exact hs

theorem processSegments_progress (env : Env) (results : List ProwlarrTorrent)
    (st : Event × List Call) : Progress st (processSegments env results st) :=
  ((earlyPrelimsBlock_progress env results st).andThen
    (prelimsBlock_progress env results _)).andThen (mainCardBlock_progress env results _)


theorem downloadEvent_complete (env : Env) (w : World) (event : Event)
    (h : complete (eventInEffect env w event)) :
    downloadEvent env w event =
      { err := none, world := w, log := [Call.loadEvents], event := eventInEffect env w event,
        panics := false } := by
  obtain ⟨h1, h2, h3⟩ := h
  unfold downloadEvent
  simp [h1, h2, h3]

theorem downloadEvent_pending (env : Env) (w : World) (event : Event) (m : Events)
    (h : ¬ complete (eventInEffect env w event)) (hm : loadedEvents env w = some m) :
    downloadEvent env w event =
      { err := (saveEvents env w (segmentsDone env w event).2
          (some (mapSet m (segmentsDone env w event).1.Url (segmentsDone env w event).1))).1
        world := (saveEvents env w (segmentsDone env w event).2
          (some (mapSet m (segmentsDone env w event).1.Url (segmentsDone env w event).1))).2.1
        log := (saveEvents env w (segmentsDone env w event).2
          (some (mapSet m (segmentsDone env w event).1.Url (segmentsDone env w event).1))).2.2
        event := (segmentsDone env w event).1
        panics := false } := by
  unfold downloadEvent segmentsDone
  have : ¬ ((eventInEffect env w event).MainCardDownloaded &&
      (eventInEffect env w event).PrelimsDownloaded &&
      (eventInEffect env w event).EarlyPrelimsDownloaded) = true := by
    intro hc
    simp only [Bool.and_eq_true] at hc
    exact h ⟨hc.2, hc.1.2, hc.1.1⟩
  simp only [this, Bool.false_eq_true, if_false, hm]

theorem downloadEvent_nil (env : Env) (w : World) (event : Event)
    (h : ¬ complete (eventInEffect env w event)) (hm : loadedEvents env w = none) :
    downloadEvent env w event =
      { err := none, world := w, log := (segmentsDone env w event).2,
        event := (segmentsDone env w event).1, panics := true } := by
  unfold downloadEvent segmentsDone
  have : ¬ ((eventInEffect env w event).MainCardDownloaded &&
      (eventInEffect env w event).PrelimsDownloaded &&
      (eventInEffect env w event).EarlyPrelimsDownloaded) = true := by
    intro hc
    simp only [Bool.and_eq_true] at hc
    exact h ⟨hc.2, hc.1.2, hc.1.1⟩
  simp only [this, Bool.false_eq_true, if_false, hm]

theorem mapGet_mem (m : Events) (k : String) (v : Event) (h : mapGet m k = some v) :
    (k, v) ∈ m := by
  induction m with
  | nil => simp [mapGet] at h
  | cons p rest ih =>
    obtain ⟨k0, v0⟩ := p
    unfold mapGet at h
    by_cases h0 : k0 = k
    · rw [if_pos h0] at h
      cases h
      simp [h0]
    · rw [if_neg h0] at h
      exact List.mem_cons_of_mem _ (ih h)

theorem mem_mapSet (m : Events) (k : String) (v : Event) (p : String × Event)
    (hp : p ∈ mapSet m k v) : p = (k, v) ∨ p ∈ m := by
  induction m with
  | nil =>
    simp only [mapSet, List.mem_singleton] at hp
    exact Or.inl hp
  | cons q rest ih =>
    obtain ⟨k0, v0⟩ := q
    unfold mapSet at hp
    by_cases h0 : k0 = k
    · rw [if_pos h0] at hp
      rcases List.mem_cons.mp hp with h | h
      · exact Or.inl h
      · exact Or.inr (List.mem_cons_of_mem _ h)
    · rw [if_neg h0] at hp
      rcases List.mem_cons.mp hp with h | h
      · exact Or.inr (by rw [h]; exact List.mem_cons_self _ _)
      · rcases ih h with h | h
        · exact Or.inl h
        · exact Or.inr (List.mem_cons_of_mem _ h)

/-- The descriptor in effect is the incoming one or an entry of the loaded map
under the incoming url. -/
theorem eventInEffect_cases (env : Env) (w : World) (event : Event) :
    eventInEffect env w event = event ∨
      ∃ m, loadedEvents env w = some m ∧ (event.Url, eventInEffect env w event) ∈ m := by
  unfold eventInEffect mapRead
  cases hl : loadedEvents env w with
  | none => exact Or.inl rfl
  | some m =>
    simp only
    cases h : mapGet m event.Url with
    | none => exact Or.inl rfl
    | some val => exact Or.inr ⟨m, rfl, mapGet_mem _ _ _ h⟩

theorem eventInEffect_url (env : Env) (w : World) (event : Event) (m : Events)
    (hm : loadedEvents env w = some m) (hk : WellKeyed m) :
    (eventInEffect env w event).Url = event.Url := by
  rcases eventInEffect_cases env w event with h | ⟨m', hm', h⟩
  · rw [h]
  · rw [hm] at hm'
    cases hm'
    exact hk _ h

/-- A load that succeeds leaves its map in use. -/
theorem loadedEvents_of_ok (env : Env) (w : World) (events : Option Events)
    (hl : loadEvents env w = .ok events) : loadedEvents env w = events := by
  unfold loadedEvents
  rw [hl]

/-- A failed load leaves an empty map in use. -/
theorem loadedEvents_of_error (env : Env) (w : World) (msg : String)
    (hl : loadEvents env w = .error msg) : loadedEvents env w = some [] := by
  unfold loadedEvents
  rw [hl]

theorem WellKeyed_mapSet (m : Events) (e : Event) (hk : WellKeyed m) :
    WellKeyed (mapSet m e.Url e) := by
  intro p hp
  rcases mem_mapSet m e.Url e p hp with h | h
  · rw [h]
  · exact hk p h

theorem mapGet_decoded (m : Events) (k : String) :
    mapGet (decoded m) k = (mapGet m k).map Event.roundTrip := by
  induction m with
  | nil => rfl
  | cons p rest ih =>
    obtain ⟨k0, v0⟩ := p
    show mapGet ((k0, v0.roundTrip) :: decoded rest) k = _
    unfold mapGet
    by_cases h0 : k0 = k
    · rw [if_pos h0, if_pos h0]
      rfl
    · rw [if_neg h0, if_neg h0]
      exact ih

theorem WellKeyed_decoded (m : Events) (hk : WellKeyed m) : WellKeyed (decoded m) := by
  intro p hp
  obtain ⟨q, hq, rfl⟩ := List.mem_map.mp hp
  exact hk q hq

theorem jsonMarshal_ok (m : Events) (h : ∀ p ∈ m, p.2.Date.MarshalJSON = none) :
    jsonMarshal (some m) = (some (.object (decoded m)), none) := by
  have hf : m.findSome? (fun p => p.2.Date.MarshalJSON) = none := by
    induction m with
    | nil => rfl
    | cons q rest ih =>
      rw [List.findSome?_cons, h q (List.mem_cons_self _ _)]
      exact ih (fun p hp => h p (List.mem_cons_of_mem _ hp))
  unfold jsonMarshal
  simp only [hf]

/-- When `json.Marshal` returns no error the bytes are those of the map. -/
theorem jsonMarshal_of_no_error (m : Events) (h : (jsonMarshal (some m)).2 = none) :
    (jsonMarshal (some m)).1 = some (.object (decoded m)) := by
  unfold jsonMarshal at h ⊢
  simp only at h ⊢
  cases hf : m.findSome? (fun p => p.2.Date.MarshalJSON) with
  | none => rfl
  | some e => rw [hf] at h; simp at h

theorem saveEvents_err (env : Env) (w : World) (log : List Call) (events : Option Events) :
    (saveEvents env w log events).1 = (env.WriteFile log (jsonMarshal events).1).err := by
  unfold saveEvents
  simp only
  rcases env.WriteFile log (jsonMarshal events).1 with _ | e | ⟨e, _ | _⟩ <;> rfl

theorem saveEvents_log (env : Env) (w : World) (log : List Call) (events : Option Events) :
    (saveEvents env w log events).2.2 = log ++ [Call.WriteFile (jsonMarshal events).1] := by
  unfold saveEvents
  simp only
  rcases env.WriteFile log (jsonMarshal events).1 with _ | e | ⟨e, _ | _⟩ <;> rfl

/-- A write that returns no error leaves the bytes in the file. -/
theorem saveEvents_world_written (env : Env) (w : World) (log : List Call)
    (events : Option Events) (h : (saveEvents env w log events).1 = none) :
    (saveEvents env w log events).2.1 = ⟨fileOf (jsonMarshal events).1⟩ := by
  rw [saveEvents_err] at h
  unfold saveEvents
  simp only
  rcases hr : env.WriteFile log (jsonMarshal events).1 with _ | e | ⟨e, _ | _⟩
  · rfl
  · rw [hr] at h; simp [WriteResult.err] at h
  · rw [hr] at h; simp [WriteResult.err] at h
  · rfl

/-- A write that does not leave the file cut short leaves it as it was or
leaves the bytes in it. -/
theorem saveEvents_world_cases (env : Env) (w : World) (log : List Call)
    (events : Option Events)
    (hw : ∀ e, env.WriteFile log (jsonMarshal events).1 ≠ .writeFailed e false) :
    (saveEvents env w log events).2.1 = w ∨
      (saveEvents env w log events).2.1 = ⟨fileOf (jsonMarshal events).1⟩ := by
  unfold saveEvents
  simp only
  rcases hr : env.WriteFile log (jsonMarshal events).1 with _ | e | ⟨e, _ | _⟩
  · exact Or.inr rfl
  · exact Or.inl rfl
  · exact absurd hr (hw e)
  · exact Or.inr rfl

theorem downloadEvent_event (env : Env) (w : World) (event : Event)
    (h : ¬ complete (eventInEffect env w event)) :
    (downloadEvent env w event).event = (segmentsDone env w event).1 := by
  cases hm : loadedEvents env w with
  | none => rw [downloadEvent_nil env w event h hm]
  | some m => rw [downloadEvent_pending env w event m h hm]

theorem downloadEvent_log_pending (env : Env) (w : World) (event : Event)
    (h : ¬ complete (eventInEffect env w event)) :
    ∃ l, (downloadEvent env w event).log = (segmentsDone env w event).2 ++ l := by
  cases hm : loadedEvents env w with
  | none =>
    rw [downloadEvent_nil env w event h hm]
    exact ⟨[], by simp⟩
  | some m =>
    rw [downloadEvent_pending env w event m h hm]
    exact ⟨_, saveEvents_log _ _ _ _⟩

theorem segmentsDone_progress (env : Env) (w : World) (event : Event) :
    Progress (eventInEffect env w event, [Call.loadEvents]) (segmentsDone env w event) := by
  have h0 : Progress (eventInEffect env w event, [Call.loadEvents])
      (eventInEffect env w event,
        [Call.loadEvents, Call.searchProwlarr (eventInEffect env w event).Name]) :=
    Progress.of_eq rfl ⟨[Call.searchProwlarr (eventInEffect env w event).Name], rfl⟩
  exact h0.andThen (processSegments_progress env _ _)

theorem downloadEvent_progress (env : Env) (w : World) (event : Event) :
    Progress (eventInEffect env w event, [Call.loadEvents])
      ((downloadEvent env w event).event, (downloadEvent env w event).log) := by
  by_cases h : complete (eventInEffect env w event)
  · rw [downloadEvent_complete env w event h]
    exact Progress.of_eq rfl ⟨[], by simp⟩
  · have h2 : Progress (segmentsDone env w event)
        ((downloadEvent env w event).event, (downloadEvent env w event).log) :=
      Progress.of_eq (downloadEvent_event env w event h) (downloadEvent_log_pending env w event h)
    exact (segmentsDone_progress env w event).andThen h2

theorem findBestTorrents_nil (env : Env) (event : Event) (eventType : EventType) :
    findBestTorrents env event [] eventType = (.error "Couldn't find best torrent", []) := by
  rfl

theorem processSegments_nil (env : Env) (e : Event) (log : List Call) :
    processSegments env [] (e, log) = (e, log ++ pendingCalls e) := by
  obtain ⟨u, n, d, f1, f2, f3⟩ := e
  unfold processSegments mainCardBlock prelimsBlock earlyPrelimsBlock pendingCalls segmentBlock
  simp only [findBestTorrents_nil]
  cases f1 <;> cases f2 <;> cases f3 <;> simp

/-- The data file after a run that loaded a store and whose write did not
leave the file cut short: as before, or the bytes of the store with the final
descriptor under its `Url`. -/
theorem downloadEvent_world (env : Env) (w : World) (event : Event) (m : Events)
    (hm : loadedEvents env w = some m)
    (hw : ∀ log jsonString e, env.WriteFile log jsonString ≠ .writeFailed e false) :
    (downloadEvent env w event).world = w ∨
      (downloadEvent env w event).world =
        ⟨fileOf (jsonMarshal (some (mapSet m (downloadEvent env w event).event.Url
          (downloadEvent env w event).event))).1⟩ := by
  by_cases h : complete (eventInEffect env w event)
  · rw [downloadEvent_complete env w event h]; exact Or.inl rfl
  · rw [downloadEvent_pending env w event m h hm]
    exact saveEvents_world_cases env w _ _ (hw _ _)

/-- The blocks do not depend on how the data file opens. -/
theorem resolveLoop_open (env : Env) (first : ProwlarrTorrent) (l : List ProwlarrTorrent) :
    resolveLoop { env with Open := none } first l = resolveLoop env first l := by
  induction l with
  | nil => rfl
  | cons t ts ih =>
    unfold resolveLoop
    rw [ih]
    rfl

theorem findBestTorrents_open (env : Env) (event : Event) (torrents : List ProwlarrTorrent)
    (eventType : EventType) :
    findBestTorrents { env with Open := none } event torrents eventType =
      findBestTorrents env event torrents eventType := by
  unfold findBestTorrents
  simp only [resolveLoop_open]

theorem segmentBlock_open (env : Env) (results : List ProwlarrTorrent) (eventType : EventType)
    (setFlag : Event → Event) (st : Event × List Call) :
    segmentBlock { env with Open := none } results eventType setFlag st =
      segmentBlock env results eventType setFlag st := by
  unfold segmentBlock
  rw [findBestTorrents_open]
  rfl

theorem processSegments_open (env : Env) (results : List ProwlarrTorrent)
    (st : Event × List Call) :
    processSegments { env with Open := none } results st = processSegments env results st := by
  unfold processSegments mainCardBlock prelimsBlock earlyPrelimsBlock
  simp only [segmentBlock_open]

/-! ## Lemmas for the claims -/

/-- Lines 171-172 at an event whose date `json.Marshal` refuses: the error of
`json.Marshal` is overwritten, the nil slice is written, the run returns no
error and the data file, which held a complete event, is left empty. -/
theorem downloadEvent_date_not_marshalled :
    lateEvent.Date.MarshalJSON = some "Time.MarshalJSON: year outside of range [0,9999]" ∧
    (downloadEvent (acceptingEnv (.body [] none)) completeWorld lateEvent).err = none ∧
    (downloadEvent (acceptingEnv (.body [] none)) completeWorld lateEvent).log =
      [Call.loadEvents, Call.searchProwlarr "ufc 301",
       Call.findBestTorrents "Early Prelims", Call.findBestTorrents "Prelims",
       Call.findBestTorrents "Main card", Call.WriteFile none] ∧
    (downloadEvent (acceptingEnv (.body [] none)) completeWorld lateEvent).world.dataFile =
      .unreadable "EOF" := by
  refine ⟨by decide, by decide, by decide, by decide⟩

/-- A data file that holds JSON `null`: the load succeeds with a nil map, the
segments are processed and the write of line 232 panics; nothing is written. -/
theorem downloadEvent_null_file :
    loadedEvents (acceptingEnv (.body [] none)) ⟨.null⟩ = none ∧
    (downloadEvent (acceptingEnv (.body [] none)) ⟨.null⟩ ufc300).panics = true ∧
    (downloadEvent (acceptingEnv (.body [] none)) ⟨.null⟩ ufc300).log =
      [Call.loadEvents, Call.searchProwlarr "ufc 300",
       Call.findBestTorrents "Early Prelims", Call.findBestTorrents "Prelims",
       Call.findBestTorrents "Main card"] ∧
    (downloadEvent (acceptingEnv (.body [] none)) ⟨.null⟩ ufc300).world = ⟨.null⟩ := by
  refine ⟨by decide, by decide, by decide, by decide⟩

theorem splitChars_eq_splitWhere (sep : Char) (l : List Char) :
    splitChars sep l = splitWhere (fun c => c == sep) l := by
  induction l with
  | nil => rfl
  | cons c cs ih => simp [splitChars, splitWhere, ih]

theorem rankTorrents_thirteen :
    rankTorrents thirteen =
      [candidate "m" 9, candidate "g" 5, candidate "c" 5, candidate "d" 5, candidate "e" 5,
       candidate "f" 5, candidate "a" 5, candidate "h" 5, candidate "i" 5, candidate "j" 5,
       candidate "k" 5, candidate "l" 5, candidate "b" 5] := by
  decide

theorem rankTorrents_spec (matching : List ProwlarrTorrent) :
    (rankTorrents matching).Perm matching ∧
      (rankTorrents matching).Pairwise (fun x y => x.Seeders ≥ y.Seeders) := by
  have hless : ∀ x y : ProwlarrTorrent,
      decide (x.Seeders > y.Seeders) = decide ((fun t => -t.Seeders) x < (fun t => -t.Seeders) y) := by
    intro x y
    simp only [gt_iff_lt, neg_lt_neg_iff]
  obtain ⟨hp, hs⟩ := sortSlice_spec (fun x y : ProwlarrTorrent => decide (x.Seeders > y.Seeders))
    (fun t : ProwlarrTorrent => -t.Seeders) hless matching
  refine ⟨hp, hs.imp ?_⟩
  intro x y h
  simp only [neg_le_neg_iff] at h
  exact h

theorem rankTorrents_short (matching : List ProwlarrTorrent) (h : matching.length ≤ 12) :
    ∀ s : Int, (rankTorrents matching).filter (fun x => decide (x.Seeders = s)) =
      matching.filter (fun x => decide (x.Seeders = s)) := by
  have hless : ∀ x y : ProwlarrTorrent,
      decide (x.Seeders > y.Seeders) = decide ((fun t => -t.Seeders) x < (fun t => -t.Seeders) y) := by
    intro x y
    simp only [gt_iff_lt, neg_lt_neg_iff]
  have hs := sortSlice_short (fun x y : ProwlarrTorrent => decide (x.Seeders > y.Seeders))
    (fun t : ProwlarrTorrent => -t.Seeders) hless matching h
  intro s
  have := hs (-s)
  have e : ∀ x : ProwlarrTorrent, decide (-x.Seeders = -s) = decide (x.Seeders = s) := by
    intro x
    simp only [neg_inj]
  simp only [e] at this
  exact this

/-- A candidate that `findBestTorrents` returns has the title of a candidate
of the matching list of the segment. -/
theorem findBestTorrents_ok_keeps (env : Env) (event : Event) (torrents : List ProwlarrTorrent)
    (eventType : EventType) (best : ProwlarrTorrent)
    (h : (findBestTorrents env event torrents eventType).1 = .ok best) :
    keeps event eventType best = true := by
  obtain ⟨first, rest, hs, hr⟩ := (findBestTorrents_ok_iff env event torrents eventType best).mp h
  obtain ⟨_, _, _, _, _, _, hb⟩ := resolveLoop_some env first _ best hr
  have hmem : first ∈ rankTorrents (matchingTorrents event torrents eventType) := by
    rw [hs]; exact List.mem_cons_self _ _
  have hmem' : first ∈ matchingTorrents event torrents eventType :=
    (rankTorrents_spec _).1.mem_iff.mp hmem
  have hk : keeps event eventType first = true := (List.mem_filter.mp hmem').2
  rw [hb]
  exact hk

/-! ## The claims -/

/-- Claim C1, at the failing input: the main-card candidates rank as
`[X, Y, Z]` by seeders, the page of `X` cannot be fetched and `Y` carries a
magnet link; `findBestTorrents` succeeds and returns the `Guid`, `Title` and
`Seeders` of `X`, the top-ranked candidate (`matchingTorrents[0]`, line 327),
with the magnet link of `Y`, not the candidate `Y` that resolved. -/
theorem C1_returned_candidate_is_top_ranked_not_resolved :
    rankTorrents (matchingTorrents ufc300 fallbackPool MainCard) =
      [⟨"http://tracker/x", "ufc 300 1080p", 30, ""⟩,
       ⟨"magnet:?xt=y", "ufc 300 1080p web", 20, ""⟩,
       ⟨"magnet:?xt=z", "ufc 300 1080p hdtv", 10, ""⟩] ∧
    (findMagnetLink (acceptingEnv (.body fallbackPool none))
      ⟨"http://tracker/x", "ufc 300 1080p", 30, ""⟩).1 = ("", some "soup.Get") ∧
    (findMagnetLink (acceptingEnv (.body fallbackPool none))
      ⟨"magnet:?xt=y", "ufc 300 1080p web", 20, ""⟩).1 = ("magnet:?xt=y", none) ∧
    (findBestTorrents (acceptingEnv (.body fallbackPool none)) ufc300 fallbackPool MainCard).1 =
      .ok ⟨"http://tracker/x", "ufc 300 1080p", 30, "magnet:?xt=y"⟩ := by
  refine ⟨by decide, by decide, by decide, by rfl⟩

/-- Claim C2, amended: `findBestTorrents` keeps a candidate of the pool in its
matching list if and only if every non-empty token obtained by splitting
`trim(eventName + " " + searchSuffix)` on the space character is a
case-sensitive substring of the title and no entry of the segment's exclude
tokens is a substring of the title. -/
theorem C2_matching_iff_space_tokens (event : Event) (torrents : List ProwlarrTorrent)
    (eventType : EventType) (t : ProwlarrTorrent) :
    t ∈ matchingTorrents event torrents eventType ↔
      t ∈ torrents ∧
        titleMatches (spaceTokens event.Name eventType.Search) eventType.ignore t.Title := by
  unfold matchingTorrents titleMatches spaceTokens
  rw [List.mem_filter, keeps_iff]
  simp only [searchString, Split, TrimSpace, Contains_iff, ← splitChars_eq_splitWhere]
  constructor
  · rintro ⟨ht, h1, h2⟩
    refine ⟨ht, ?_, ?_⟩
    · intro tok htok
      have := h1 ⟨tok⟩ (List.mem_map.mpr ⟨tok, (List.mem_filter.mp htok).1, rfl⟩)
      simpa using this
    · intro x hx hinf
      have := h2 x hx
      rw [← Bool.not_eq_true, Contains_iff] at this
      exact this hinf
  · rintro ⟨ht, h1, h2⟩
    refine ⟨ht, ?_, ?_⟩
    · intro s hs
      obtain ⟨tok, htok, rfl⟩ := List.mem_map.mp hs
      by_cases he : tok = []
      · subst he; exact List.nil_infix
      · exact h1 tok (List.mem_filter.mpr ⟨htok, by simpa using he⟩)
    · intro x hx
      rw [← Bool.not_eq_true, Contains_iff]
      exact h2 x hx

/-- Claim C2 as stated fails when the event name holds white space other than
a space: for the name `ufc<TAB>300` and the main card, the title
`ufc 300 1080p` contains every token of the white-space split (`ufc`, `300`,
`1080p`) and no exclude token, yet the candidate is not kept, because the
program's token is `ufc<TAB>300`. -/
theorem C2_whitespace_split_counterexample :
    titleMatches (whitespaceTokens "ufc\t300" MainCard.Search) MainCard.ignore "ufc 300 1080p" ∧
      (⟨"magnet:?xt=abc", "ufc 300 1080p", 30, ""⟩ : ProwlarrTorrent) ∉
        matchingTorrents ⟨"e1", "ufc\t300", ⟨0, 0⟩, false, false, false⟩
          [⟨"magnet:?xt=abc", "ufc 300 1080p", 30, ""⟩] MainCard := by
  decide

/-- Claim C3, amended: for every list of matching candidates the ranking step
produces a permutation of the list ordered by seeders descending; when the
list has at most 12 candidates (the range `sort.Slice` sorts by insertion),
candidates with equal seeders keep their original relative order; and for
seeders `[5, 9, 9, 2]` in input order `[A, B, C, D]` the ranked order is
`[B, C, A, D]`. -/
theorem C3_ranking_sorted_stable_when_short :
    (∀ matching : List ProwlarrTorrent,
      (rankTorrents matching).Perm matching ∧
      (rankTorrents matching).Pairwise (fun x y => x.Seeders ≥ y.Seeders) ∧
      (matching.length ≤ 12 → StableRanking matching (rankTorrents matching))) ∧
    rankTorrents fourCandidates =
      [candidate "B" 9, candidate "C" 9, candidate "A" 5, candidate "D" 2] := by
  refine ⟨fun matching => ?_, by decide⟩
  obtain ⟨hp, hs⟩ := rankTorrents_spec matching
  exact ⟨hp, hs, fun h => ⟨hp, hs, rankTorrents_short matching h⟩⟩

/-- Witness of C3: the four candidates of the example are at most 12 and
their ranking is stable. -/
theorem C3_witness :
    fourCandidates.length ≤ 12 ∧ StableRanking fourCandidates (rankTorrents fourCandidates) :=
  ⟨by decide, (C3_ranking_sorted_stable_when_short.1 fourCandidates).2.2 (by decide)⟩

/-- Claim C3 as stated fails on thirteen candidates, twelve with 5 seeders
followed by one with 9: `sort.Slice` is not a stable sort, and the ranking
puts the candidates with 5 seeders in the order `g c d e f a h i j k l b`. -/
theorem C3_stability_counterexample : ¬ StableRanking thirteen (rankTorrents thirteen) := by
  rintro ⟨_, _, h⟩
  have h5 := h 5
  rw [rankTorrents_thirteen] at h5
  revert h5
  decide

/-- Claim C4, amended: for every store that keeps each descriptor under its
own url, every incoming event and every behaviour of the indexer, the
resolver, the download client and the notifier, when the load of the store
succeeds, no write leaves the file cut short and the dates of the store and of
the incoming event can be marshalled, a descriptor of the store before
`downloadEvent` runs is still in the store afterwards under the same url, with
every flag that was true still true; the store afterwards again keeps each
descriptor under its own url. -/
theorem C4_flags_only_rise (env : Env) (w : World) (event : Event) (url : String) (d : Event)
    (hk : WellKeyed w.store) (h : mapGet w.store url = some d)
    (hload : loadEvents env w = .ok (some w.store))
    (hwrite : ∀ log jsonString e, env.WriteFile log jsonString ≠ .writeFailed e false)
    (hdate : event.Date.MarshalJSON = none)
    (hdates : ∀ p ∈ w.store, p.2.Date.MarshalJSON = none) :
    WellKeyed (downloadEvent env w event).world.store ∧
    ∃ d', mapGet (downloadEvent env w event).world.store url = some d' ∧
      (d.EarlyPrelimsDownloaded = true → d'.EarlyPrelimsDownloaded = true) ∧
      (d.PrelimsDownloaded = true → d'.PrelimsDownloaded = true) ∧
      (d.MainCardDownloaded = true → d'.MainCardDownloaded = true) := by
  have hm := loadedEvents_of_ok env w _ hload
  have hp := downloadEvent_progress env w event
  rcases downloadEvent_world env w event w.store hm hwrite with hw | hw
  · rw [hw]
    exact ⟨hk, d, h, id, id, id⟩
  · have hurl : (eventInEffect env w event).Url = event.Url :=
      eventInEffect_url env w event _ hm hk
    have hdate' : (eventInEffect env w event).Date.MarshalJSON = none := by
      rcases eventInEffect_cases env w event with he | ⟨m', hm', he⟩
      · rw [he]; exact hdate
      · rw [hm] at hm'
        cases hm'
        exact hdates _ he
    have hj : jsonMarshal (some (mapSet w.store (downloadEvent env w event).event.Url
        (downloadEvent env w event).event)) =
        (some (.object (decoded (mapSet w.store (downloadEvent env w event).event.Url
          (downloadEvent env w event).event))), none) := by
      apply jsonMarshal_ok
      intro p hp'
      rcases mem_mapSet _ _ _ _ hp' with hpe | hpm
      · rw [hpe]
        show (downloadEvent env w event).event.Date.MarshalJSON = none
        rw [hp.date]
        exact hdate'
      · exact hdates p hpm
    rw [hw, hj]
    show WellKeyed (decoded (mapSet w.store _ _)) ∧
      ∃ d', mapGet (decoded (mapSet w.store _ _)) url = some d' ∧ _
    refine ⟨WellKeyed_decoded _ (WellKeyed_mapSet _ _ hk), ?_⟩
    rw [mapGet_decoded, mapGet_mapSet]
    by_cases hu : (downloadEvent env w event).event.Url = url
    · rw [if_pos hu]
      refine ⟨_, rfl, ?_⟩
      have hkey : url = event.Url := by rw [← hu, hp.url, hurl]
      have hd : eventInEffect env w event = d := by
        unfold eventInEffect mapRead
        rw [hm]
        simp only
        rw [← hkey, h]
      rw [← hd]
      exact ⟨hp.early, hp.prelims, hp.main⟩
    · rw [if_neg hu, h]
      exact ⟨_, rfl, id, id, id⟩

/-- Witness of C4: the store holds a complete event and the event of the
example with the early prelims done, every call succeeds and the indexer
returns the candidates of the example; the descriptor keeps its flag. -/
theorem C4_witness :
    WellKeyed twoEventsWorld.store ∧
    mapGet twoEventsWorld.store "e1" = some ⟨"e1", "ufc 300", ⟨0, 0⟩, true, false, false⟩ ∧
    loadEvents (acceptingEnv (.body lowerCasePool none)) twoEventsWorld =
      .ok (some twoEventsWorld.store) ∧
    (∀ log jsonString e, (acceptingEnv (.body lowerCasePool none)).WriteFile log jsonString ≠
      .writeFailed e false) ∧
    ufc300.Date.MarshalJSON = none ∧
    (∀ p ∈ twoEventsWorld.store, p.2.Date.MarshalJSON = none) ∧
    (WellKeyed (downloadEvent (acceptingEnv (.body lowerCasePool none)) twoEventsWorld
        ufc300).world.store ∧
      ∃ d', mapGet (downloadEvent (acceptingEnv (.body lowerCasePool none)) twoEventsWorld
          ufc300).world.store "e1" = some d' ∧
        ((⟨"e1", "ufc 300", ⟨0, 0⟩, true, false, false⟩ : Event).EarlyPrelimsDownloaded = true →
          d'.EarlyPrelimsDownloaded = true) ∧
        ((⟨"e1", "ufc 300", ⟨0, 0⟩, true, false, false⟩ : Event).PrelimsDownloaded = true →
          d'.PrelimsDownloaded = true) ∧
        ((⟨"e1", "ufc 300", ⟨0, 0⟩, true, false, false⟩ : Event).MainCardDownloaded = true →
          d'.MainCardDownloaded = true)) :=
  ⟨by decide, by decide, rfl, fun _ _ _ hc => WriteResult.noConfusion hc, by decide, by decide,
    C4_flags_only_rise (acceptingEnv (.body lowerCasePool none)) twoEventsWorld ufc300 "e1"
      ⟨"e1", "ufc 300", ⟨0, 0⟩, true, false, false⟩ (by decide) (by decide) rfl
      (fun _ _ _ hc => WriteResult.noConfusion hc) (by decide) (by decide)⟩

/-- Claim C4 as stated fails in two ways. The data file holds the event `e1`
with its three flags true and cannot be opened for reading: lines 185-187 go
on with an empty map, nothing is found, the run returns no error and the file
now holds `e1` with its three flags false. The data file holds a complete
event `e0` and the write fails after `os.WriteFile` truncated the file: the
file no longer holds `e0`. -/
theorem C4_failed_load_counterexample :
    (WellKeyed completeWorld.store ∧
      mapGet completeWorld.store "e1" = some ⟨"e1", "ufc 300", ⟨0, 0⟩, true, true, true⟩ ∧
      (downloadEvent lockedEnv completeWorld ufc300).err = none ∧
      mapGet (downloadEvent lockedEnv completeWorld ufc300).world.store "e1" =
        some ⟨"e1", "ufc 300", ⟨0, 0⟩, false, false, false⟩) ∧
    (WellKeyed twoEventsWorld.store ∧
      mapGet twoEventsWorld.store "e0" = some ⟨"e0", "ufc 299", ⟨0, 0⟩, true, true, true⟩ ∧
      mapGet (downloadEvent fullDiskEnv twoEventsWorld ufc300).world.store "e0" = none) := by
  decide

/-- Claim C5: when all three flags of the descriptor in effect after the load
are true, `downloadEvent` returns no error and does not panic, leaves the data
file as it was, and the load is its only call: no indexer query, no matcher or
resolver call, no login or submission, no notification and no write. -/
theorem C5_complete_event_is_noop (env : Env) (w : World) (event : Event)
    (h : complete (eventInEffect env w event)) :
    (downloadEvent env w event).err = none ∧
      (downloadEvent env w event).panics = false ∧
      (downloadEvent env w event).world = w ∧
      (downloadEvent env w event).log = [Call.loadEvents] := by
  rw [downloadEvent_complete env w event h]
  exact ⟨rfl, rfl, rfl, rfl⟩

/-- Witness of C5: the stored descriptor is complete and wins over the
incoming one, whose flags are all false. -/
theorem C5_witness :
    complete (eventInEffect (acceptingEnv (.body lowerCasePool none)) completeWorld ufc300) ∧
    ((downloadEvent (acceptingEnv (.body lowerCasePool none)) completeWorld ufc300).err = none ∧
      (downloadEvent (acceptingEnv (.body lowerCasePool none)) completeWorld ufc300).panics =
        false ∧
      (downloadEvent (acceptingEnv (.body lowerCasePool none)) completeWorld ufc300).world =
        completeWorld ∧
      (downloadEvent (acceptingEnv (.body lowerCasePool none)) completeWorld ufc300).log =
        [Call.loadEvents]) :=
  ⟨by decide, C5_complete_event_is_noop (acceptingEnv (.body lowerCasePool none)) completeWorld
    ufc300 (by decide)⟩

/-- Claim C6, amended: for every event that is not complete and every data
file that does not decode to a nil map, the error `downloadEvent` returns is
that of the final write, whatever the indexer did; and when the indexer query
fails and leaves no candidate (the request or the reading of the body fails,
or nothing was decoded), every segment resolves to not found, the descriptor
is unchanged, the run does not panic, the calls after the query are one
matcher call per pending segment and the write of the bytes of the loaded
store with the descriptor under its url, and when `json.Marshal` reports no
error a write that succeeds leaves that store in the data file, as
`json.Unmarshal` reads it back. -/
theorem C6_failed_query_without_candidates (env : Env) (w : World) (event : Event)
    (m : Events) (hp : ¬ complete (eventInEffect env w event))
    (hm : loadedEvents env w = some m) :
    (∃ log jsonString, (downloadEvent env w event).err = (env.WriteFile log jsonString).err) ∧
    ((searchProwlarr env (eventInEffect env w event)).2 ≠ none →
      (searchProwlarr env (eventInEffect env w event)).1 = [] →
      (∀ eventType, (findBestTorrents env (eventInEffect env w event)
          (searchProwlarr env (eventInEffect env w event)).1 eventType).1 =
        .error "Couldn't find best torrent") ∧
      (downloadEvent env w event).event = eventInEffect env w event ∧
      (downloadEvent env w event).panics = false ∧
      (downloadEvent env w event).log =
        [Call.loadEvents, Call.searchProwlarr (eventInEffect env w event).Name] ++
          pendingCalls (eventInEffect env w event) ++
          [Call.WriteFile (jsonMarshal (some (mapSet m (eventInEffect env w event).Url
            (eventInEffect env w event)))).1] ∧
      (downloadEvent env w event).err =
        (env.WriteFile ([Call.loadEvents, Call.searchProwlarr (eventInEffect env w event).Name] ++
          pendingCalls (eventInEffect env w event))
          (jsonMarshal (some (mapSet m (eventInEffect env w event).Url
            (eventInEffect env w event)))).1).err ∧
      ((downloadEvent env w event).err = none →
        (jsonMarshal (some (mapSet m (eventInEffect env w event).Url
          (eventInEffect env w event)))).2 = none →
        (downloadEvent env w event).world.dataFile =
          .object (decoded
            (mapSet m (eventInEffect env w event).Url (eventInEffect env w event))))) := by
  have hpend := downloadEvent_pending env w event m hp hm
  constructor
  · rw [hpend]
    exact ⟨_, _, saveEvents_err _ _ _ _⟩
  · intro _ hempty
    have hs : segmentsDone env w event = (eventInEffect env w event,
        [Call.loadEvents, Call.searchProwlarr (eventInEffect env w event).Name] ++
          pendingCalls (eventInEffect env w event)) := by
      unfold segmentsDone
      rw [hempty, processSegments_nil]
    refine ⟨fun eventType => by rw [hempty, findBestTorrents_nil], ?_, ?_, ?_, ?_, ?_⟩
    · rw [hpend, hs]
    · rw [hpend]
    · rw [hpend, hs]
      exact saveEvents_log _ _ _ _
    · rw [hpend, hs]
      exact saveEvents_err _ _ _ _
    · intro h hj
      rw [hpend, hs] at h ⊢
      show (saveEvents env w _ _).2.1.dataFile = _
      rw [saveEvents_world_written _ _ _ _ h, jsonMarshal_of_no_error _ hj]
      rfl

/-- Witness of C6: the store is empty, the event of the example is pending and
the indexer cannot be reached. -/
theorem C6_witness :
    ¬ complete (eventInEffect (acceptingEnv unreachable) ⟨.object []⟩ ufc300) ∧
    loadedEvents (acceptingEnv unreachable) ⟨.object []⟩ = some [] ∧
    (searchProwlarr (acceptingEnv unreachable)
      (eventInEffect (acceptingEnv unreachable) ⟨.object []⟩ ufc300)).2 ≠ none ∧
    (searchProwlarr (acceptingEnv unreachable)
      (eventInEffect (acceptingEnv unreachable) ⟨.object []⟩ ufc300)).1 = [] ∧
    (downloadEvent (acceptingEnv unreachable) ⟨.object []⟩ ufc300).log =
      [Call.loadEvents,
        Call.searchProwlarr (eventInEffect (acceptingEnv unreachable) ⟨.object []⟩ ufc300).Name] ++
        pendingCalls (eventInEffect (acceptingEnv unreachable) ⟨.object []⟩ ufc300) ++
        [Call.WriteFile (jsonMarshal (some (mapSet []
          (eventInEffect (acceptingEnv unreachable) ⟨.object []⟩ ufc300).Url
          (eventInEffect (acceptingEnv unreachable) ⟨.object []⟩ ufc300)))).1] :=
  ⟨by decide, by decide, by decide, by decide,
    ((C6_failed_query_without_candidates (acceptingEnv unreachable) ⟨.object []⟩ ufc300 []
      (by decide) (by decide)).2 (by decide) (by decide)).2.2.2.1⟩

/-- Claim C6 as stated fails when the query fails after a candidate was
decoded: `json.Unmarshal` reports a type error and leaves the candidate in
`torrents`, `searchProwlarr` returns both, and `downloadEvent`, which never
looks at the error, matches the early prelims against that pool, submits the
magnet link and sets the flag. -/
theorem C6_partial_decode_counterexample :
    (searchProwlarr (acceptingEnv partialDecode) ufc300).2 ≠ none ∧
    (searchProwlarr (acceptingEnv partialDecode) ufc300).1 ≠ [] ∧
    (findBestTorrents (acceptingEnv partialDecode) ufc300
      (searchProwlarr (acceptingEnv partialDecode) ufc300).1 EarlyPrelims).1 =
        .ok ⟨"magnet:?xt=abc", "ufc 300 1080p early prelims", 0, "magnet:?xt=abc"⟩ ∧
    Call.AddTorrentFromUrl "magnet:?xt=abc" submitOptions ∈
      (downloadEvent (acceptingEnv partialDecode) ⟨.object []⟩ ufc300).log ∧
    (downloadEvent (acceptingEnv partialDecode) ⟨.object []⟩ ufc300).event.EarlyPrelimsDownloaded =
      true ∧
    mapGet (downloadEvent (acceptingEnv partialDecode) ⟨.object []⟩ ufc300).world.store "e1" =
      some ⟨"e1", "ufc 300", ⟨0, 0⟩, true, false, false⟩ := by
  refine ⟨by decide, by decide, by rfl, by decide, by decide, by decide⟩

/-- Claim C7, amended: when the initial load of the store fails,
`downloadEvent` goes on with an empty map and does not panic: the descriptor
in effect is the incoming one, and the error, the calls and the final
descriptor are those of a run on an empty store; when the incoming event is
not complete the indexer is queried, the write of the bytes of a store holding
only the event under its url is attempted, its error is the returned error,
and when the date of the event can be marshalled a write that succeeds
replaces the data file by that store, as `json.Unmarshal` reads it back. -/
theorem C7_load_failure_continues_with_empty_store (env : Env) (w : World) (msg : String)
    (event : Event) (hl : loadEvents env w = .error msg) :
    loadedEvents env w = some [] ∧
    eventInEffect env w event = event ∧
    (downloadEvent env w event).panics = false ∧
    (downloadEvent env w event).err =
      (downloadEvent { env with Open := none } ⟨.object []⟩ event).err ∧
    (downloadEvent env w event).log =
      (downloadEvent { env with Open := none } ⟨.object []⟩ event).log ∧
    (downloadEvent env w event).event =
      (downloadEvent { env with Open := none } ⟨.object []⟩ event).event ∧
    (¬ complete event →
      (∃ l, (downloadEvent env w event).log =
        [Call.loadEvents, Call.searchProwlarr event.Name] ++ l ++
          [Call.WriteFile
            (jsonMarshal (some [(event.Url, (downloadEvent env w event).event)])).1]) ∧
      (∃ log, (downloadEvent env w event).err =
        (env.WriteFile log
          (jsonMarshal (some [(event.Url, (downloadEvent env w event).event)])).1).err) ∧
      ((downloadEvent env w event).err = none → event.Date.MarshalJSON = none →
        (downloadEvent env w event).world.dataFile =
          .object (decoded [(event.Url, (downloadEvent env w event).event)]))) := by
  have hm : loadedEvents env w = some [] := loadedEvents_of_error env w msg hl
  have hm0 : loadedEvents { env with Open := none } ⟨.object []⟩ = some [] := rfl
  have he : eventInEffect env w event = event := by
    unfold eventInEffect mapRead
    rw [hm]
    rfl
  have he0 : eventInEffect { env with Open := none } ⟨.object []⟩ event = event := rfl
  have hseg : segmentsDone env w event =
      segmentsDone { env with Open := none } ⟨.object []⟩ event := by
    unfold segmentsDone
    rw [he, he0, processSegments_open]
    rfl
  by_cases hc : complete event
  · have h1 := downloadEvent_complete env w event (by rw [he]; exact hc)
    have h2 := downloadEvent_complete { env with Open := none } ⟨.object []⟩ event
      (by rw [he0]; exact hc)
    rw [h1, h2]
    exact ⟨hm, he, rfl, rfl, rfl, by rw [he, he0], fun h => absurd hc h⟩
  · have h1 := downloadEvent_pending env w event [] (by rw [he]; exact hc) hm
    have h2 := downloadEvent_pending { env with Open := none } ⟨.object []⟩ event []
      (by rw [he0]; exact hc) hm0
    have hp := segmentsDone_progress env w event
    obtain ⟨l, hlog⟩ := (processSegments_progress env (searchProwlarr env event).1
      (event, [Call.loadEvents, Call.searchProwlarr event.Name])).log
    have hlog' : (segmentsDone env w event).2 =
        [Call.loadEvents, Call.searchProwlarr event.Name] ++ l := by
      unfold segmentsDone
      rw [he]
      exact hlog
    have hurl : (segmentsDone env w event).1.Url = event.Url := by
      rw [hp.url, he]
    have hdate : (segmentsDone env w event).1.Date = event.Date := by
      rw [hp.date, he]
    refine ⟨hm, he, by rw [h1], ?_, ?_, by rw [h1, h2, hseg], fun _ => ⟨?_, ?_, ?_⟩⟩
    · rw [h1, h2, hseg]
      simp only [saveEvents_err]
    · rw [h1, h2, hseg]
      simp only [saveEvents_log]
    · refine ⟨l, ?_⟩
      rw [h1]
      simp only [saveEvents_log, hurl, mapSet, hlog']
    · rw [h1]
      simp only [saveEvents_err, hurl, mapSet]
      exact ⟨_, rfl⟩
    · intro h hd
      rw [h1] at h ⊢
      simp only at h ⊢
      rw [saveEvents_world_written _ _ _ _ h]
      simp only [hurl, mapSet]
      rw [jsonMarshal_ok]
      · rfl
      · intro p hp'
        rw [List.mem_singleton.mp hp']
        show (segmentsDone env w event).1.Date.MarshalJSON = none
        rw [hdate]
        exact hd

/-- Witness of C7: the data file cannot be decoded, the event of the example
is pending and the indexer cannot be reached. -/
theorem C7_witness :
    loadEvents (acceptingEnv unreachable) brokenWorld = .error "unexpected end of JSON input" ∧
    ¬ complete ufc300 ∧
    ((∃ l, (downloadEvent (acceptingEnv unreachable) brokenWorld ufc300).log =
        [Call.loadEvents, Call.searchProwlarr ufc300.Name] ++ l ++
          [Call.WriteFile (jsonMarshal (some [(ufc300.Url,
            (downloadEvent (acceptingEnv unreachable) brokenWorld ufc300).event)])).1]) ∧
      (∃ log, (downloadEvent (acceptingEnv unreachable) brokenWorld ufc300).err =
        ((acceptingEnv unreachable).WriteFile log
          (jsonMarshal (some [(ufc300.Url,
            (downloadEvent (acceptingEnv unreachable) brokenWorld ufc300).event)])).1).err) ∧
      ((downloadEvent (acceptingEnv unreachable) brokenWorld ufc300).err = none →
        ufc300.Date.MarshalJSON = none →
        (downloadEvent (acceptingEnv unreachable) brokenWorld ufc300).world.dataFile =
          .object (decoded [(ufc300.Url,
            (downloadEvent (acceptingEnv unreachable) brokenWorld ufc300).event)]))) :=
  ⟨rfl, by decide, (C7_load_failure_continues_with_empty_store (acceptingEnv unreachable)
    brokenWorld "unexpected end of JSON input" ufc300 rfl).2.2.2.2.2.2 (by decide)⟩

/-- Claim C7 as stated fails: the load of the store fails, and `downloadEvent`
returns no error, queries the indexer, and writes a store that holds only the
incoming event over the data file. -/
theorem C7_load_failure_counterexample :
    loadEvents (acceptingEnv unreachable) brokenWorld =
      .error "unexpected end of JSON input" ∧
    (downloadEvent (acceptingEnv unreachable) brokenWorld ufc300).err = none ∧
    (downloadEvent (acceptingEnv unreachable) brokenWorld ufc300).log =
      [Call.loadEvents, Call.searchProwlarr "ufc 300",
       Call.findBestTorrents "Early Prelims", Call.findBestTorrents "Prelims",
       Call.findBestTorrents "Main card",
       Call.WriteFile
         (some (.object [("e1", ⟨"e1", "ufc 300", ⟨0, 0⟩, false, false, false⟩)]))] ∧
    (downloadEvent (acceptingEnv unreachable) brokenWorld ufc300).world.store =
      [("e1", ⟨"e1", "ufc 300", ⟨0, 0⟩, false, false, false⟩)] := by
  refine ⟨rfl, by decide, by decide, by decide⟩

/-- Claim C8, amended: from an empty store, for the event `e1` named
`ufc 300` with all flags false and the three candidates of the example with
their titles in lower case, every submission succeeding, each segment has a
matching candidate, `downloadEvent` submits one magnet link per segment
(`abc`, `def`, `ghi`, in this order) and the descriptor stored under `e1` ends
with all three flags true; with the titles as the specification writes them,
no segment has a matching candidate. -/
theorem C8_end_to_end_lower_case_titles :
    (matchingTorrents ufc300 lowerCasePool EarlyPrelims ≠ [] ∧
      matchingTorrents ufc300 lowerCasePool Prelims ≠ [] ∧
      matchingTorrents ufc300 lowerCasePool MainCard ≠ []) ∧
    (downloadEvent (acceptingEnv (.body lowerCasePool none)) ⟨.object []⟩ ufc300).log =
      [Call.loadEvents, Call.searchProwlarr "ufc 300",
       Call.findBestTorrents "Early Prelims", Call.findMagnetLink "magnet:?xt=abc",
       Call.LoginCtx, Call.AddTorrentFromUrl "magnet:?xt=abc" submitOptions,
       Call.SendMessage "Early Prelims sent to download client" "ufc 300",
       Call.findBestTorrents "Prelims", Call.findMagnetLink "magnet:?xt=def",
       Call.LoginCtx, Call.AddTorrentFromUrl "magnet:?xt=def" submitOptions,
       Call.SendMessage "Prelims sent to download client" "ufc 300",
       Call.findBestTorrents "Main card", Call.findMagnetLink "magnet:?xt=ghi",
       Call.LoginCtx, Call.AddTorrentFromUrl "magnet:?xt=ghi" submitOptions,
       Call.SendMessage "Main card sent to download client" "ufc 300",
       Call.WriteFile
         (some (.object [("e1", ⟨"e1", "ufc 300", ⟨0, 0⟩, true, true, true⟩)]))] ∧
    mapGet (downloadEvent (acceptingEnv (.body lowerCasePool none)) ⟨.object []⟩
      ufc300).world.store "e1" = some ⟨"e1", "ufc 300", ⟨0, 0⟩, true, true, true⟩ ∧
    (matchingTorrents ufc300 specPool EarlyPrelims = [] ∧
      matchingTorrents ufc300 specPool Prelims = [] ∧
      matchingTorrents ufc300 specPool MainCard = []) := by
  refine ⟨by decide, by decide, by decide, by decide⟩

/-- Claim C8 as stated fails: with the titles `UFC 300 1080p Early Prelims`,
`UFC 300 1080p Prelims` and `UFC 300 1080p` no title contains the token `ufc`
of the event name, no segment matches, nothing is submitted and the descriptor
stored under `e1` ends with all three flags false. -/
theorem C8_spec_titles_counterexample :
    (downloadEvent (acceptingEnv (.body specPool none)) ⟨.object []⟩ ufc300).log =
      [Call.loadEvents, Call.searchProwlarr "ufc 300",
       Call.findBestTorrents "Early Prelims", Call.findBestTorrents "Prelims",
       Call.findBestTorrents "Main card",
       Call.WriteFile
         (some (.object [("e1", ⟨"e1", "ufc 300", ⟨0, 0⟩, false, false, false⟩)]))] ∧
    mapGet (downloadEvent (acceptingEnv (.body specPool none)) ⟨.object []⟩
      ufc300).world.store "e1" = some ⟨"e1", "ufc 300", ⟨0, 0⟩, false, false, false⟩ := by
  refine ⟨by decide, by decide⟩

/-- Claim C9: whenever `findBestTorrents` returns without error, the
`MagnetUrl` of the returned value is non-empty and is the string
`findMagnetLink` produced for the first candidate, in rank order among the
matching candidates, whose resolution is non-empty; and whenever a run of
`downloadEvent` turns a segment flag from false to true, its log shows, for
that segment, a login followed by the submission of a non-empty magnet link
and then the notification. -/
theorem C9_magnet_is_first_nonempty_resolution (env : Env) :
    (∀ (event : Event) (torrents : List ProwlarrTorrent) (eventType : EventType)
        (best : ProwlarrTorrent),
        (findBestTorrents env event torrents eventType).1 = .ok best →
        best.MagnetUrl ≠ "" ∧
        ∃ pre t post, rankTorrents (matchingTorrents event torrents eventType) = pre ++ t :: post ∧
          (∀ x ∈ pre, (findMagnetLink env x).1.1 = "") ∧
          (findMagnetLink env t).1.1 ≠ "" ∧
          best.MagnetUrl = (findMagnetLink env t).1.1) ∧
    (∀ (w : World) (event : Event),
        ((eventInEffect env w event).EarlyPrelimsDownloaded = false →
          (downloadEvent env w event).event.EarlyPrelimsDownloaded = true →
          Submitted (downloadEvent env w event).log EarlyPrelims
            (eventInEffect env w event).Name) ∧
        ((eventInEffect env w event).PrelimsDownloaded = false →
          (downloadEvent env w event).event.PrelimsDownloaded = true →
          Submitted (downloadEvent env w event).log Prelims (eventInEffect env w event).Name) ∧
        ((eventInEffect env w event).MainCardDownloaded = false →
          (downloadEvent env w event).event.MainCardDownloaded = true →
          Submitted (downloadEvent env w event).log MainCard
            (eventInEffect env w event).Name)) := by
  constructor
  · intro event torrents eventType best h
    obtain ⟨first, rest, hs, hr⟩ := (findBestTorrents_ok_iff env event torrents eventType best).mp h
    obtain ⟨pre, t, post, hl, hpre, ht, hb⟩ := resolveLoop_some env first _ best hr
    refine ⟨?_, pre, t, post, by rw [hs, hl], hpre, ht, by rw [hb]⟩
    rw [hb]; exact ht
  · intro w event
    have hp := downloadEvent_progress env w event
    exact ⟨hp.earlySub, hp.prelimsSub, hp.mainSub⟩

/-- Witness of C9: the matcher succeeds on the pool whose top candidate does
not resolve, and the end-to-end run sets all three flags. -/
theorem C9_witness :
    (findBestTorrents (acceptingEnv (.body lowerCasePool none)) ufc300 fallbackPool MainCard).1 =
      .ok ⟨"http://tracker/x", "ufc 300 1080p", 30, "magnet:?xt=y"⟩ ∧
    (⟨"http://tracker/x", "ufc 300 1080p", 30, "magnet:?xt=y"⟩ : ProwlarrTorrent).MagnetUrl ≠ "" ∧
    (eventInEffect (acceptingEnv (.body lowerCasePool none)) ⟨.object []⟩
      ufc300).EarlyPrelimsDownloaded = false ∧
    (eventInEffect (acceptingEnv (.body lowerCasePool none)) ⟨.object []⟩
      ufc300).PrelimsDownloaded = false ∧
    (eventInEffect (acceptingEnv (.body lowerCasePool none)) ⟨.object []⟩
      ufc300).MainCardDownloaded = false ∧
    (downloadEvent (acceptingEnv (.body lowerCasePool none)) ⟨.object []⟩ ufc300).event =
      ⟨"e1", "ufc 300", ⟨0, 0⟩, true, true, true⟩ ∧
    Submitted (downloadEvent (acceptingEnv (.body lowerCasePool none)) ⟨.object []⟩ ufc300).log
      EarlyPrelims
      (eventInEffect (acceptingEnv (.body lowerCasePool none)) ⟨.object []⟩ ufc300).Name ∧
    Submitted (downloadEvent (acceptingEnv (.body lowerCasePool none)) ⟨.object []⟩ ufc300).log
      Prelims
      (eventInEffect (acceptingEnv (.body lowerCasePool none)) ⟨.object []⟩ ufc300).Name ∧
    Submitted (downloadEvent (acceptingEnv (.body lowerCasePool none)) ⟨.object []⟩ ufc300).log
      MainCard
      (eventInEffect (acceptingEnv (.body lowerCasePool none)) ⟨.object []⟩ ufc300).Name :=
  ⟨by rfl,
    ((C9_magnet_is_first_nonempty_resolution (acceptingEnv (.body lowerCasePool none))).1
      ufc300 fallbackPool MainCard _ (by rfl)).1,
    by decide, by decide, by decide, by decide,
    ((C9_magnet_is_first_nonempty_resolution (acceptingEnv (.body lowerCasePool none))).2
      ⟨.object []⟩ ufc300).1 (by decide) (by decide),
    ((C9_magnet_is_first_nonempty_resolution (acceptingEnv (.body lowerCasePool none))).2
      ⟨.object []⟩ ufc300).2.1 (by decide) (by decide),
    ((C9_magnet_is_first_nonempty_resolution (acceptingEnv (.body lowerCasePool none))).2
      ⟨.object []⟩ ufc300).2.2 (by decide) (by decide)⟩

/-- Claim C10: for every event name and every candidate title, the title
satisfies the matching predicate of `findBestTorrents` for at most one of
`EarlyPrelims`, `Prelims` and `MainCard`; hence no candidate of a pool is in
the matching lists of two segments, and the candidates `findBestTorrents`
returns for two different segments of the same event have different titles. -/
theorem C10_segments_mutually_exclusive (event : Event) :
    (∀ t : ProwlarrTorrent,
      ¬ (keeps event EarlyPrelims t = true ∧ keeps event Prelims t = true) ∧
      ¬ (keeps event EarlyPrelims t = true ∧ keeps event MainCard t = true) ∧
      ¬ (keeps event Prelims t = true ∧ keeps event MainCard t = true)) ∧
    (∀ (torrents : List ProwlarrTorrent) (t : ProwlarrTorrent),
      ¬ (t ∈ matchingTorrents event torrents EarlyPrelims ∧
          t ∈ matchingTorrents event torrents Prelims) ∧
      ¬ (t ∈ matchingTorrents event torrents EarlyPrelims ∧
          t ∈ matchingTorrents event torrents MainCard) ∧
      ¬ (t ∈ matchingTorrents event torrents Prelims ∧
          t ∈ matchingTorrents event torrents MainCard)) ∧
    (∀ (env : Env) (torrents : List ProwlarrTorrent) (e p m : ProwlarrTorrent),
      ((findBestTorrents env event torrents EarlyPrelims).1 = .ok e →
        (findBestTorrents env event torrents Prelims).1 = .ok p → e.Title ≠ p.Title) ∧
      ((findBestTorrents env event torrents EarlyPrelims).1 = .ok e →
        (findBestTorrents env event torrents MainCard).1 = .ok m → e.Title ≠ m.Title) ∧
      ((findBestTorrents env event torrents Prelims).1 = .ok p →
        (findBestTorrents env event torrents MainCard).1 = .ok m → p.Title ≠ m.Title)) := by
  have hx := keeps_exclusive event
  have htitle : ∀ (eventType : EventType) (x y : ProwlarrTorrent), x.Title = y.Title →
      keeps event eventType x = keeps event eventType y := by
    intro eventType x y h
    unfold keeps
    rw [h]
  refine ⟨hx, ?_, ?_⟩
  · intro torrents t
    obtain ⟨h1, h2, h3⟩ := hx t
    unfold matchingTorrents
    simp only [List.mem_filter]
    exact ⟨fun h => h1 ⟨h.1.2, h.2.2⟩, fun h => h2 ⟨h.1.2, h.2.2⟩, fun h => h3 ⟨h.1.2, h.2.2⟩⟩
  · intro env torrents e p m
    refine ⟨?_, ?_, ?_⟩
    · intro he hp heq
      have k1 := findBestTorrents_ok_keeps env event torrents EarlyPrelims e he
      have k2 := findBestTorrents_ok_keeps env event torrents Prelims p hp
      rw [← htitle Prelims e p heq] at k2
      exact (hx e).1 ⟨k1, k2⟩
    · intro he hm heq
      have k1 := findBestTorrents_ok_keeps env event torrents EarlyPrelims e he
      have k2 := findBestTorrents_ok_keeps env event torrents MainCard m hm
      rw [← htitle MainCard e m heq] at k2
      exact (hx e).2.1 ⟨k1, k2⟩
    · intro hp hm heq
      have k1 := findBestTorrents_ok_keeps env event torrents Prelims p hp
      have k2 := findBestTorrents_ok_keeps env event torrents MainCard m hm
      rw [← htitle MainCard p m heq] at k2
      exact (hx p).2.2 ⟨k1, k2⟩

/-- Witness of C10: on the pool of the end-to-end example the three segments
return three candidates with three different titles. -/
theorem C10_witness :
    (findBestTorrents (acceptingEnv (.body lowerCasePool none)) ufc300 lowerCasePool
      EarlyPrelims).1 =
        .ok ⟨"magnet:?xt=abc", "ufc 300 1080p early prelims", 10, "magnet:?xt=abc"⟩ ∧
    (findBestTorrents (acceptingEnv (.body lowerCasePool none)) ufc300 lowerCasePool Prelims).1 =
      .ok ⟨"magnet:?xt=def", "ufc 300 1080p prelims", 20, "magnet:?xt=def"⟩ ∧
    (findBestTorrents (acceptingEnv (.body lowerCasePool none)) ufc300 lowerCasePool MainCard).1 =
      .ok ⟨"magnet:?xt=ghi", "ufc 300 1080p", 30, "magnet:?xt=ghi"⟩ ∧
    (⟨"magnet:?xt=abc", "ufc 300 1080p early prelims", 10, "magnet:?xt=abc"⟩ :
      ProwlarrTorrent).Title ≠
      (⟨"magnet:?xt=def", "ufc 300 1080p prelims", 20, "magnet:?xt=def"⟩ :
        ProwlarrTorrent).Title ∧
    (⟨"magnet:?xt=abc", "ufc 300 1080p early prelims", 10, "magnet:?xt=abc"⟩ :
      ProwlarrTorrent).Title ≠
      (⟨"magnet:?xt=ghi", "ufc 300 1080p", 30, "magnet:?xt=ghi"⟩ : ProwlarrTorrent).Title ∧
    (⟨"magnet:?xt=def", "ufc 300 1080p prelims", 20, "magnet:?xt=def"⟩ :
      ProwlarrTorrent).Title ≠
      (⟨"magnet:?xt=ghi", "ufc 300 1080p", 30, "magnet:?xt=ghi"⟩ : ProwlarrTorrent).Title :=
  ⟨by rfl, by rfl, by rfl,
    ((C10_segments_mutually_exclusive ufc300).2.2 (acceptingEnv (.body lowerCasePool none))
      lowerCasePool ⟨"magnet:?xt=abc", "ufc 300 1080p early prelims", 10, "magnet:?xt=abc"⟩
      ⟨"magnet:?xt=def", "ufc 300 1080p prelims", 20, "magnet:?xt=def"⟩
      ⟨"magnet:?xt=ghi", "ufc 300 1080p", 30, "magnet:?xt=ghi"⟩).1 (by rfl) (by rfl),
    ((C10_segments_mutually_exclusive ufc300).2.2 (acceptingEnv (.body lowerCasePool none))
      lowerCasePool ⟨"magnet:?xt=abc", "ufc 300 1080p early prelims", 10, "magnet:?xt=abc"⟩
      ⟨"magnet:?xt=def", "ufc 300 1080p prelims", 20, "magnet:?xt=def"⟩
      ⟨"magnet:?xt=ghi", "ufc 300 1080p", 30, "magnet:?xt=ghi"⟩).2.1 (by rfl) (by rfl),
    ((C10_segments_mutually_exclusive ufc300).2.2 (acceptingEnv (.body lowerCasePool none))
      lowerCasePool ⟨"magnet:?xt=abc", "ufc 300 1080p early prelims", 10, "magnet:?xt=abc"⟩
      ⟨"magnet:?xt=def", "ufc 300 1080p prelims", 20, "magnet:?xt=def"⟩
      ⟨"magnet:?xt=ghi", "ufc 300 1080p", 30, "magnet:?xt=ghi"⟩).2.2 (by rfl) (by rfl)⟩

end Apeg
